import Mathlib

/-!
# Zyzzyva database builder: a shallow embedding of CreateDatabaseThread

The definitions below follow `src/libzyzzyva/CreateDatabaseThread.cpp`.
A `QString` is modelled by its list of characters, a `QMap<QString, QString>`
by its list of entries in ascending key order, and the C++ `int` and `double`
values of the probability pass by `Int` (the values are tile counts and
ranks, far below the machine bounds).
-/

namespace Zyzzyva

/-- A QString, as the list of its characters. -/
abbrev QString := List Char

/-- The constant PROGRESS_STEP of CreateDatabaseThread.cpp. -/
def PROGRESS_STEP : Int := 1000

/-- The constant MAX_DEFINITION_LINKS of CreateDatabaseThread.cpp. -/
def MAX_DEFINITION_LINKS : Int := 3

/-- The constant MAX_WORD_LEN of Defs.h. -/
def MAX_WORD_LEN : Nat := 15

/-! ## QMap -/

/-- A `QMap<QString, QString>`: its entries, in ascending order of the keys
(the order in which a QMapIterator visits them). -/
abbrev QMap := List (QString × QString)

/-- The method `QMap::insert(key, value)`: an entry with the same key has its
value replaced, otherwise the entry is placed at its position in key order. -/
def qmapInsert (k v : QString) : QMap → QMap
  | [] => [(k, v)]
  | (k', v') :: m =>
    if k < k' then (k, v) :: (k', v') :: m
    else if k' < k then (k', v') :: qmapInsert k v m
    else (k, v) :: m

/-- The method `QMap::contains(key)`. -/
def qmapContains (m : QMap) (k : QString) : Bool :=
  m.any (fun e => e.1 == k)

/-- The method `QMap::operator[](key)` read on a const map: the value stored
under the key, or an empty string when the key is absent. -/
def qmapValue (m : QMap) (k : QString) : QString :=
  match m.find? (fun e => e.1 == k) with
  | some e => e.2
  | none => []

/-! ## updateProbabilityOrder -/

/-- One row of the SELECT of updateProbabilityOrder:
`word, num_blanks, combinations`. -/
structure ProbRow where
  word : QString
  numBlanks : Int
  combinations : Int
deriving DecidableEq, Repr

/-- The five values bound to `updateQuery` for one `exec()`:
`UPDATE probability SET probability_order=?, min_probability_order=?,
max_probability_order=? WHERE word=? and num_blanks=?`. -/
structure ProbUpdate where
  probOrder : Int
  minProbOrder : Int
  maxProbOrder : Int
  word : QString
  numBlanks : Int
deriving DecidableEq, Repr

/-- The local variables of updateProbabilityOrder during the scan of one
length, together with `stepNum`, the UPDATE statements executed so far, the
progress values emitted so far, and whether the function has returned early
on cancellation. -/
structure RankState where
  equalWordMap : QMap
  probOrder : Int
  minProbOrder : Int
  prevCombinations : Int
  prevNumBlanks : Int
  stepNum : Int
  updates : List ProbUpdate
  progress : List Int
  returned : Bool
deriving Repr

/-- The state at the top of the `for` body (lines 417-421). -/
def RankState.init (stepNum : Int) (updates : List ProbUpdate) (progress : List Int) :
    RankState :=
  { equalWordMap := [], probOrder := 1, minProbOrder := 1, prevCombinations := 0,
    prevNumBlanks := -1, stepNum := stepNum, updates := updates, progress := progress,
    returned := false }

/-- The `while (it.hasNext())` loop of lines 431-442, over the values of
equalWordMap: every word is written with the previous number of blanks and
probOrder is incremented. -/
def flushNewBlanks (maxProbOrder : Int) : List QString → RankState → RankState
  | [], s => s
  | equalWord :: rest, s =>
    flushNewBlanks maxProbOrder rest
      { s with
        updates := s.updates ++
          [⟨s.probOrder, s.minProbOrder, maxProbOrder, equalWord, s.prevNumBlanks⟩]
        probOrder := s.probOrder + 1 }

/-- The `while (it.hasNext())` loop of lines 453-476: every word is written
with the current number of blanks; every PROGRESS_STEP steps the cancelled flag
is read and the function returns early when it is set; probOrder and stepNum
are incremented. -/
def flushRun (cancelled : Bool) (maxProbOrder numBlanks : Int) :
    List QString → RankState → RankState
  | [], s => s
  | equalWord :: rest, s =>
    let s1 : RankState := { s with
      updates := s.updates ++
        [⟨s.probOrder, s.minProbOrder, maxProbOrder, equalWord, numBlanks⟩] }
    if s1.stepNum % PROGRESS_STEP = 0 then
      if cancelled then { s1 with returned := true }
      else
        flushRun cancelled maxProbOrder numBlanks rest
          { s1 with
            progress := s1.progress ++ [s1.stepNum]
            probOrder := s1.probOrder + 1
            stepNum := s1.stepNum + 1 }
    else
      flushRun cancelled maxProbOrder numBlanks rest
        { s1 with probOrder := s1.probOrder + 1, stepNum := s1.stepNum + 1 }

/-- The `while (it.hasNext())` loop of lines 490-500, after the scan: every
word is written with the previous number of blanks; probOrder is left as it
is. -/
def flushFinal (maxProbOrder : Int) : List QString → RankState → RankState
  | [], s => s
  | equalWord :: rest, s =>
    flushFinal maxProbOrder rest
      { s with
        updates := s.updates ++
          [⟨s.probOrder, s.minProbOrder, maxProbOrder, equalWord, s.prevNumBlanks⟩] }

/-- The body of `while (selectQuery.next())` (lines 424-486) for one row.
`alphagram` stands for Auxil::getAlphagram. Once the function has returned,
no further row is processed. -/
def scanRow (cancelled : Bool) (alphagram : QString → QString)
    (s : RankState) (row : ProbRow) : RankState :=
  if s.returned then s
  else
    -- Entering new num blanks range, clear everything out
    let s1 :=
      if row.numBlanks ≠ s.prevNumBlanks then
        let maxProbOrder := s.minProbOrder + s.equalWordMap.length - 1
        let t := flushNewBlanks maxProbOrder (s.equalWordMap.map Prod.snd) s
        { t with equalWordMap := [], probOrder := 1, minProbOrder := 1,
                 prevCombinations := 0 }
      else s
    -- Update probability ranges
    let s2 :=
      if row.combinations ≠ s1.prevCombinations ∧ s1.equalWordMap ≠ [] then
        let maxProbOrder := s1.minProbOrder + s1.equalWordMap.length - 1
        let t := flushRun cancelled maxProbOrder row.numBlanks
          (s1.equalWordMap.map Prod.snd) s1
        if t.returned then t
        else { t with minProbOrder := t.probOrder, equalWordMap := [] }
      else s1
    if s2.returned then s2
    else
      -- Sort words by alphagram
      { s2 with
        equalWordMap := qmapInsert (alphagram row.word ++ row.word) row.word s2.equalWordMap
        prevCombinations := row.combinations
        prevNumBlanks := row.numBlanks }

/-- One iteration of `for (int length = 1; ...)` (lines 414-500) on the rows
returned by the SELECT for that length, from the given step number, list of
executed updates and list of emitted progress values. -/
def updateProbabilityOrderLength (cancelled : Bool) (alphagram : QString → QString)
    (stepNum : Int) (updates : List ProbUpdate) (progress : List Int)
    (rows : List ProbRow) : RankState :=
  let s := rows.foldl (scanRow cancelled alphagram) (RankState.init stepNum updates progress)
  if s.returned then s
  else
    let maxProbOrder := s.minProbOrder + s.equalWordMap.length - 1
    flushFinal maxProbOrder (s.equalWordMap.map Prod.snd) s

/-- The function updateProbabilityOrder: the lengths 1 to MAX_WORD_LEN in
turn, `select length` being the rows the SELECT returns for that length. The
result carries the final stepNum, all UPDATE statements executed, the
progress values emitted and whether the function returned early. -/
def updateProbabilityOrder (cancelled : Bool) (alphagram : QString → QString)
    (select : Nat → List ProbRow) (stepNum : Int) : RankState :=
  (List.range MAX_WORD_LEN).foldl
    (fun s i =>
      if s.returned then s
      else updateProbabilityOrderLength cancelled alphagram s.stepNum s.updates s.progress
        (select (i + 1)))
    (RankState.init stepNum [] [])


/-! ### Reference quantities for the ranking -/

/-- The tie-break key of line 482: the alphagram followed by the word. -/
def radixKey (alphagram : QString → QString) (word : QString) : QString :=
  alphagram word ++ word

/-- The UPDATE statements of one band: consecutive probability orders from
`probOrder` on, with the same band limits. -/
def bandUpdates (probOrder minProbOrder maxProbOrder numBlanks : Int) :
    List QString → List ProbUpdate
  | [] => []
  | w :: ws =>
    ⟨probOrder, minProbOrder, maxProbOrder, w, numBlanks⟩ ::
      bandUpdates (probOrder + 1) minProbOrder maxProbOrder numBlanks ws

/-- The row has the given number of blanks and the given combinations. -/
def inRun (nb c : Int) (x : ProbRow) : Bool :=
  decide (x.numBlanks = nb ∧ x.combinations = c)

/-- The row has the given number of blanks and strictly more combinations. -/
def aboveRun (nb c : Int) (x : ProbRow) : Bool :=
  decide (x.numBlanks = nb ∧ c < x.combinations)

/-- The row has the given number of blanks and at least the given
combinations. -/
def fromRun (nb c : Int) (x : ProbRow) : Bool :=
  decide (x.numBlanks = nb ∧ c ≤ x.combinations)

/-- The row is in the given run and its tie-break key is below `k`. -/
def keyBelow (alphagram : QString → QString) (nb c : Int) (k : QString) (x : ProbRow) : Bool :=
  inRun nb c x && decide (radixKey alphagram x.word < k)

/-- Number of rows of the class of `r` with strictly greater combinations. -/
def countGreater (rows : List ProbRow) (r : ProbRow) : Nat :=
  rows.countP (aboveRun r.numBlanks r.combinations)

/-- Number of rows of the class of `r` with combinations greater than or equal
to those of `r`. -/
def countGreaterEq (rows : List ProbRow) (r : ProbRow) : Nat :=
  rows.countP (fromRun r.numBlanks r.combinations)

/-- Number of rows of the class with `nb` blanks. -/
def classSize (rows : List ProbRow) (nb : Int) : Nat :=
  rows.countP (fun x => decide (x.numBlanks = nb))

/-- Number of rows tied with `r` whose tie-break key is smaller. -/
def rankInRun (alphagram : QString → QString) (rows : List ProbRow) (r : ProbRow) : Nat :=
  rows.countP (keyBelow alphagram r.numBlanks r.combinations (radixKey alphagram r.word))

/-- The order of the SELECT: num_blanks ascending, then combinations
descending. -/
def selectOrder (a b : ProbRow) : Prop :=
  a.numBlanks < b.numBlanks ∨ (a.numBlanks = b.numBlanks ∧ b.combinations ≤ a.combinations)

instance selectOrderDecidable (a b : ProbRow) : Decidable (selectOrder a b) :=
  inferInstanceAs (Decidable (a.numBlanks < b.numBlanks ∨
    (a.numBlanks = b.numBlanks ∧ b.combinations ≤ a.combinations)))

/-- No row comes after the run of `r` in the SELECT order: `r` belongs to the
run that is written by the loop after the scan. -/
def isLastRun (rows : List ProbRow) (r : ProbRow) : Bool :=
  rows.all (fun y => decide (selectOrder y r))

/-- The entries of a QMap are in strictly ascending key order. -/
def KeysAscending (m : QMap) : Prop :=
  m.Pairwise (fun a b => a.1 < b.1)

/-- The UPDATE that a row of a run flushed during the scan receives: the
band of its run, and inside the band its position in key order. -/
def rankedUpdate (alphagram : QString → QString) (rows : List ProbRow) (r : ProbRow) :
    ProbUpdate :=
  ⟨1 + countGreater rows r + rankInRun alphagram rows r, 1 + countGreater rows r,
    countGreaterEq rows r, r.word, r.numBlanks⟩

/-- The UPDATE that a row of the run flushed after the scan receives: the
band of its run, and the first rank of the band as probability order. -/
def lastRunUpdate (rows : List ProbRow) (r : ProbRow) : ProbUpdate :=
  ⟨1 + countGreater rows r, 1 + countGreater rows r, countGreaterEq rows r, r.word,
    r.numBlanks⟩

/-- The UPDATE that updateProbabilityOrder executes for a row. -/
def expectedUpdate (alphagram : QString → QString) (rows : List ProbRow) (r : ProbRow) :
    ProbUpdate :=
  if isLastRun rows r then lastRunUpdate rows r else rankedUpdate alphagram rows r

/-- The loop invariant of the scan over the rows of one length, after the
rows `pre` have been processed: the map holds the current run in key order,
minProbOrder is the first rank of the current run, and every row of an
earlier run has received its UPDATE. -/
structure ScanInv (alphagram : QString → QString) (rows pre : List ProbRow)
    (s : RankState) : Prop where
  notReturned : s.returned = false
  probEq : s.probOrder = s.minProbOrder
  sorted : KeysAscending s.equalWordMap
  perm : s.equalWordMap.Perm
    ((pre.filter (inRun s.prevNumBlanks s.prevCombinations)).map
      (fun x => (radixKey alphagram x.word, x.word)))
  below : ∀ r ∈ pre, r.numBlanks < s.prevNumBlanks ∨
    (r.numBlanks = s.prevNumBlanks ∧ s.prevCombinations ≤ r.combinations)
  nonempty : pre ≠ [] → s.equalWordMap ≠ []
  minEq : s.minProbOrder = 1 + (pre.countP (aboveRun s.prevNumBlanks s.prevCombinations) : Nat)
  sound : ∀ u ∈ s.updates, ∃ r ∈ pre,
    inRun s.prevNumBlanks s.prevCombinations r = false ∧ u = rankedUpdate alphagram rows r
  complete : ∀ r ∈ pre, inRun s.prevNumBlanks s.prevCombinations r = false →
    rankedUpdate alphagram rows r ∈ s.updates

/-- Every row receives an UPDATE, and every UPDATE written to the row carries
the band of the row: the minimum is one more than the number of rows of the
class with strictly greater combinations, the maximum is the number of rows
of the class with combinations greater than or equal to those of the row. -/
def ReceivesBand (rows : List ProbRow) (out : List ProbUpdate) : Prop :=
  ∀ r ∈ rows,
    (∃ u ∈ out, u.word = r.word ∧ u.numBlanks = r.numBlanks) ∧
    ∀ u ∈ out, u.word = r.word → u.numBlanks = r.numBlanks →
      u.minProbOrder = 1 + (countGreater rows r : Int) ∧
      u.maxProbOrder = (countGreaterEq rows r : Int)

/-- The bands written for every class tile `1..n`, `n` being the size of the
class: two bands of a class are equal or disjoint, every band lies inside
`1..n`, every rank of `1..n` lies in a band, and a band that ends below `n` is
followed by a band that starts at the next rank. -/
def BandsTile (rows : List ProbRow) (out : List ProbUpdate) : Prop :=
  (∀ u ∈ out, ∀ v ∈ out, u.numBlanks = v.numBlanks →
    (u.minProbOrder = v.minProbOrder ∧ u.maxProbOrder = v.maxProbOrder) ∨
      u.maxProbOrder < v.minProbOrder ∨ v.maxProbOrder < u.minProbOrder) ∧
  (∀ u ∈ out, 1 ≤ u.minProbOrder ∧ u.minProbOrder ≤ u.maxProbOrder ∧
    u.maxProbOrder ≤ (classSize rows u.numBlanks : Int)) ∧
  (∀ nb : Int, ∀ k : Int, 1 ≤ k → k ≤ (classSize rows nb : Int) →
    ∃ u ∈ out, u.numBlanks = nb ∧ u.minProbOrder ≤ k ∧ k ≤ u.maxProbOrder) ∧
  (∀ u ∈ out, u.maxProbOrder < (classSize rows u.numBlanks : Int) →
    ∃ v ∈ out, v.numBlanks = u.numBlanks ∧ v.minProbOrder = u.maxProbOrder + 1)

/-- Modelled from the spec: Auxil::getAlphagram is not among the sources; the
spec describes the alphagram as the letters of the word sorted into ascending
order. -/
def getAlphagram (word : QString) : QString :=
  word.insertionSort (fun a b => a ≤ b)

/-- Rows of the two-letter words AB, BA and CD as the SELECT returns them:
number of blanks ascending, combinations descending. -/
def sampleRows : List ProbRow :=
  [⟨['A', 'B'], 0, 5⟩, ⟨['B', 'A'], 0, 5⟩, ⟨['C', 'D'], 0, 0⟩,
   ⟨['B', 'A'], 1, 7⟩, ⟨['A', 'B'], 1, 7⟩, ⟨['C', 'D'], 1, 7⟩,
   ⟨['C', 'D'], 2, 9⟩, ⟨['B', 'A'], 2, 8⟩, ⟨['A', 'B'], 2, 8⟩]

/-- The rows of sampleRows with tied rows in another order, as a second run
of the same SELECT may return them. -/
def sampleRowsReordered : List ProbRow :=
  [⟨['B', 'A'], 0, 5⟩, ⟨['A', 'B'], 0, 5⟩, ⟨['C', 'D'], 0, 0⟩,
   ⟨['C', 'D'], 1, 7⟩, ⟨['B', 'A'], 1, 7⟩, ⟨['A', 'B'], 1, 7⟩,
   ⟨['C', 'D'], 2, 9⟩, ⟨['A', 'B'], 2, 8⟩, ⟨['B', 'A'], 2, 8⟩]

/-! ## Strings and regular expressions of the definition pass -/

/-- The character class `\s` of QRegExp and the test QChar::isSpace, on the
ASCII range: space, tab, line feed, vertical tab, form feed, carriage
return. -/
def isSpace (c : Char) : Bool :=
  c == ' ' || c == '\t' || c == '\n' || c == Char.ofNat 11 || c == Char.ofNat 12 || c == '\r'

/-- The character class `\w` of QRegExp, on the ASCII range: a letter, a digit
or the underscore. -/
def isWordChar (c : Char) : Bool :=
  c.isAlphanum || c == '_'

/-- The method QString::toUpper, on the ASCII range. -/
def toUpper (s : QString) : QString :=
  s.map Char.toUpper

/-- The method QString::simplified, first part: the maximal runs of
characters that are not whitespace. `cur` is the run being read. -/
def simplifiedWords : QString → QString → List QString
  | [], cur => if cur = [] then [] else [cur]
  | c :: rest, cur =>
    if isSpace c then
      if cur = [] then simplifiedWords rest [] else cur :: simplifiedWords rest []
    else simplifiedWords rest (cur ++ [c])

/-- The method QString::simplified: whitespace removed from both ends, and
every inner run of whitespace replaced by one space. -/
def simplified (s : QString) : QString :=
  [' '].intercalate (simplifiedWords s [])

/-- The method QString::split(sep) for a separator that is not empty: the
pieces between the successive occurrences of the separator, empty pieces
kept. `skip` is the number of characters of a separator still to pass, `cur`
the piece being read. -/
def splitGo (sep : QString) : QString → Nat → QString → List QString
  | [], _, cur => [cur]
  | _ :: rest, skip + 1, cur => splitGo sep rest skip cur
  | c :: rest, 0, cur =>
    if sep.isPrefixOf (c :: rest) then cur :: splitGo sep rest (sep.length - 1) []
    else splitGo sep rest 0 (cur ++ [c])

/-- The call `definition.split(" / ")`. -/
def splitSenses (definition : QString) : List QString :=
  splitGo [' ', '/', ' '] definition 0 []

/-- The method QString::indexOf for one character: the index of its first
occurrence, or -1. -/
def indexOfChar (c : Char) : QString → Int
  | [] => -1
  | d :: rest =>
    if d = c then 0
    else
      let i := indexOfChar c rest
      if i < 0 then -1 else i + 1

/-- The method QString::left(n): the first `n` characters; the entire string
when `n` is negative or not below the size. -/
def left (s : QString) (n : Int) : QString :=
  if n < 0 ∨ (s.length : Int) ≤ n then s else s.take n.toNat

/-- The result of QRegExp::indexIn for one of the two link patterns: the index
of the match, cap(1), cap(2) and matchedLength(). -/
structure TokenMatch where
  index : Nat
  word : QString
  pos : QString
  matchedLength : Nat
deriving DecidableEq, Repr

/-- A match of `opening (\w+) = (\w+) closing` at the start of the text:
cap(1) and cap(2). Neither `=` nor the closing bracket is a word character, so
each `\w+` can only match the whole run of word characters. -/
def matchTokenAt (opening closing : Char) : QString → Option (QString × QString)
  | [] => none
  | c :: rest =>
    if c = opening ∧ rest.takeWhile isWordChar ≠ [] then
      match rest.dropWhile isWordChar with
      | [] => none
      | e :: rest2 =>
        if e = '=' ∧ rest2.takeWhile isWordChar ≠ [] then
          match rest2.dropWhile isWordChar with
          | [] => none
          | d :: _ =>
            if d = closing then some (rest.takeWhile isWordChar, rest2.takeWhile isWordChar)
            else none
        else none
    else none

/-- The call `regex.indexIn(text, 0)` for the pattern
`opening (\w+) = (\w+) closing`: the leftmost match, or none (index -1). -/
def indexInToken (opening closing : Char) : QString → Option TokenMatch
  | [] => none
  | c :: rest =>
    match matchTokenAt opening closing (c :: rest) with
    | some (w, p) => some ⟨0, w, p, w.length + p.length + 3⟩
    | none =>
      match indexInToken opening closing rest with
      | some m => some { m with index := m.index + 1 }
      | none => none

/-- The call `followRegex.indexIn(definition, 0)`, followRegex being
`\{(\w+)=(\w+)\}`. -/
def followIndexIn (definition : QString) : Option TokenMatch :=
  indexInToken (Char.ofNat 123) (Char.ofNat 125) definition

/-- The call `replaceRegex.indexIn(definition, 0)`, replaceRegex being
`\<(\w+)=(\w+)\>`. -/
def replaceIndexIn (definition : QString) : Option TokenMatch :=
  indexInToken '<' '>' definition

/-- The call `posRegex.indexIn(def, 0)`, posRegex being `\[(\w+)`: the index
of the leftmost match and cap(1), or none. -/
def posIndexIn : QString → Option (Nat × QString)
  | [] => none
  | c :: rest =>
    if c = '[' ∧ rest.takeWhile isWordChar ≠ [] then some (0, rest.takeWhile isWordChar)
    else
      match posIndexIn rest with
      | some m => some (m.1 + 1, m.2)
      | none => none

/-- The `foreach` of getSubDefinition (lines 769-777): the first sense in
which posRegex matches at a positive index with cap(1) equal to `pos` and
whose text before the first `[` is not empty once simplified. -/
def firstSubDefinition (pos : QString) : List QString → QString
  | [] => []
  | d :: rest =>
    match posIndexIn d with
    | some (index, cap1) =>
      if 0 < index ∧ cap1 = pos then
        let str := simplified (left d (indexOfChar '[' d))
        if str ≠ [] then str else firstSubDefinition pos rest
      else firstSubDefinition pos rest
    | none => firstSubDefinition pos rest

/-- The function getSubDefinition (lines 759-780). -/
def getSubDefinition (definitions : QMap) (word pos : QString) : QString :=
  if ¬ qmapContains definitions word then []
  else firstSubDefinition pos (splitSenses (qmapValue definitions word))

/-- The choice of the regular expression in replaceDefinitionLinks (lines
701-710): the match, the value of useFollow after the choice, and whether the
matched expression is followRegex. -/
def findToken (definition : QString) (useFollow : Bool) : Option (TokenMatch × Bool × Bool) :=
  match followIndexIn definition with
  | some m => some (m, true, true)
  | none =>
    match replaceIndexIn definition with
    | some m => some (m, useFollow, false)
    | none => none

/-- The replacement computed in lines 719-737. -/
def linkReplacement (definitions : QMap) (m : TokenMatch) (maxDepth : Int)
    (useFollow isFollowRegex : Bool) : QString :=
  let upper := toUpper m.word
  let failReplacement := if useFollow then m.word else upper
  if maxDepth = 0 then failReplacement
  else
    let subdef := getSubDefinition definitions upper m.pos
    if subdef = [] then failReplacement
    else if useFollow then
      if isFollowRegex then m.word ++ [' ', '('] ++ subdef ++ [')'] else subdef
    else upper ++ [',', ' '] ++ subdef

/-- The call `modified.replace(index, matchedLength, replacement)`. -/
def replaceAt (definition : QString) (m : TokenMatch) (replacement : QString) : QString :=
  definition.take m.index ++ replacement ++ definition.drop (m.index + m.matchedLength)

/-- The function replaceDefinitionLinks (lines 691-745). The C++ function is
recursive without a bound on the number of calls in replace mode; `fuel` bounds
the number of nested calls and the result is none when it is used up. -/
def replaceDefinitionLinks (definitions : QMap) :
    Nat → QString → Int → Bool → Option QString
  | 0, _, _, _ => none
  | fuel + 1, definition, maxDepth, useFollow =>
    match findToken definition useFollow with
    | none => some definition
    | some (m, useFollow1, isFollowRegex) =>
      let replacement := linkReplacement definitions m maxDepth useFollow1 isFollowRegex
      let modified := replaceAt definition m replacement
      let lowerMaxDepth := if useFollow1 then maxDepth - 1 else maxDepth
      if maxDepth ≠ 0 then
        replaceDefinitionLinks definitions fuel modified lowerMaxDepth useFollow1
      else some modified

/-- A match of `\s+/\s+[^[]`, the second alternative of defRegex, at the
start of the text: whitespace, a slash, whitespace and one more character
other than `[`, which may itself be the last character of the whitespace. -/
def altSenseAt (text : QString) : Bool :=
  text.takeWhile isSpace ≠ [] &&
    match text.dropWhile isSpace with
    | '/' :: rest =>
      match rest.takeWhile isSpace, rest.dropWhile isSpace with
      | [], _ => false
      | [_], [] => false
      | [_], d :: _ => d ≠ '['
      | _ :: _ :: _, _ => true
    | _ => false

/-- Some position of the text starts a match of `\s+/\s+[^[]`. -/
def altSenseAnywhere : QString → Bool
  | [] => false
  | c :: rest => altSenseAt (c :: rest) || altSenseAnywhere rest

/-- Whether defRegex `^[^[]|\s+/\s+[^[]` matches somewhere in the
definition. -/
def defRegexMatches (definition : QString) : Bool :=
  (match definition with
    | [] => false
    | c :: _ => c ≠ '[') || altSenseAnywhere definition

/-- The state of getDefinitions: the definitions map, stepNum, the progress
values emitted and whether the function returned early. -/
structure DefsState where
  definitions : QMap
  stepNum : Int
  progress : List Int
  returned : Bool
deriving Repr

/-- The body of the `while (selectQuery.next())` of getDefinitions (lines
661-674) for one row `(word, definition)` of the words table. -/
def getDefinitionsRow (cancelled : Bool) (s : DefsState) (row : QString × QString) :
    DefsState :=
  if s.returned then s
  else if ¬ defRegexMatches row.2 then
    let stepNum := s.stepNum + 1
    if stepNum % PROGRESS_STEP = 0 then
      if cancelled then { s with stepNum := stepNum, returned := true }
      else { s with stepNum := stepNum, progress := s.progress ++ [stepNum] }
    else { s with stepNum := stepNum }
  else { s with definitions := qmapInsert row.1 row.2 s.definitions }

/-- The function getDefinitions (lines 651-676) on the rows of the words
table, starting from the given definitions map. -/
def getDefinitions (cancelled : Bool) (rows : List (QString × QString)) (stepNum : Int)
    (definitions : QMap) : DefsState :=
  rows.foldl (getDefinitionsRow cancelled) ⟨definitions, stepNum, [], false⟩

/-- The loop of updateDefinitionLinks that builds newDefinition from the
senses (lines 615-620); useFollow takes its default value, false. -/
def resolveSenses (definitions : QMap) (fuel : Nat) : List QString → QString → Option QString
  | [], newDefinition => some newDefinition
  | d :: rest, newDefinition =>
    let withBreak := if newDefinition ≠ [] then newDefinition ++ ['\n'] else newDefinition
    match replaceDefinitionLinks definitions fuel d MAX_DEFINITION_LINKS false with
    | none => none
    | some resolved => resolveSenses definitions fuel rest (withBreak ++ resolved)

/-- The new definition that updateDefinitionLinks computes for one entry of
the definitions map (lines 614-620). -/
def newDefinitionOf (definitions : QMap) (fuel : Nat) (definition : QString) : Option QString :=
  resolveSenses definitions fuel (splitSenses definition) []

/-- The words table of the example of the spec: RUN defined with its tag in
front of the sense text, SPRINT by a follow link to RUN. -/
def sprintRows : List (QString × QString) :=
  [("RUN".toList, "[v] to move fast".toList), ("SPRINT".toList, "\x7bRUN=v\x7d".toList)]

/-- The same words table with the definition of RUN in the format that
getSubDefinition reads: the sense text followed by the bracketed tag. -/
def sprintRowsTagLast : List (QString × QString) :=
  [("RUN".toList, "to move fast [v]".toList), ("SPRINT".toList, "\x7bRUN=v\x7d".toList)]

/-- The resolved definition of a word: getDefinitions on the rows of the words
table, then the new definition that updateDefinitionLinks computes for the
entry of the word. -/
def resolveWord (rows : List (QString × QString)) (fuel : Nat) (word : QString) :
    Option QString :=
  newDefinitionOf (getDefinitions false rows 0 []).definitions fuel
    (qmapValue (getDefinitions false rows 0 []).definitions word)

/-- The number of positions of the text at which a follow token or a replace
token starts. -/
def tokenCount : QString → Nat
  | [] => 0
  | c :: rest =>
    (if (matchTokenAt (Char.ofNat 123) (Char.ofNat 125) (c :: rest)).isSome ||
        (matchTokenAt '<' '>' (c :: rest)).isSome then 1 else 0) + tokenCount rest

/-- The text of a matched token: `{word=pos}` for followRegex, `<word=pos>`
for replaceRegex. -/
def tokenText (isFollowRegex : Bool) (m : TokenMatch) : QString :=
  (if isFollowRegex then Char.ofNat 123 else '<') :: m.word ++ '=' :: m.pos ++
    [if isFollowRegex then Char.ofNat 125 else '>']

/-- The character opens a follow token or a replace token. -/
def isOpener (c : Char) : Bool :=
  c == Char.ofNat 123 || c == '<'

/-- The number of characters of the text that open a token. -/
def openCount (text : QString) : Nat :=
  text.countP isOpener

/-- A definitions map whose only entry refers to itself by a replace
token: the definition of A is "<a=n> [n]". -/
def cyclicDefinitions : QMap :=
  [(['A'], "<a=n> [n]".toList)]

/-- The text that the expansions of the self-referring replace token put in
front of the token: `k` copies of "A, ". -/
def cyclePrefix : Nat → QString
  | 0 => []
  | k + 1 => cyclePrefix k ++ "A, ".toList

/-- A raw definition with three senses: a follow link, a replace link and
plain text. -/
def threeSenses : QString :=
  "\x7bRUN=v\x7d / a <run=v> / b".toList

/-- The second alternative of defRegex in the words of the spec: somewhere in
the text stand whitespace, a slash, whitespace and then a character other
than `[`. -/
def HasAlternateSense (text : QString) : Prop :=
  ∃ a ws1 ws2 c b, text = a ++ ws1 ++ '/' :: ws2 ++ c :: b ∧
    ws1 ≠ [] ∧ (∀ x ∈ ws1, isSpace x = true) ∧
    ws2 ≠ [] ∧ (∀ x ∈ ws2, isSpace x = true) ∧ c ≠ '['

/-- The definitions that getDefinitions keeps, in the words of the spec: the
definition is not empty and its first character is not `[`, or it has an
alternate sense. -/
def KeptBySpec (definition : QString) : Prop :=
  (∃ c rest, definition = c :: rest ∧ c ≠ '[') ∨ HasAlternateSense definition

/-- The definition starts with a bracketed tag and holds sense text, that is a
character other than whitespace, after the tag. -/
def SenseAfterLeadingTag (definition : QString) : Prop :=
  ∃ tag sense, definition = '[' :: tag ++ ']' :: sense ∧ ']' ∉ tag ∧
    ∃ c ∈ sense, isSpace c = false

/-! ## insertWords -/

/-- The method QString::toLower, on the ASCII range. -/
def toLower (s : QString) : QString :=
  s.map Char.toLower

/-- The method QString::right(n): the last `n` characters; the entire string
when `n` is negative or not below the size. -/
def right (s : QString) (n : Int) : QString :=
  if n < 0 ∨ (s.length : Int) ≤ n then s else s.drop (s.length - n.toNat)

/-- A LexiconStyle of the settings: words of `lexicon` are marked with `symbol`
when their presence in `compareLexicon` equals `inCompareLexicon`. -/
structure LexiconStyle where
  lexicon : QString
  compareLexicon : QString
  inCompareLexicon : Bool
  symbol : QString
deriving DecidableEq, Repr

/-- The collaborators that CreateDatabaseThread calls and whose code is not
part of it: the WordEngine (isAcceptable, lexiconIsLoaded, wordGraphSearch for
a length, getNumWords), the LetterBag (getLetterValue, getNumCombinations),
Auxil (getNumUniqueLetters, getNumVowels, getAlphagram) and MainSettings
(getWordListLexiconStyles). -/
structure Collaborators where
  isAcceptable : QString → QString → Bool
  lexiconIsLoaded : QString → Bool
  wordGraphSearch : QString → Nat → List QString
  getNumWords : QString → Int
  getLetterValue : Char → Int
  getNumCombinations : QString → Int → Int
  getNumUniqueLetters : QString → Int
  getNumVowels : QString → Int
  getAlphagram : QString → QString
  getWordListLexiconStyles : List LexiconStyle

/-- The values bound to the INSERT into the words table (lines 321-331). -/
structure WordRow where
  word : QString
  length : Int
  alphagram : QString
  numUniqueLetters : Int
  numVowels : Int
  pointValue : Int
  frontHooks : QString
  backHooks : QString
  isFrontHook : Int
  isBackHook : Int
  lexiconSymbols : QString
deriving DecidableEq, Repr

/-- The SQL statements that CreateDatabaseThread executes, with the values
bound to them. -/
inductive Statement where
  | createTable (name : String)
  | insertInto (table : String)
  | createIndex (name : String)
  | insertWord (row : WordRow)
  | insertProbability (word : QString) (length : Int) (numBlanks : Int) (combinations : Int)
  | updateNumAnagrams (numAnagrams : Int) (word : QString)
  | updateProbability (update : ProbUpdate)
  | updateDefinition (definition : QString) (word : QString)
deriving DecidableEq, Repr

/-- The list `letters` of insertWords (lines 203-206). -/
def letters : List Char :=
  "ABCDEFGHIJKLMNOPQRSTUVWXYZ".toList

/-- The method `contains` of the `QMap<QString, int>` numAnagramsMap. -/
def anagramsContains (m : List (QString × Int)) (k : QString) : Bool :=
  m.any (fun e => e.1 == k)

/-- The value read by `numAnagramsMap[key]`; a missing key reads as 0, the
value that `operator[]` inserts for it. -/
def anagramsValue (m : List (QString × Int)) (k : QString) : Int :=
  match m.find? (fun e => e.1 == k) with
  | some e => e.2
  | none => 0

/-- The assignment `numAnagramsMap[key] = value`. The map is never iterated,
so the order of its entries plays no part. -/
def anagramsSet (k : QString) (v : Int) : List (QString × Int) → List (QString × Int)
  | [] => [(k, v)]
  | (k', v') :: m => if k' = k then (k, v) :: m else (k', v') :: anagramsSet k v m

/-- Lines 254-257: count one more word for the alphagram. -/
def countAnagram (m : List (QString × Int)) (alphagram : QString) : List (QString × Int) :=
  if anagramsContains m alphagram then anagramsSet alphagram (anagramsValue m alphagram + 1) m
  else anagramsSet alphagram 1 m

/-- The `foreach` over the letters (lines 264-270): the strings `front` and
`back` of the letters that make an acceptable word in front of the word and
behind it. -/
def hookLetters (isAcceptable : QString → Bool) (word : QString) : QString × QString :=
  letters.foldl
    (fun fb letter =>
      (if isAcceptable (letter :: word) then fb.1 ++ [letter] else fb.1,
       if isAcceptable (word ++ [letter]) then fb.2 ++ [letter] else fb.2))
    ([], [])

/-- The first `while (it.hasNext())` of lines 276-282: symbolStr. -/
def wordSymbols (isAcceptable : QString → QString → Bool) (word : QString)
    (lexStyles : List LexiconStyle) : QString :=
  lexStyles.foldl
    (fun symbolStr style =>
      if !(xor (isAcceptable style.compareLexicon word) style.inCompareLexicon) then
        symbolStr ++ style.symbol
      else symbolStr)
    []

/-- The inner `while (it.hasNext())` of lines 290-299 (and 308-317) over the
styles, for the hook word of the letter at index `i`: a matching style has its
symbol inserted at index `i + 1` and `i` moved on by the length of the
symbol. The result is the string and the index after the loop. -/
def annotateStyles (isAcceptable : QString → QString → Bool) (hookWord : QString) :
    List LexiconStyle → QString → Nat → QString × Nat
  | [], hooks, i => (hooks, i)
  | style :: rest, hooks, i =>
    if !(xor (isAcceptable style.compareLexicon hookWord) style.inCompareLexicon) then
      annotateStyles isAcceptable hookWord rest
        (hooks.take (i + 1) ++ style.symbol ++ hooks.drop (i + 1)) (i + style.symbol.length)
    else annotateStyles isAcceptable hookWord rest hooks i

/-- The loop `for (int i = 0; i < front.length(); ++i)` of lines 285-300 (and
303-318 for `back`), from index `i` on. `hookWordOf` builds the hook word from
the upper-cased character at index `i`. Every iteration leaves one character
less behind the index, so the number of iterations is at most the number of
characters behind it; `fuel` bounds the number of iterations. -/
def annotateHooks (isAcceptable : QString → QString → Bool) (lexStyles : List LexiconStyle)
    (hookWordOf : Char → QString) : Nat → QString → Nat → QString
  | 0, hooks, _ => hooks
  | fuel + 1, hooks, i =>
    if i < hooks.length then
      let c := hooks.getD i ' '
      let r := annotateStyles isAcceptable (hookWordOf c.toUpper) lexStyles hooks i
      annotateHooks isAcceptable lexStyles hookWordOf fuel r.1 (r.2 + 1)
    else hooks

/-- The values that the first loop of insertWords binds for one word (lines
245-331); `length` is the length searched for. -/
def wordRow (env : Collaborators) (lexiconName : QString) (lexStyles : List LexiconStyle)
    (length : Nat) (word : QString) : WordRow :=
  let hooks := hookLetters (env.isAcceptable lexiconName) word
  let annotated : QString × QString :=
    if lexStyles ≠ [] then
      (annotateHooks env.isAcceptable lexStyles (fun c => c :: word) hooks.1.length hooks.1 0,
       annotateHooks env.isAcceptable lexStyles (fun c => word ++ [c]) hooks.2.length hooks.2 0)
    else hooks
  { word := word
    length := length
    alphagram := env.getAlphagram word
    numUniqueLetters := env.getNumUniqueLetters word
    numVowels := env.getNumVowels word
    pointValue := (word.map env.getLetterValue).sum
    frontHooks := toLower annotated.1
    backHooks := toLower annotated.2
    isFrontHook := if env.isAcceptable lexiconName (right word ((word.length : Int) - 1)) then 1
      else 0
    isBackHook := if env.isAcceptable lexiconName (left word ((word.length : Int) - 1)) then 1
      else 0
    lexiconSymbols :=
      if lexStyles ≠ [] then wordSymbols env.isAcceptable word lexStyles else [] }

/-- The state of insertWords: numAnagramsMap, stepNum, the statements executed
so far, the progress values emitted so far and whether the function has
returned early on cancellation. -/
structure InsertState where
  numAnagramsMap : List (QString × Int)
  stepNum : Int
  writes : List Statement
  progress : List Int
  returned : Bool
deriving Repr

/-- The check that ends every loop body of insertWords: every PROGRESS_STEP
steps the cancelled flag is read, the function returns when it is set and
emits progress otherwise; then stepNum is incremented. -/
def InsertState.check (cancelled : Bool) (s : InsertState) : InsertState :=
  if s.stepNum % PROGRESS_STEP = 0 then
    if cancelled then { s with returned := true }
    else { s with progress := s.progress ++ [s.stepNum], stepNum := s.stepNum + 1 }
  else { s with stepNum := s.stepNum + 1 }

/-- The body of the first `foreach` over the words (lines 244-342). -/
def insertWordRow (cancelled : Bool) (env : Collaborators) (lexiconName : QString)
    (lexStyles : List LexiconStyle) (length : Nat) (s : InsertState) (word : QString) :
    InsertState :=
  if s.returned then s
  else
    InsertState.check cancelled
      { s with
        numAnagramsMap := countAnagram s.numAnagramsMap (env.getAlphagram word)
        writes := s.writes ++
          [Statement.insertWord (wordRow env lexiconName lexStyles length word)] }

/-- The body of the second `foreach` over the words (lines 347-366): one row
of the probability table for 0, 1 and 2 blanks. -/
def insertProbabilityRows (cancelled : Bool) (env : Collaborators) (length : Nat)
    (s : InsertState) (word : QString) : InsertState :=
  if s.returned then s
  else
    InsertState.check cancelled
      { s with
        writes := s.writes ++
          [Statement.insertProbability word length 0 (env.getNumCombinations word 0),
           Statement.insertProbability word length 1 (env.getNumCombinations word 1),
           Statement.insertProbability word length 2 (env.getNumCombinations word 2)] }

/-- The body of the third `foreach` over the words (lines 370-384): the
number of anagrams read from numAnagramsMap. -/
def updateAnagramCount (cancelled : Bool) (env : Collaborators) (s : InsertState)
    (word : QString) : InsertState :=
  if s.returned then s
  else
    InsertState.check cancelled
      { s with
        writes := s.writes ++
          [Statement.updateNumAnagrams
            (anagramsValue s.numAnagramsMap (env.getAlphagram word)) word] }

/-- The body of `for (int length = 1; ...)` of insertWords (lines 230-384). -/
def insertWordsLength (cancelled : Bool) (env : Collaborators) (lexiconName : QString)
    (lexStyles : List LexiconStyle) (s : InsertState) (length : Nat) : InsertState :=
  let words := env.wordGraphSearch lexiconName length
  let s1 := words.foldl (insertWordRow cancelled env lexiconName lexStyles length) s
  let s2 := words.foldl (insertProbabilityRows cancelled env length) s1
  words.foldl (updateAnagramCount cancelled env) s2

/-- The styles that insertWords keeps (lines 213-222): those of the lexicon
whose compare lexicon is loaded. -/
def applicableStyles (env : Collaborators) (lexiconName : QString) : List LexiconStyle :=
  env.getWordListLexiconStyles.filter
    (fun style => !(style.lexicon != lexiconName || !env.lexiconIsLoaded style.compareLexicon))

/-- The function insertWords (lines 199-388), without the statements that
open and close the transaction: the lengths 1 to MAX_WORD_LEN in turn. -/
def insertWords (cancelled : Bool) (env : Collaborators) (lexiconName : QString)
    (stepNum : Int) : InsertState :=
  (List.range MAX_WORD_LEN).foldl
    (fun s i =>
      insertWordsLength cancelled env lexiconName (applicableStyles env lexiconName) s (i + 1))
    ⟨[], stepNum, [], [], false⟩

/-- The symbols that annotate a hook word: those of the styles for which the
presence of the hook word in the compare lexicon equals inCompareLexicon, in
the order of the style list. -/
def hookSymbols (isAcceptable : QString → QString → Bool) (lexStyles : List LexiconStyle)
    (hookWord : QString) : QString :=
  (lexStyles.filter
    (fun style => isAcceptable style.compareLexicon hookWord == style.inCompareLexicon)).flatMap
    (fun style => style.symbol)

/-- The lower-case letters a to z in alphabetical order. -/
def lowerLetters : List Char :=
  "abcdefghijklmnopqrstuvwxyz".toList

/-- The words found by the length searches for the lengths 1 to `n`, in the
order in which insertWords reads them. -/
def searchedWords (env : Collaborators) (lexiconName : QString) (n : Nat) : List QString :=
  (List.range n).flatMap (fun i => env.wordGraphSearch lexiconName (i + 1))

/-- The words of a small lexicon. -/
def sampleWords : List QString :=
  ["AT".toList, "EAT".toList, "ATE".toList, "TEA".toList, "BAT".toList]

/-- Collaborators for the small lexicon: a word is acceptable in every
lexicon when it is one of sampleWords, every letter is worth one point, and
the number of combinations of a word is its length plus the number of
blanks. -/
def sampleEnv : Collaborators where
  isAcceptable := fun _ w => sampleWords.contains w
  lexiconIsLoaded := fun _ => true
  wordGraphSearch := fun _ n => sampleWords.filter (fun w => w.length == n)
  getNumWords := fun _ => 5
  getLetterValue := fun _ => 1
  getNumCombinations := fun w nb => w.length + nb
  getNumUniqueLetters := fun w => w.eraseDups.length
  getNumVowels := fun w => w.countP (fun c => "AEIOU".toList.contains c)
  getAlphagram := getAlphagram
  getWordListLexiconStyles := []

/-! ## updateDefinitions -/

/-- The method QString::split for a separator of one character, empty pieces
kept; `cur` is the piece being read. -/
def splitChar (sep : Char) : QString → QString → List QString
  | [], cur => [cur]
  | c :: rest, cur =>
    if c = sep then cur :: splitChar sep rest [] else splitChar sep rest (cur ++ [c])

/-- The method QString::section(sep, start, end) with the default flags, for
a `start` that is not negative after the adjustment: the string is split at
the separator, a negative `start` or `end` counts from the right, and the
fields `start` to `end` are joined with the separator. -/
def qsection (s : QString) (sep : Char) (start endField : Int) : QString :=
  let sections := splitChar sep s []
  let first := if start < 0 then start + sections.length else start
  let last := if endField < 0 then endField + sections.length else endField
  [sep].intercalate ((sections.drop first.toNat).take (last - first + 1).toNat)

/-- The state of updateDefinitions and of the update loop of
updateDefinitionLinks: stepNum, the statements executed so far, the progress
values emitted so far and whether the function has returned early on
cancellation. -/
structure PhaseState where
  stepNum : Int
  writes : List Statement
  progress : List Int
  returned : Bool
deriving Repr

/-- The check of updateDefinitions (lines 530-538 and 548-556): every
PROGRESS_STEP steps the cancelled flag is read, the function returns when it is
set and emits progress otherwise; then stepNum is incremented. -/
def PhaseState.check (cancelled : Bool) (s : PhaseState) : PhaseState :=
  if s.stepNum % PROGRESS_STEP = 0 then
    if cancelled then { s with returned := true }
    else { s with progress := s.progress ++ [s.stepNum], stepNum := s.stepNum + 1 }
  else { s with stepNum := s.stepNum + 1 }

/-- The body of the `while (definitionFile.readLine(...) > 0)` of
updateDefinitions (lines 527-556) for one line read from the file. -/
def updateDefinitionsLine (cancelled : Bool) (s : PhaseState) (buffer : QString) :
    PhaseState :=
  if s.returned then s
  else
    let line := simplified buffer
    if line.length = 0 ∨ line.head? = some '#' then PhaseState.check cancelled s
    else
      let word := toUpper (qsection line ' ' 0 0)
      let definition := qsection line ' ' 1 (-1)
      PhaseState.check cancelled
        { s with writes := s.writes ++ [Statement.updateDefinition definition word] }

/-- The function updateDefinitions (lines 514-562), without the statements
that open and close the transaction. `definitionFile` is none when the file
cannot be opened, and else the lines that readLine returns. -/
def updateDefinitions (cancelled : Bool) (definitionFile : Option (List QString))
    (stepNum : Int) : PhaseState :=
  match definitionFile with
  | none => ⟨stepNum, [], [], false⟩
  | some lines => lines.foldl (updateDefinitionsLine cancelled) ⟨stepNum, [], [], false⟩

/-! ## The database connection and the signals -/

/-- What the thread sends to the database connection: the statement
BEGIN TRANSACTION, a statement that reads no result, and the statement
END TRANSACTION. The code sends no other transaction statement; in
particular it never sends ROLLBACK. -/
inductive DbEvent where
  | beginTransaction
  | exec (statement : Statement)
  | endTransaction
deriving DecidableEq, Repr

/-- The signals of the thread. -/
inductive Signal where
  | steps (numSteps : Int)
  | progress (stepNum : Int)
deriving DecidableEq, Repr

/-- What one phase of runPrivate leaves behind: stepNum, the statements sent
to the database, the progress values emitted and whether the phase returned
early on cancellation. -/
structure PhaseResult where
  stepNum : Int
  events : List DbEvent
  progress : List Int
  returned : Bool
deriving DecidableEq, Repr

/-- The function createTables (lines 105-136): five tables, and one row in
each of db_version, lexicon_date and lexicon_file. -/
def createTables : List DbEvent :=
  [DbEvent.exec (Statement.createTable "words"),
   DbEvent.exec (Statement.createTable "probability"),
   DbEvent.exec (Statement.createTable "db_version"),
   DbEvent.exec (Statement.insertInto "db_version"),
   DbEvent.exec (Statement.createTable "lexicon_date"),
   DbEvent.exec (Statement.insertInto "lexicon_date"),
   DbEvent.exec (Statement.createTable "lexicon_file"),
   DbEvent.exec (Statement.insertInto "lexicon_file")]

/-- The indexes of createIndexes, in the order of the source. -/
def indexNames : List String :=
  ["word_index", "word_length_index", "prob_word_blanks_index", "prob_word_index",
   "prob_length_index", "prob_blanks_index", "prob_order", "prob_min_max_order"]

/-- The body of createIndexes from one index on: the index is created, then
the cancelled flag is read and the function returns when it is set. -/
def createIndexesFrom (cancelled : Bool) : List String → List DbEvent
  | [] => []
  | name :: rest =>
    DbEvent.exec (Statement.createIndex name) ::
      (if cancelled then [] else createIndexesFrom cancelled rest)

/-- The function createIndexes (lines 146-189). -/
def createIndexes (cancelled : Bool) : List DbEvent :=
  createIndexesFrom cancelled indexNames

/-- The function insertWords with its transaction: BEGIN TRANSACTION (line
224), the statements of the loops, and END TRANSACTION, which every cancel
branch executes before its return (lines 336, 360, 378) and which ends the
function otherwise (line 387). -/
def insertWordsPhase (cancelled : Bool) (env : Collaborators) (lexiconName : QString)
    (stepNum : Int) : PhaseResult :=
  let s := insertWords cancelled env lexiconName stepNum
  { stepNum := s.stepNum
    events := DbEvent.beginTransaction :: s.writes.map DbEvent.exec ++
      (if s.returned then [DbEvent.endTransaction] else [DbEvent.endTransaction])
    progress := s.progress
    returned := s.returned }

/-- The function updateProbabilityOrder with its transaction: BEGIN
TRANSACTION (line 400), the updates, and END TRANSACTION, which the cancel
branch executes before its return (line 468) and which ends the function
otherwise (line 503). -/
def updateProbabilityOrderPhase (cancelled : Bool) (alphagram : QString → QString)
    (select : Nat → List ProbRow) (stepNum : Int) : PhaseResult :=
  let s := updateProbabilityOrder cancelled alphagram select stepNum
  { stepNum := s.stepNum
    events := DbEvent.beginTransaction ::
      s.updates.map (fun u => DbEvent.exec (Statement.updateProbability u)) ++
      (if s.returned then [DbEvent.endTransaction] else [DbEvent.endTransaction])
    progress := s.progress
    returned := s.returned }

/-- The function updateDefinitions with its transaction: BEGIN TRANSACTION
(line 516), the updates, and END TRANSACTION, which both cancel branches
execute before their return (lines 532, 550) and which ends the function
otherwise (line 561), also when the file cannot be opened. -/
def updateDefinitionsPhase (cancelled : Bool) (definitionFile : Option (List QString))
    (stepNum : Int) : PhaseResult :=
  let s := updateDefinitions cancelled definitionFile stepNum
  { stepNum := s.stepNum
    events := DbEvent.beginTransaction :: s.writes.map DbEvent.exec ++
      (if s.returned then [DbEvent.endTransaction] else [DbEvent.endTransaction])
    progress := s.progress
    returned := s.returned }

/-! ## updateDefinitionLinks -/

/-- The body of the `while (it.hasNext())` of updateDefinitionLinks (lines
609-636) for one entry `(word, definition)` of the definitions map. The result
is none when a call of replaceDefinitionLinks runs out of fuel. -/
def updateDefinitionLinksEntry (cancelled : Bool) (definitions : QMap) (fuel : Nat)
    (s : PhaseState) (entry : QString × QString) : Option PhaseState :=
  if s.returned then some s
  else
    match newDefinitionOf definitions fuel entry.2 with
    | none => none
    | some newDefinition =>
      let s1 : PhaseState :=
        if entry.2 ≠ newDefinition then
          { s with writes := s.writes ++ [Statement.updateDefinition newDefinition entry.1] }
        else s
      let stepNum := s1.stepNum + 1
      if stepNum % PROGRESS_STEP = 0 then
        if cancelled then some { s1 with stepNum := stepNum, returned := true }
        else some { s1 with stepNum := stepNum, progress := s1.progress ++ [stepNum] }
      else some { s1 with stepNum := stepNum }

/-- The `while (it.hasNext())` of updateDefinitionLinks over the entries of
the definitions map. -/
def updateDefinitionLinksLoop (cancelled : Bool) (definitions : QMap) (fuel : Nat) :
    List (QString × QString) → PhaseState → Option PhaseState
  | [], s => some s
  | entry :: rest, s =>
    match updateDefinitionLinksEntry cancelled definitions fuel s entry with
    | none => none
    | some s1 => updateDefinitionLinksLoop cancelled definitions fuel rest s1

/-- The transaction of updateDefinitionLinks (lines 603-639): BEGIN
TRANSACTION (line 606), the updates of the loop, and END TRANSACTION, which the
cancel branch executes before its return (line 632) and which ends the
function otherwise (line 639). -/
def updateDefinitionLinksTransaction (cancelled : Bool) (definitions : QMap) (fuel : Nat)
    (stepNum : Int) : Option PhaseResult :=
  match updateDefinitionLinksLoop cancelled definitions fuel definitions
      ⟨stepNum, [], [], false⟩ with
  | none => none
  | some s =>
    some
      { stepNum := s.stepNum
        events := DbEvent.beginTransaction :: s.writes.map DbEvent.exec ++
          (if s.returned then [DbEvent.endTransaction] else [DbEvent.endTransaction])
        progress := s.progress
        returned := s.returned }

/-- The function updateDefinitionLinks (lines 595-640): getDefinitions on the
rows of the words table, a return when the cancelled flag is set (line 600),
and else the transaction. -/
def updateDefinitionLinks (cancelled : Bool) (selectWords : List (QString × QString))
    (fuel : Nat) (stepNum : Int) : Option PhaseResult :=
  let d := getDefinitions cancelled selectWords stepNum []
  if cancelled then some ⟨d.stepNum, [], d.progress, true⟩
  else
    match updateDefinitionLinksTransaction cancelled d.definitions fuel d.stepNum with
    | none => none
    | some r => some { r with progress := d.progress ++ r.progress }

/-! ## runPrivate -/

/-- The database as runPrivate meets it: whether `db.open()` succeeds, the
rows that the SELECT of updateProbabilityOrder returns for each length, and
the rows `(word, definition)` that the SELECT of getDefinitions returns. -/
structure Database where
  opens : Bool
  selectProbability : Nat → List ProbRow
  selectWords : List (QString × QString)

/-- What a run of runPrivate produces: the signals emitted and the statements
sent to the database, each in the order of the run. -/
structure RunResult where
  signals : List Signal
  events : List DbEvent
deriving DecidableEq, Repr

/-- The function runPrivate (lines 56-96). `definitionFile` is none when the
definitions file cannot be opened. The arithmetic is that of unbounded
integers, `tdiv` being the division of C++. The result is none when a call of
replaceDefinitionLinks runs out of fuel. -/
def runPrivate (cancelled : Bool) (env : Collaborators) (db : Database)
    (lexiconName : QString) (definitionFile : Option (List QString)) (fuel : Nat) :
    Option RunResult :=
  if ¬ db.opens then some ⟨[], []⟩
  else
    let stepNumIncs : Int := 8
    let numWords := env.getNumWords lexiconName
    let baseProgress := (numWords * stepNumIncs).tdiv 99
    let numSteps := numWords * stepNumIncs + baseProgress + 1
    let stepNum := baseProgress
    let inserted := insertWordsPhase cancelled env lexiconName stepNum
    let ordered := updateProbabilityOrderPhase cancelled env.getAlphagram
      db.selectProbability inserted.stepNum
    let defined := updateDefinitionsPhase cancelled definitionFile ordered.stepNum
    match updateDefinitionLinks cancelled db.selectWords fuel defined.stepNum with
    | none => none
    | some linked =>
      some
        { signals :=
            [Signal.steps 100, Signal.progress 1, Signal.steps numSteps,
              Signal.progress stepNum] ++
            (inserted.progress ++ ordered.progress ++ defined.progress ++
              linked.progress).map Signal.progress ++
            [Signal.progress numSteps]
          events := createTables ++ createIndexes cancelled ++ inserted.events ++
            ordered.events ++ defined.events ++ linked.events }

/-! ## The store -/

/-- The store as committed state plus an open transaction: the statements
that are committed, and the statements of the open transaction when there is
one. -/
structure Store where
  committed : List Statement
  openTransaction : Option (List Statement)
deriving DecidableEq, Repr

/-- The effect of one statement on the store. BEGIN TRANSACTION opens a
transaction; a statement joins the open transaction, or is committed at once
when none is open; END TRANSACTION, which in SQLite is another name of COMMIT,
commits the statements of the open transaction. -/
def Store.apply (store : Store) : DbEvent → Store
  | DbEvent.beginTransaction =>
    match store.openTransaction with
    | none => { store with openTransaction := some [] }
    | some _ => store
  | DbEvent.exec statement =>
    match store.openTransaction with
    | none => { store with committed := store.committed ++ [statement] }
    | some pending => { store with openTransaction := some (pending ++ [statement]) }
  | DbEvent.endTransaction =>
    match store.openTransaction with
    | none => store
    | some pending => { committed := store.committed ++ pending, openTransaction := none }

/-- The store after a sequence of statements. -/
def Store.run (store : Store) (events : List DbEvent) : Store :=
  events.foldl Store.apply store

/-- The definitions file of the sample lexicon. -/
def sampleDefinitionFile : List QString :=
  ["# sample definitions\n".toList, "at in the position of [prep]\n".toList,
   "eat to consume [v]\n".toList, "ate \x7beat=v\x7d [v]\n".toList,
   "tea a beverage [n]\n".toList, "bat a club [n]\n".toList]

/-- The database of the sample lexicon after a run that is not cancelled:
three probability rows for each word, in the order of the SELECT, and the
words with their definitions. -/
def sampleDatabase : Database where
  opens := true
  selectProbability := fun length =>
    if length = 2 then
      [⟨"AT".toList, 0, 2⟩, ⟨"AT".toList, 1, 3⟩, ⟨"AT".toList, 2, 4⟩]
    else if length = 3 then
      [⟨"EAT".toList, 0, 3⟩, ⟨"ATE".toList, 0, 3⟩, ⟨"TEA".toList, 0, 3⟩, ⟨"BAT".toList, 0, 3⟩,
       ⟨"EAT".toList, 1, 4⟩, ⟨"ATE".toList, 1, 4⟩, ⟨"TEA".toList, 1, 4⟩, ⟨"BAT".toList, 1, 4⟩,
       ⟨"EAT".toList, 2, 5⟩, ⟨"ATE".toList, 2, 5⟩, ⟨"TEA".toList, 2, 5⟩, ⟨"BAT".toList, 2, 5⟩]
    else []
  selectWords :=
    [("AT".toList, "in the position of [prep]".toList),
     ("EAT".toList, "to consume [v]".toList),
     ("ATE".toList, "\x7beat=v\x7d [v]".toList),
     ("TEA".toList, "a beverage [n]".toList),
     ("BAT".toList, "a club [n]".toList)]

/-- The database of the sample lexicon in a run that is cancelled from its
start: insertWords returns after the first word, so that the probability
table is empty and the words table holds the first word, with the definition
that updateDefinitions has set. -/
def cancelledDatabase : Database where
  opens := true
  selectProbability := fun _ => []
  selectWords := [("AT".toList, "in the position of [prep]".toList)]

/-- The database of the sample lexicon after a run without definitions: the
probability rows of the sample database, and the words with empty
definitions. -/
def undefinedDatabase : Database where
  opens := true
  selectProbability := sampleDatabase.selectProbability
  selectWords := sampleDatabase.selectWords.map (fun row => (row.1, []))

/-! ## Progress -/

/-- The values emitted through progress after the last announcement of a
total through steps. -/
def progressAfterSteps (signals : List Signal) : List Int :=
  signals.foldl
    (fun values signal =>
      match signal with
      | Signal.steps _ => []
      | Signal.progress stepNum => values ++ [stepNum])
    []

/-- The values are non-decreasing and lie between `lo` and `hi`. -/
def Bounded (lo hi : Int) (values : List Int) : Prop :=
  values.Pairwise (fun a b => a ≤ b) ∧ ∀ p ∈ values, lo ≤ p ∧ p ≤ hi

/-- The rows that the SELECT of updateProbabilityOrder returns for the
lengths 1 to n. -/
def selectedRows (select : Nat → List ProbRow) (n : Nat) : List ProbRow :=
  (List.range n).flatMap (fun i => select (i + 1))

/-- The number of lines that updateDefinitions reads. -/
def fileLength : Option (List QString) → Nat
  | none => 0
  | some lines => lines.length

/-- The definitions file of the sample lexicon, followed by 980 lines of
comment. -/
def paddedDefinitionFile : List QString :=
  sampleDefinitionFile ++ List.replicate 980 "# padding\n".toList

/-- The calls of replaceDefinitionLinks that one call gives rise to, itself
first: the arguments `(definition, maxDepth, useFollow)` of every nested call,
in the order of the recursion (lines 740-743). `fuel` bounds the number of
calls as in replaceDefinitionLinks. -/
def replaceDefinitionLinksCalls (definitions : QMap) :
    Nat → QString → Int → Bool → List (QString × Int × Bool)
  | 0, _, _, _ => []
  | fuel + 1, definition, maxDepth, useFollow =>
    (definition, maxDepth, useFollow) ::
      match findToken definition useFollow with
      | none => []
      | some (m, useFollow1, isFollowRegex) =>
        let replacement := linkReplacement definitions m maxDepth useFollow1 isFollowRegex
        let modified := replaceAt definition m replacement
        let lowerMaxDepth := if useFollow1 then maxDepth - 1 else maxDepth
        if maxDepth ≠ 0 then
          replaceDefinitionLinksCalls definitions fuel modified lowerMaxDepth useFollow1
        else []

/-- The number of token substitutions in a chain of calls: the calls in which
one of the two regular expressions matches. -/
def substitutionCount (calls : List (QString × Int × Bool)) : Nat :=
  calls.countP (fun call => (findToken call.1 call.2.2).isSome)

/-- The call falls back: the token that the call finds, if there is one, gets
the failure replacement of lines 722-729, because maxDepth is 0 or because
getSubDefinition returns the empty string for the word and the part of speech
of the token. -/
def fallsBack (definitions : QMap) (call : QString × Int × Bool) : Bool :=
  match findToken call.1 call.2.2 with
  | none => true
  | some (m, _, _) =>
    decide (call.2.1 = 0 ∨ getSubDefinition definitions (toUpper m.word) m.pos = [])

/-- A definitions map in which RUN has the sense "to move fast" as a verb and
JOG refers to RUN by a follow token. -/
def followDefinitions : QMap :=
  qmapInsert "JOG".toList "\x7brun=v\x7d slowly [v]".toList
    (qmapInsert "RUN".toList "to move fast [v]".toList [])

/-- The test that getSubDefinition applies to one sense (lines 770-776): the
regular expression posRegex matches after the start of the sense, its cap(1)
equals `pos`, and the text before the first `[` is not empty once
simplified. -/
def senseQualifies (pos d : QString) : Bool :=
  match posIndexIn d with
  | some (index, cap1) =>
    decide (0 < index ∧ cap1 = pos) && decide (simplified (left d (indexOfChar '[' d)) ≠ [])
  | none => false

/-! ## WordTableModel -/

/-- The class WordTableModel::WordItem, whose declaration in WordTableModel.h
is not among the sources: a word and its type, read through getWord and
getType and set through setWord and setType. The type is the integer value of
the enumeration WordType. -/
structure WordItem where
  word : QString
  type : Int
deriving DecidableEq, Repr

/-- The function lessThan (lines 49-54): the comparison by lexical value of the
upper-cased words. -/
def lessThan (a b : WordItem) : Bool :=
  decide (toUpper a.word < toUpper b.word)

/-- The function lengthLessThan (lines 65-77). -/
def lengthLessThan (a b : WordItem) : Bool :=
  if a.word.length < b.word.length then true
  else if a.word.length > b.word.length then false
  else lessThan a b

/-- The method std::set<QChar>::insert on the elements of the set in ascending
order: a character that is in the set is not inserted again. -/
def setInsert (c : Char) : List Char → List Char
  | [] => [c]
  | d :: rest =>
    if c < d then c :: d :: rest
    else if d < c then d :: setInsert c rest
    else d :: rest

/-- The loop over the words found in getFrontHookLetters and
getBackHookLetters (lines 454-456 and 486-488): the character of each word that
`charAt` selects is lower-cased and inserted in the set. The result is none when
`charAt` is out of range for a word. -/
def insertHookLetters (charAt : QString → Option Char) :
    List QString → List Char → Option (List Char)
  | [], letters => some letters
  | w :: rest, letters =>
    match charAt w with
    | none => none
    | some c => insertHookLetters charAt rest (setInsert c.toLower letters)

/-- The function WordTableModel::getFrontHookLetters (lines 443-463): the first
characters `(*it).at(0)` of the words that `search` returns for the pattern
"?" + word, lower-cased, in the order of the set. `search` stands for
wordEngine->search with a specification of this one pattern. -/
def getFrontHookLetters (search : QString → List QString) (word : QString) : Option QString :=
  insertHookLetters (fun w => w.head?) (search ('?' :: word)) []

/-- The function WordTableModel::getBackHookLetters (lines 475-495): the last
characters `(*it).at((*it).length() - 1)` of the words that `search` returns
for the pattern word + "?", lower-cased, in the order of the set. -/
def getBackHookLetters (search : QString → List QString) (word : QString) : Option QString :=
  insertHookLetters (fun w => w.getLast?) (search (word ++ ['?'])) []

/-- A pattern search on the sample lexicon: "?AT" finds EAT and BAT, "AT?"
finds ATE. -/
def sampleSearch (pattern : QString) : List QString :=
  if pattern = "?AT".toList then ["EAT".toList, "BAT".toList]
  else if pattern = "AT?".toList then ["ATE".toList]
  else []

/-- The map equalWordMap after the words of one run have been inserted under
their tie-break keys (lines 482-483), from the empty map. -/
def insertTied (alphagram : QString → QString) (words : List QString) : QMap :=
  words.foldl (fun m w => qmapInsert (radixKey alphagram w) w m) []

/-- The members of a WordTableModel that addWords reads and writes: wordList
and lastAddedIndex. -/
structure WordTableModel where
  wordList : List WordItem
  lastAddedIndex : Int
deriving DecidableEq, Repr

/-- The function WordTableModel::rowCount (lines 179-183). -/
def rowCount (model : WordTableModel) : Int :=
  model.wordList.length

/-- The method QList::insert(i, value): the value is inserted before position
`i`, at the front when `i` is not positive and at the end when `i` is not below
the size. -/
def qlistInsert {α : Type} (l : List α) (i : Int) (value : α) : List α :=
  l.take i.toNat ++ value :: l.drop i.toNat

/-- The element at position `i` of a QList modified in place, as by
`wordList[i].setWord(...)`. -/
def updateAt {α : Type} (f : α → α) : List α → Nat → List α
  | [], _ => []
  | x :: xs, 0 => f x :: xs
  | x :: xs, i + 1 => x :: updateAt f xs i

/-- The function WordTableModel::insertRows (lines 317-328): `count` times an
item with an empty word and the type WordNormal is inserted at `row`. The value
of WordNormal is declared in WordTableModel.h, which is not among the sources,
and is a parameter. The function returns true. -/
def insertRows (WordNormal : Int) (model : WordTableModel) (row count : Int) :
    Bool × WordTableModel :=
  (true,
    { model with
      wordList := (List.range count.toNat).foldl
        (fun l _ => qlistInsert l row ⟨[], WordNormal⟩) model.wordList })

/-- The function WordTableModel::setData (lines 366-380) for the index
`index(row, 0)`, which is valid when `row` is a row of the model, and the role
Qt::EditRole: the word of the item is set. -/
def setDataEdit (model : WordTableModel) (row : Int) (word : QString) :
    Bool × WordTableModel :=
  if 0 ≤ row ∧ row < rowCount model then
    (true,
      { model with
        wordList := updateAt (fun item => { item with word := word }) model.wordList row.toNat })
  else (false, model)

/-- The function WordTableModel::setData for the index `index(row, 0)` and the
role Qt::UserRole: the type of the item is set. -/
def setDataUser (model : WordTableModel) (row : Int) (type : Int) : Bool × WordTableModel :=
  if 0 ≤ row ∧ row < rowCount model then
    (true,
      { model with
        wordList := updateAt (fun item => { item with type := type }) model.wordList row.toNat })
  else (false, model)

/-- The function WordTableModel::sort (lines 391-401). `qSort` stands for the
function qSort of Qt with a comparison function, `sortByLength` for
MainSettings::getWordListSortByLength(). -/
def sort (qSort : (WordItem → WordItem → Bool) → List WordItem → List WordItem)
    (sortByLength : Bool) (model : WordTableModel) : WordTableModel :=
  if sortByLength then { model with wordList := qSort lengthLessThan model.wordList }
  else { model with wordList := qSort lessThan model.wordList }

/-- The `foreach` of addWords (lines 159-163): the word and the type of the
item at `row` are set, and `row` is incremented. -/
def addWordsLoop (type : Int) : List QString → Int → WordTableModel → WordTableModel
  | [], _, model => model
  | word :: rest, row, model =>
    addWordsLoop type rest (row + 1) (setDataUser (setDataEdit model row word).2 row type).2

/-- The function WordTableModel::addWords (lines 151-168): the value returned
and the model afterwards. -/
def addWords (qSort : (WordItem → WordItem → Bool) → List WordItem → List WordItem)
    (sortByLength : Bool) (WordNormal : Int) (model : WordTableModel) (words : List QString)
    (type : Int) : Bool × WordTableModel :=
  let row := rowCount model
  let inserted := insertRows WordNormal model row words.length
  if ¬ inserted.1 then (false, inserted.2)
  else
    let filled := addWordsLoop type words row inserted.2
    let sorted := sort qSort sortByLength filled
    (true, { sorted with lastAddedIndex := -1 })

/-- The comparison function that sort passes to qSort. -/
def activeComparator (sortByLength : Bool) : WordItem → WordItem → Bool :=
  if sortByLength then lengthLessThan else lessThan

/-- A sorting function that fulfils the contract of qSort: sorting by
insertion. -/
def insertionQSort (compare : WordItem → WordItem → Bool) (l : List WordItem) : List WordItem :=
  l.insertionSort (fun a b => compare b a = false)

/-! ## WordListSaveDialog -/

/-- The loop of moveSelection over the sorted rows (lines 208-213): the item at
`row` is taken out of the source list and inserted in the destination list at
`insertRow`. The items of a list widget are modelled by their texts. The
result is none when `row` is not a row of the source list, where
`src->item (row)` is a null pointer. -/
def moveRows (insertRow : Int) :
    List Nat → List QString → List QString → Option (List QString × List QString)
  | [], src, dest => some (src, dest)
  | row :: rest, src, dest =>
    match src[row]? with
    | none => none
    | some item => moveRows insertRow rest (src.eraseIdx row) (qlistInsert dest insertRow item)

/-- The function WordListSaveDialog::moveSelection (lines 195-214).
`selectedRows` are the rows of the selected indexes of the source list, in the
order in which the selection model returns them; qSort with qGreater puts them
in descending order, and `insertRow` is the size of the destination list
before the loop. The result is the source list and the destination list
afterwards. -/
def moveSelection (selectedRows : List Nat) (src dest : List QString) :
    Option (List QString × List QString) :=
  moveRows (dest.length : Int) (selectedRows.insertionSort (fun a b => a ≥ b)) src dest

/-- The items of a list whose rows fulfil `p`, in the order of the list; `i`
is the row of the first item. -/
def itemsWhere (p : Nat → Bool) : Nat → List QString → List QString
  | _, [] => []
  | i, x :: xs => if p i then x :: itemsWhere p (i + 1) xs else itemsWhere p (i + 1) xs

/-- The items at the selected rows, in ascending order of their rows. -/
def selectedItems (rows : List Nat) (items : List QString) : List QString :=
  itemsWhere (fun i => decide (i ∈ rows)) 0 items

/-- The items at the rows that are not selected, in their order. -/
def remainingItems (rows : List Nat) (items : List QString) : List QString :=
  itemsWhere (fun i => decide (i ∉ rows)) 0 items

/-! # Verification -/

theorem qmapInsert_ne_nil (k v : QString) (m : QMap) : qmapInsert k v m ≠ [] := by
  cases m with
  | nil => simp [qmapInsert]
  | cons e m =>
    obtain ⟨k', v'⟩ := e
    simp only [qmapInsert]
    split_ifs <;> simp

theorem qmapInsert_mem (k v : QString) (m : QMap) (e : QString × QString)
    (he : e ∈ qmapInsert k v m) : e = (k, v) ∨ e ∈ m := by
  induction m with
  | nil => simpa [qmapInsert] using he
  | cons e' m ih =>
    obtain ⟨k', v'⟩ := e'
    simp only [qmapInsert] at he
    split_ifs at he with h1 h2
    · simpa using he
    · rcases List.mem_cons.1 he with h | h
      · right; simp [h]
      · rcases ih h with h | h
        · left; exact h
        · right; exact List.mem_cons_of_mem _ h
    · rcases List.mem_cons.1 he with h | h
      · left; exact h
      · right; exact List.mem_cons_of_mem _ h

theorem qmapInsert_fresh (k v : QString) (m : QMap) (hm : KeysAscending m)
    (hk : ∀ e ∈ m, e.1 ≠ k) :
    (qmapInsert k v m).Perm ((k, v) :: m) ∧ KeysAscending (qmapInsert k v m) := by
  induction m with
  | nil => exact ⟨by simp [qmapInsert], by simp [qmapInsert, KeysAscending]⟩
  | cons e m ih =>
    obtain ⟨k', v'⟩ := e
    have hne : k' ≠ k := hk (k', v') (List.mem_cons_self _ _)
    have hm' : KeysAscending m := (List.pairwise_cons.1 hm).2
    have hhead : ∀ b ∈ m, k' < b.1 := (List.pairwise_cons.1 hm).1
    simp only [qmapInsert]
    split_ifs with h1 h2
    · refine ⟨List.Perm.refl _, ?_⟩
      refine List.pairwise_cons.2 ⟨?_, hm⟩
      intro b hb
      rcases List.mem_cons.1 hb with h | h
      · simpa [h] using h1
      · exact lt_trans h1 (hhead b h)
    · obtain ⟨ihp, ihs⟩ := ih hm' (fun e he => hk e (List.mem_cons_of_mem _ he))
      refine ⟨(List.Perm.cons _ ihp).trans (List.Perm.swap _ _ _), ?_⟩
      refine List.pairwise_cons.2 ⟨?_, ihs⟩
      intro b hb
      rcases qmapInsert_mem k v m b hb with h | h
      · simpa [h] using h2
      · exact hhead b h
    · exact absurd (le_antisymm (not_lt.1 h1) (not_lt.1 h2)) hne

theorem mem_bandUpdates (p mn mx nb : Int) (m : QMap) (hm : KeysAscending m) (u : ProbUpdate) :
    u ∈ bandUpdates p mn mx nb (m.map Prod.snd) ↔
      ∃ e ∈ m, u = ⟨p + (m.countP (fun a => decide (a.1 < e.1)) : Nat), mn, mx, e.2, nb⟩ := by
  induction m generalizing p with
  | nil => simp [bandUpdates]
  | cons e0 m ih =>
    have hm' : KeysAscending m := (List.pairwise_cons.1 hm).2
    have hhead : ∀ b ∈ m, e0.1 < b.1 := (List.pairwise_cons.1 hm).1
    have h0 : m.countP (fun a => decide (a.1 < e0.1)) = 0 := by
      rw [List.countP_eq_zero]
      intro a ha
      simpa using le_of_lt (hhead a ha)
    simp only [List.map_cons, bandUpdates, List.mem_cons, ih (p + 1) hm', exists_eq_or_imp,
      List.countP_cons, lt_self_iff_false, decide_False, Bool.false_eq_true, if_false, h0]
    apply or_congr
    · simp
    · apply exists_congr
      intro e
      apply and_congr_right
      intro he
      have : decide (e0.1 < e.1) = true := by simpa using hhead e he
      simp only [this, if_true]
      constructor <;> intro h <;> rw [h] <;> congr 1 <;> push_cast <;> ring

theorem flushNewBlanks_eq (mx : Int) (ws : List QString) (s : RankState) :
    flushNewBlanks mx ws s =
      { s with
        updates := s.updates ++ bandUpdates s.probOrder s.minProbOrder mx s.prevNumBlanks ws
        probOrder := s.probOrder + ws.length } := by
  induction ws generalizing s with
  | nil => simp [flushNewBlanks, bandUpdates]
  | cons w ws ih =>
    simp only [flushNewBlanks, ih, bandUpdates, List.length_cons, List.append_assoc,
      List.singleton_append]
    congr 1
    push_cast
    ring

theorem flushFinal_eq (mx : Int) (ws : List QString) (s : RankState) :
    flushFinal mx ws s =
      { s with
        updates := s.updates ++
          ws.map (fun w => ⟨s.probOrder, s.minProbOrder, mx, w, s.prevNumBlanks⟩) } := by
  induction ws generalizing s with
  | nil => simp [flushFinal]
  | cons w ws ih =>
    simp only [flushFinal, ih, List.map_cons, List.append_assoc, List.singleton_append]

theorem flushRun_not_cancelled (mx nb : Int) (ws : List QString) (s : RankState) :
    let t := flushRun false mx nb ws s
    t.updates = s.updates ++ bandUpdates s.probOrder s.minProbOrder mx nb ws ∧
    t.probOrder = s.probOrder + ws.length ∧
    t.stepNum = s.stepNum + ws.length ∧
    t.minProbOrder = s.minProbOrder ∧
    t.equalWordMap = s.equalWordMap ∧
    t.prevCombinations = s.prevCombinations ∧
    t.prevNumBlanks = s.prevNumBlanks ∧
    t.returned = s.returned := by
  induction ws generalizing s with
  | nil => simp [flushRun, bandUpdates]
  | cons w ws ih =>
    simp only [flushRun, Bool.false_eq_true, if_false]
    split_ifs with h
    · have := ih { s with
        updates := s.updates ++ [⟨s.probOrder, s.minProbOrder, mx, w, nb⟩]
        progress := s.progress ++ [s.stepNum]
        probOrder := s.probOrder + 1
        stepNum := s.stepNum + 1 }
      simp only at this
      obtain ⟨h1, h2, h3, h4, h5, h6, h7, h8⟩ := this
      refine ⟨?_, ?_, ?_, h4, h5, h6, h7, h8⟩
      · rw [h1]; simp [bandUpdates]
      · rw [h2]; simp only [List.length_cons]; push_cast; omega
      · rw [h3]; simp only [List.length_cons]; push_cast; omega
    · have := ih { s with
        updates := s.updates ++ [⟨s.probOrder, s.minProbOrder, mx, w, nb⟩]
        probOrder := s.probOrder + 1
        stepNum := s.stepNum + 1 }
      simp only at this
      obtain ⟨h1, h2, h3, h4, h5, h6, h7, h8⟩ := this
      refine ⟨?_, ?_, ?_, h4, h5, h6, h7, h8⟩
      · rw [h1]; simp [bandUpdates]
      · rw [h2]; simp only [List.length_cons]; push_cast; omega
      · rw [h3]; simp only [List.length_cons]; push_cast; omega

theorem countP_fromRun (l : List ProbRow) (nb c : Int) :
    l.countP (fromRun nb c) = l.countP (aboveRun nb c) + l.countP (inRun nb c) := by
  induction l with
  | nil => simp
  | cons x l ih =>
    simp only [List.countP_cons, ih, fromRun, aboveRun, inRun]
    by_cases h1 : x.numBlanks = nb
    · rcases lt_trichotomy c x.combinations with h | h | h
      · have h2 : c ≤ x.combinations := le_of_lt h
        have h3 : x.combinations ≠ c := ne_of_gt h
        simp [h1, h, h2, h3]; omega
      · subst h; simp [h1]; omega
      · have h2 : ¬ c ≤ x.combinations := not_le.2 h
        have h3 : x.combinations ≠ c := ne_of_lt h
        have h4 : ¬ c < x.combinations := not_lt.2 (le_of_lt h)
        simp [h1, h2, h3, h4]
    · simp [h1]

theorem aboveRun_fromRun {nb c : Int} {x : ProbRow} (h : aboveRun nb c x = true) :
    fromRun nb c x = true := by
  simp only [aboveRun, fromRun, decide_eq_true_eq] at *
  exact ⟨h.1, le_of_lt h.2⟩

theorem inRun_fromRun {nb c : Int} {x : ProbRow} (h : inRun nb c x = true) :
    fromRun nb c x = true := by
  simp only [inRun, fromRun, decide_eq_true_eq] at *
  exact ⟨h.1, le_of_eq h.2.symm⟩

theorem countP_map_length (alphagram : QString → QString) (m : QMap) (l : List ProbRow)
    (nb c : Int)
    (hp : m.Perm ((l.filter (inRun nb c)).map (fun x => (radixKey alphagram x.word, x.word)))) :
    m.length = l.countP (inRun nb c) := by
  rw [hp.length_eq, List.length_map, List.countP_eq_length_filter]

theorem countP_map_keyBelow (alphagram : QString → QString) (m : QMap) (l : List ProbRow)
    (nb c : Int) (k : QString)
    (hp : m.Perm ((l.filter (inRun nb c)).map (fun x => (radixKey alphagram x.word, x.word)))) :
    m.countP (fun a => decide (a.1 < k)) = l.countP (keyBelow alphagram nb c k) := by
  rw [hp.countP_eq, List.countP_map, List.countP_filter]
  apply List.countP_congr
  intro x _
  simp [keyBelow, Bool.and_comm]

theorem rankedUpdate_of_run (alphagram : QString → QString) (rows pre tail : List ProbRow)
    (s : RankState) (hrows : rows = pre ++ tail) (hinv : ScanInv alphagram rows pre s)
    (hdone : ∀ y ∈ tail, fromRun s.prevNumBlanks s.prevCombinations y = false)
    (r : ProbRow) (hrun : inRun s.prevNumBlanks s.prevCombinations r = true) :
    rankedUpdate alphagram rows r =
      ⟨s.minProbOrder +
          (s.equalWordMap.countP (fun a => decide (a.1 < radixKey alphagram r.word)) : Nat),
        s.minProbOrder, s.minProbOrder + s.equalWordMap.length - 1, r.word,
        s.prevNumBlanks⟩ := by
  have hr : r.numBlanks = s.prevNumBlanks ∧ r.combinations = s.prevCombinations := by
    simpa [inRun] using hrun
  have t1 : tail.countP (aboveRun s.prevNumBlanks s.prevCombinations) = 0 := by
    rw [List.countP_eq_zero]
    intro y hy h
    have := hdone y hy
    rw [aboveRun_fromRun h] at this
    exact Bool.noConfusion this
  have t2 : tail.countP (fromRun s.prevNumBlanks s.prevCombinations) = 0 := by
    rw [List.countP_eq_zero]
    intro y hy h
    have := hdone y hy
    rw [h] at this
    exact Bool.noConfusion this
  have t3 : tail.countP (keyBelow alphagram s.prevNumBlanks s.prevCombinations
      (radixKey alphagram r.word)) = 0 := by
    rw [List.countP_eq_zero]
    intro y hy h
    have := hdone y hy
    simp only [keyBelow, Bool.and_eq_true] at h
    rw [inRun_fromRun h.1] at this
    exact Bool.noConfusion this
  have hlen := countP_map_length alphagram s.equalWordMap pre _ _ hinv.perm
  have hkey := countP_map_keyBelow alphagram s.equalWordMap pre _ _
    (radixKey alphagram r.word) hinv.perm
  have hmin := hinv.minEq
  have hge := countP_fromRun pre s.prevNumBlanks s.prevCombinations
  simp only [rankedUpdate, countGreater, countGreaterEq, rankInRun, hr.1, hr.2, hrows,
    List.countP_append, t1, t2, t3, add_zero, hkey, hlen, hmin, hge]
  congr 1
  push_cast
  omega

theorem band_of_run (alphagram : QString → QString) (rows pre tail : List ProbRow)
    (s : RankState) (hrows : rows = pre ++ tail) (hinv : ScanInv alphagram rows pre s)
    (hdone : ∀ y ∈ tail, fromRun s.prevNumBlanks s.prevCombinations y = false)
    (u : ProbUpdate) :
    u ∈ bandUpdates s.minProbOrder s.minProbOrder
        (s.minProbOrder + s.equalWordMap.length - 1) s.prevNumBlanks
        (s.equalWordMap.map Prod.snd) ↔
      ∃ r ∈ pre, inRun s.prevNumBlanks s.prevCombinations r = true ∧
        u = rankedUpdate alphagram rows r := by
  rw [mem_bandUpdates _ _ _ _ _ hinv.sorted]
  constructor
  · rintro ⟨e, he, rfl⟩
    obtain ⟨r, hr, rfl⟩ := List.mem_map.1 (hinv.perm.mem_iff.1 he)
    obtain ⟨hrpre, hrun⟩ := List.mem_filter.1 hr
    exact ⟨r, hrpre, hrun,
      (rankedUpdate_of_run alphagram rows pre tail s hrows hinv hdone r hrun).symm⟩
  · rintro ⟨r, hr, hrun, rfl⟩
    exact ⟨(radixKey alphagram r.word, r.word),
      hinv.perm.mem_iff.2 (List.mem_map.2 ⟨r, List.mem_filter.2 ⟨hr, hrun⟩, rfl⟩),
      rankedUpdate_of_run alphagram rows pre tail s hrows hinv hdone r hrun⟩

theorem inRun_self (x : ProbRow) : inRun x.numBlanks x.combinations x = true := by
  simp [inRun]

theorem aboveRun_self (x : ProbRow) : aboveRun x.numBlanks x.combinations x = false := by
  simp [aboveRun]

theorem scanInv_new_run (alphagram : QString → QString) (rows pre : List ProbRow)
    (x : ProbRow) (t : RankState)
    (h1 : t.returned = false) (h2 : t.probOrder = t.minProbOrder)
    (h3 : t.equalWordMap = [(radixKey alphagram x.word, x.word)])
    (h4 : t.prevNumBlanks = x.numBlanks) (h5 : t.prevCombinations = x.combinations)
    (h6 : t.minProbOrder = 1 + (pre.countP (aboveRun x.numBlanks x.combinations) : Nat))
    (h7 : ∀ r ∈ pre, inRun x.numBlanks x.combinations r = false)
    (h8 : ∀ r ∈ pre, selectOrder r x)
    (h9 : ∀ u ∈ t.updates, ∃ r ∈ pre, u = rankedUpdate alphagram rows r)
    (h10 : ∀ r ∈ pre, rankedUpdate alphagram rows r ∈ t.updates) :
    ScanInv alphagram rows (pre ++ [x]) t := by
  have hf : pre.filter (inRun x.numBlanks x.combinations) = [] := by
    rw [List.filter_eq_nil_iff]
    intro r hr
    simp [h7 r hr]
  refine ⟨h1, h2, ?_, ?_, ?_, ?_, ?_, ?_, ?_⟩
  · rw [h3]; simp [KeysAscending]
  · rw [h3, h4, h5, List.filter_append, hf]
    simp [List.filter_cons, inRun_self]
  · intro r hr
    rw [h4, h5]
    rcases List.mem_append.1 hr with h | h
    · exact h8 r h
    · rw [List.mem_singleton.1 h]
      exact Or.inr ⟨rfl, le_refl _⟩
  · intro _
    rw [h3]
    simp
  · rw [h4, h5, h6, List.countP_append]
    simp [List.countP_cons, aboveRun_self]
  · intro u hu
    obtain ⟨r, hr, hur⟩ := h9 u hu
    refine ⟨r, List.mem_append_left _ hr, ?_, hur⟩
    rw [h4, h5]
    exact h7 r hr
  · intro r hr hrun
    rw [h4, h5] at hrun
    rcases List.mem_append.1 hr with h | h
    · exact h10 r h
    · rw [List.mem_singleton.1 h, inRun_self] at hrun
      exact Bool.noConfusion hrun

theorem scanRow_first (alphagram : QString → QString) (rows : List ProbRow) (x : ProbRow)
    (s : RankState) (hinv : ScanInv alphagram rows [] s) :
    ScanInv alphagram rows ([] ++ [x]) (scanRow false alphagram s x) := by
  have hmap : s.equalWordMap = [] := by
    have := hinv.perm
    simpa using this
  have hupd : ∀ u ∈ s.updates, False := by
    intro u hu
    obtain ⟨r, hr, _⟩ := hinv.sound u hu
    simp at hr
  have hmin : s.minProbOrder = 1 := by
    have := hinv.minEq
    simpa using this
  have hret := hinv.notReturned
  have hprob := hinv.probEq
  by_cases hnb : x.numBlanks = s.prevNumBlanks
  · apply scanInv_new_run
    all_goals simp [scanRow, hret, hnb, hmap, qmapInsert, radixKey, hprob, hmin]
    exact fun u hu => hupd u hu
  · apply scanInv_new_run
    all_goals simp [scanRow, hret, hnb, hmap, qmapInsert, radixKey, flushNewBlanks]
    exact fun u hu => hupd u hu

theorem exists_run_row (alphagram : QString → QString) (rows pre : List ProbRow)
    (s : RankState) (hinv : ScanInv alphagram rows pre s) (hne : s.equalWordMap ≠ []) :
    ∃ r ∈ pre, r.numBlanks = s.prevNumBlanks ∧ r.combinations = s.prevCombinations := by
  obtain ⟨e, he⟩ := List.exists_mem_of_ne_nil _ hne
  obtain ⟨r, hr, _⟩ := List.mem_map.1 (hinv.perm.mem_iff.1 he)
  obtain ⟨hrpre, hrun⟩ := List.mem_filter.1 hr
  exact ⟨r, hrpre, by simpa [inRun] using hrun⟩

theorem scanRow_new_blanks (alphagram : QString → QString) (rows pre rest : List ProbRow)
    (x : ProbRow) (s : RankState) (hrows : rows = pre ++ x :: rest)
    (hsorted : rows.Pairwise selectOrder)
    (hinv : ScanInv alphagram rows pre s) (hne : s.equalWordMap ≠ [])
    (hnb : x.numBlanks ≠ s.prevNumBlanks) :
    ScanInv alphagram rows (pre ++ [x]) (scanRow false alphagram s x) := by
  rw [hrows, List.pairwise_append] at hsorted
  obtain ⟨_, hs2, hs1⟩ := hsorted
  have hS1 : ∀ r ∈ pre, selectOrder r x := fun r hr => hs1 r hr x (List.mem_cons_self _ _)
  have hS2 : ∀ y ∈ rest, selectOrder x y := (List.pairwise_cons.1 hs2).1
  obtain ⟨r0, hr0, hr0nb, _⟩ := exists_run_row alphagram rows pre s hinv hne
  have hlt : s.prevNumBlanks < x.numBlanks := by
    rcases hS1 r0 hr0 with h | h
    · omega
    · exact absurd (hr0nb ▸ h.1).symm hnb
  have hdone : ∀ y ∈ x :: rest, fromRun s.prevNumBlanks s.prevCombinations y = false := by
    intro y hy
    have : s.prevNumBlanks < y.numBlanks := by
      rcases List.mem_cons.1 hy with h | h
      · rw [h]; exact hlt
      · rcases hS2 y h with h' | h'
        · omega
        · omega
    simp only [fromRun, decide_eq_false_iff_not, not_and]
    intro h
    omega
  have hpre : ∀ r ∈ pre, r.numBlanks < x.numBlanks := by
    intro r hr
    rcases hinv.below r hr with h | h
    · omega
    · omega
  have hret := hinv.notReturned
  have hprob := hinv.probEq
  apply scanInv_new_run
  · simp [scanRow, hret, hnb, flushNewBlanks_eq]
  · simp [scanRow, hret, hnb, flushNewBlanks_eq]
  · simp [scanRow, hret, hnb, flushNewBlanks_eq, qmapInsert, radixKey]
  · simp [scanRow, hret, hnb, flushNewBlanks_eq]
  · simp [scanRow, hret, hnb, flushNewBlanks_eq]
  · have : pre.countP (aboveRun x.numBlanks x.combinations) = 0 := by
      rw [List.countP_eq_zero]
      intro r hr
      have := hpre r hr
      simp only [aboveRun, decide_eq_true_eq, not_and]
      intro h
      omega
    simp [scanRow, hret, hnb, flushNewBlanks_eq, this]
  · intro r hr
    have := hpre r hr
    simp only [inRun, decide_eq_false_iff_not, not_and]
    intro h
    omega
  · exact hS1
  · intro u hu
    have hu' : u ∈ s.updates ++ bandUpdates s.minProbOrder s.minProbOrder
        (s.minProbOrder + s.equalWordMap.length - 1) s.prevNumBlanks
        (s.equalWordMap.map Prod.snd) := by
      simpa [scanRow, hret, hnb, flushNewBlanks_eq, hprob] using hu
    rcases List.mem_append.1 hu' with h | h
    · obtain ⟨r, hr, _, hur⟩ := hinv.sound u h
      exact ⟨r, hr, hur⟩
    · obtain ⟨r, hr, _, hur⟩ :=
        (band_of_run alphagram rows pre (x :: rest) s hrows hinv hdone u).1 h
      exact ⟨r, hr, hur⟩
  · intro r hr
    have hgoal : rankedUpdate alphagram rows r ∈ s.updates ++
        bandUpdates s.minProbOrder s.minProbOrder
        (s.minProbOrder + s.equalWordMap.length - 1) s.prevNumBlanks
        (s.equalWordMap.map Prod.snd) := by
      cases hrun : inRun s.prevNumBlanks s.prevCombinations r with
      | false => exact List.mem_append_left _ (hinv.complete r hr hrun)
      | true =>
        exact List.mem_append_right _
          ((band_of_run alphagram rows pre (x :: rest) s hrows hinv hdone _).2
            ⟨r, hr, hrun, rfl⟩)
    simpa [scanRow, hret, hnb, flushNewBlanks_eq, hprob] using hgoal

theorem scanRow_new_run (alphagram : QString → QString) (rows pre rest : List ProbRow)
    (x : ProbRow) (s : RankState) (hrows : rows = pre ++ x :: rest)
    (hsorted : rows.Pairwise selectOrder)
    (hinv : ScanInv alphagram rows pre s) (hne : s.equalWordMap ≠ [])
    (hnb : x.numBlanks = s.prevNumBlanks) (hcomb : x.combinations ≠ s.prevCombinations) :
    ScanInv alphagram rows (pre ++ [x]) (scanRow false alphagram s x) := by
  rw [hrows, List.pairwise_append] at hsorted
  obtain ⟨_, hs2, hs1⟩ := hsorted
  have hS1 : ∀ r ∈ pre, selectOrder r x := fun r hr => hs1 r hr x (List.mem_cons_self _ _)
  have hS2 : ∀ y ∈ rest, selectOrder x y := (List.pairwise_cons.1 hs2).1
  obtain ⟨r0, hr0, hr0nb, hr0c⟩ := exists_run_row alphagram rows pre s hinv hne
  have hlt : x.combinations < s.prevCombinations := by
    rcases hS1 r0 hr0 with h | h
    · omega
    · have := h.2
      omega
  have hdone : ∀ y ∈ x :: rest, fromRun s.prevNumBlanks s.prevCombinations y = false := by
    intro y hy
    simp only [fromRun, decide_eq_false_iff_not, not_and]
    intro h
    rcases List.mem_cons.1 hy with h' | h'
    · rw [h']; omega
    · rcases hS2 y h' with h'' | h''
      · omega
      · omega
  have hret := hinv.notReturned
  have hprob := hinv.probEq
  obtain ⟨f1, f2, _, f4, _, _, _, f8⟩ := flushRun_not_cancelled
    (s.minProbOrder + s.equalWordMap.length - 1) s.prevNumBlanks
    (s.equalWordMap.map Prod.snd) s
  rw [hret] at f8
  rw [hprob] at f1
  rw [hprob, List.length_map] at f2
  have hres : scanRow false alphagram s x =
      { flushRun false (s.minProbOrder + s.equalWordMap.length - 1) s.prevNumBlanks
          (s.equalWordMap.map Prod.snd) s with
        minProbOrder := (flushRun false (s.minProbOrder + s.equalWordMap.length - 1)
          s.prevNumBlanks (s.equalWordMap.map Prod.snd) s).probOrder
        equalWordMap := [(radixKey alphagram x.word, x.word)]
        prevCombinations := x.combinations
        prevNumBlanks := s.prevNumBlanks } := by
    simp [scanRow, hret, hnb, hcomb, hne, f8, qmapInsert, radixKey]
  rw [hres]
  apply scanInv_new_run
  · exact f8
  · rfl
  · rfl
  · exact hnb.symm
  · rfl
  · have hcount : pre.countP (aboveRun x.numBlanks x.combinations) =
        pre.countP (fromRun s.prevNumBlanks s.prevCombinations) := by
      apply List.countP_congr
      intro r hr
      simp only [aboveRun, fromRun, decide_eq_true_eq, hnb]
      constructor
      · rintro ⟨h1, _⟩
        rcases hinv.below r hr with h | h
        · omega
        · exact ⟨h1, h.2⟩
      · rintro ⟨h1, h2⟩
        exact ⟨h1, by omega⟩
    have hlen := countP_map_length alphagram s.equalWordMap pre _ _ hinv.perm
    have hmin := hinv.minEq
    have hge := countP_fromRun pre s.prevNumBlanks s.prevCombinations
    show (flushRun false (s.minProbOrder + s.equalWordMap.length - 1)
          s.prevNumBlanks (s.equalWordMap.map Prod.snd) s).probOrder = _
    rw [f2, hcount, hge, hmin, hlen]
    push_cast
    omega
  · intro r hr
    simp only [inRun, decide_eq_false_iff_not, not_and]
    intro h
    rcases hinv.below r hr with h' | h'
    · omega
    · omega
  · exact hS1
  · intro u hu
    have hu' : u ∈ s.updates ++ bandUpdates s.minProbOrder s.minProbOrder
        (s.minProbOrder + s.equalWordMap.length - 1) s.prevNumBlanks
        (s.equalWordMap.map Prod.snd) := by
      rw [← f1]
      exact hu
    rcases List.mem_append.1 hu' with h | h
    · obtain ⟨r, hr, _, hur⟩ := hinv.sound u h
      exact ⟨r, hr, hur⟩
    · obtain ⟨r, hr, _, hur⟩ :=
        (band_of_run alphagram rows pre (x :: rest) s hrows hinv hdone u).1 h
      exact ⟨r, hr, hur⟩
  · intro r hr
    have hgoal : rankedUpdate alphagram rows r ∈ s.updates ++
        bandUpdates s.minProbOrder s.minProbOrder
        (s.minProbOrder + s.equalWordMap.length - 1) s.prevNumBlanks
        (s.equalWordMap.map Prod.snd) := by
      cases hrun : inRun s.prevNumBlanks s.prevCombinations r with
      | false => exact List.mem_append_left _ (hinv.complete r hr hrun)
      | true =>
        exact List.mem_append_right _
          ((band_of_run alphagram rows pre (x :: rest) s hrows hinv hdone _).2
            ⟨r, hr, hrun, rfl⟩)
    rw [← f1] at hgoal
    exact hgoal

theorem radixKey_injective (alphagram : QString → QString) (v w : QString)
    (hlen : v.length = w.length) (h : radixKey alphagram v = radixKey alphagram w) : v = w :=
  (List.append_inj' h hlen).2

theorem scanRow_same_run (alphagram : QString → QString) (len : Nat)
    (rows pre rest : List ProbRow)
    (x : ProbRow) (s : RankState) (hrows : rows = pre ++ x :: rest)
    (hlen : ∀ r ∈ rows, r.word.length = len)
    (hnodup : (rows.map (fun r => (r.word, r.numBlanks))).Nodup)
    (hinv : ScanInv alphagram rows pre s)
    (hnb : x.numBlanks = s.prevNumBlanks) (hcomb : x.combinations = s.prevCombinations) :
    ScanInv alphagram rows (pre ++ [x]) (scanRow false alphagram s x) := by
  have hret := hinv.notReturned
  have hxrun : inRun s.prevNumBlanks s.prevCombinations x = true := by
    simp [inRun, hnb, hcomb]
  have hxabove : aboveRun s.prevNumBlanks s.prevCombinations x = false := by
    simp [aboveRun, hcomb]
  have hfresh : ∀ e ∈ s.equalWordMap, e.1 ≠ radixKey alphagram x.word := by
    intro e he hk
    obtain ⟨r, hr, rfl⟩ := List.mem_map.1 (hinv.perm.mem_iff.1 he)
    obtain ⟨hrpre, hrun⟩ := List.mem_filter.1 hr
    have hrnb : r.numBlanks = s.prevNumBlanks := by
      have : r.numBlanks = s.prevNumBlanks ∧ r.combinations = s.prevCombinations := by
        simpa [inRun] using hrun
      exact this.1
    have hw : r.word = x.word := by
      apply radixKey_injective alphagram _ _ _ hk
      rw [hlen r (by rw [hrows]; exact List.mem_append_left _ hrpre),
        hlen x (by rw [hrows]; simp)]
    rw [hrows, List.map_append, List.nodup_append] at hnodup
    refine hnodup.2.2 (List.mem_map.2 ⟨r, hrpre, rfl⟩) ?_
    rw [hw, hrnb, ← hnb]
    simp
  obtain ⟨hperm, hasc⟩ := qmapInsert_fresh (radixKey alphagram x.word) x.word s.equalWordMap
    hinv.sorted hfresh
  have hres : scanRow false alphagram s x =
      { s with equalWordMap := qmapInsert (radixKey alphagram x.word) x.word s.equalWordMap } := by
    simp [scanRow, hret, hnb, hcomb, radixKey]
  rw [hres]
  refine ⟨hret, hinv.probEq, hasc, ?_, ?_, ?_, ?_, ?_, ?_⟩
  · show (qmapInsert (radixKey alphagram x.word) x.word s.equalWordMap).Perm _
    rw [List.filter_append]
    simp only [List.filter_cons, hxrun, if_true, List.filter_nil, List.map_append,
      List.map_cons, List.map_nil]
    exact hperm.trans ((List.Perm.cons _ hinv.perm).trans
      (List.perm_append_singleton _ _).symm)
  · intro r hr
    rcases List.mem_append.1 hr with h | h
    · exact hinv.below r h
    · rw [List.mem_singleton.1 h]
      exact Or.inr ⟨hnb, le_of_eq hcomb.symm⟩
  · intro _
    exact qmapInsert_ne_nil _ _ _
  · show s.minProbOrder = _
    rw [hinv.minEq, List.countP_append]
    simp [List.countP_cons, hxabove]
  · intro u hu
    obtain ⟨r, hr, h1, h2⟩ := hinv.sound u hu
    exact ⟨r, List.mem_append_left _ hr, h1, h2⟩
  · intro r hr hrun
    rcases List.mem_append.1 hr with h | h
    · exact hinv.complete r h hrun
    · rw [List.mem_singleton.1 h] at hrun
      have : inRun s.prevNumBlanks s.prevCombinations x = false := hrun
      rw [hxrun] at this
      exact Bool.noConfusion this

theorem scanRow_inv (alphagram : QString → QString) (len : Nat)
    (rows pre rest : List ProbRow)
    (x : ProbRow) (s : RankState) (hrows : rows = pre ++ x :: rest)
    (hsorted : rows.Pairwise selectOrder)
    (hlen : ∀ r ∈ rows, r.word.length = len)
    (hnodup : (rows.map (fun r => (r.word, r.numBlanks))).Nodup)
    (hinv : ScanInv alphagram rows pre s) :
    ScanInv alphagram rows (pre ++ [x]) (scanRow false alphagram s x) := by
  by_cases hne : s.equalWordMap = []
  · have hpre : pre = [] := by
      by_contra h
      exact hinv.nonempty h hne
    subst hpre
    exact scanRow_first alphagram rows x s hinv
  · by_cases hnb : x.numBlanks = s.prevNumBlanks
    · by_cases hcomb : x.combinations = s.prevCombinations
      · exact scanRow_same_run alphagram len rows pre rest x s hrows hlen hnodup hinv hnb hcomb
      · exact scanRow_new_run alphagram rows pre rest x s hrows hsorted hinv hne hnb hcomb
    · exact scanRow_new_blanks alphagram rows pre rest x s hrows hsorted hinv hne hnb

theorem scan_inv (alphagram : QString → QString) (len : Nat) (rows : List ProbRow)
    (hsorted : rows.Pairwise selectOrder)
    (hlen : ∀ r ∈ rows, r.word.length = len)
    (hnodup : (rows.map (fun r => (r.word, r.numBlanks))).Nodup)
    (rest pre : List ProbRow) (s : RankState) (hrows : rows = pre ++ rest)
    (hinv : ScanInv alphagram rows pre s) :
    ScanInv alphagram rows rows (rest.foldl (scanRow false alphagram) s) := by
  induction rest generalizing pre s with
  | nil =>
    rw [List.append_nil] at hrows
    rw [hrows]
    rw [hrows] at hinv
    exact hinv
  | cons x rest ih =>
    rw [List.foldl_cons]
    apply ih (pre ++ [x])
    · rw [hrows]; simp
    · exact scanRow_inv alphagram len rows pre rest x s hrows hsorted hlen hnodup hinv

theorem scanInv_init (alphagram : QString → QString) (rows : List ProbRow)
    (stepNum : Int) (progress : List Int) :
    ScanInv alphagram rows [] (RankState.init stepNum [] progress) := by
  refine ⟨rfl, rfl, ?_, ?_, ?_, ?_, ?_, ?_, ?_⟩ <;> simp [RankState.init, KeysAscending]

theorem isLastRun_iff (alphagram : QString → QString) (rows : List ProbRow) (s : RankState)
    (hinv : ScanInv alphagram rows rows s) (r : ProbRow) (hr : r ∈ rows) :
    isLastRun rows r = inRun s.prevNumBlanks s.prevCombinations r := by
  have hne : s.equalWordMap ≠ [] := hinv.nonempty (List.ne_nil_of_mem hr)
  obtain ⟨r0, hr0, hr0nb, hr0c⟩ := exists_run_row alphagram rows rows s hinv hne
  cases hrun : inRun s.prevNumBlanks s.prevCombinations r with
  | true =>
    have h : r.numBlanks = s.prevNumBlanks ∧ r.combinations = s.prevCombinations := by
      simpa [inRun] using hrun
    simp only [isLastRun, List.all_eq_true, decide_eq_true_eq]
    intro y hy
    rw [selectOrder, h.1, h.2]
    exact hinv.below y hy
  | false =>
    cases hl : isLastRun rows r with
    | false => rfl
    | true =>
      exfalso
      simp only [isLastRun, List.all_eq_true, decide_eq_true_eq] at hl
      have h1 := hl r0 hr0
      have h2 := hinv.below r hr
      simp only [inRun, decide_eq_false_iff_not, not_and] at hrun
      rw [selectOrder] at h1
      rcases h1 with h1 | h1 <;> rcases h2 with h2 | h2
      · omega
      · omega
      · omega
      · exact hrun h2.1 (by omega)

theorem lastRunUpdate_of_run (alphagram : QString → QString) (rows : List ProbRow)
    (s : RankState) (hinv : ScanInv alphagram rows rows s)
    (r : ProbRow) (hrun : inRun s.prevNumBlanks s.prevCombinations r = true) :
    lastRunUpdate rows r =
      ⟨s.probOrder, s.minProbOrder, s.minProbOrder + s.equalWordMap.length - 1, r.word,
        s.prevNumBlanks⟩ := by
  have h := rankedUpdate_of_run alphagram rows rows [] s (by simp) hinv (by simp) r hrun
  simp only [rankedUpdate, ProbUpdate.mk.injEq] at h
  obtain ⟨_, h2, h3, _, h5⟩ := h
  simp only [lastRunUpdate, ProbUpdate.mk.injEq, hinv.probEq]
  exact ⟨h2, h2, h3, trivial, h5⟩

/-- The UPDATE statements that updateProbabilityOrder executes for the rows of
one length are exactly the expected updates of the rows. -/
theorem updates_characterized (alphagram : QString → QString) (len : Nat)
    (rows : List ProbRow) (stepNum : Int) (progress : List Int)
    (hsorted : rows.Pairwise selectOrder)
    (hlen : ∀ r ∈ rows, r.word.length = len)
    (hnodup : (rows.map (fun r => (r.word, r.numBlanks))).Nodup) :
    (∀ u ∈ (updateProbabilityOrderLength false alphagram stepNum [] progress rows).updates,
      ∃ r ∈ rows, u = expectedUpdate alphagram rows r) ∧
    (∀ r ∈ rows, expectedUpdate alphagram rows r ∈
      (updateProbabilityOrderLength false alphagram stepNum [] progress rows).updates) := by
  have hinv := scan_inv alphagram len rows hsorted hlen hnodup rows []
    (RankState.init stepNum [] progress) (by simp) (scanInv_init alphagram rows stepNum progress)
  have hout : (updateProbabilityOrderLength false alphagram stepNum [] progress rows).updates =
      (rows.foldl (scanRow false alphagram) (RankState.init stepNum [] progress)).updates ++
      ((rows.foldl (scanRow false alphagram) (RankState.init stepNum [] progress)).equalWordMap.map
        Prod.snd).map (fun w => ⟨
          (rows.foldl (scanRow false alphagram) (RankState.init stepNum [] progress)).probOrder,
          (rows.foldl (scanRow false alphagram) (RankState.init stepNum [] progress)).minProbOrder,
          (rows.foldl (scanRow false alphagram)
              (RankState.init stepNum [] progress)).minProbOrder +
            (rows.foldl (scanRow false alphagram)
              (RankState.init stepNum [] progress)).equalWordMap.length - 1,
          w,
          (rows.foldl (scanRow false alphagram)
            (RankState.init stepNum [] progress)).prevNumBlanks⟩) := by
    simp [updateProbabilityOrderLength, hinv.notReturned, flushFinal_eq]
  rw [hout]
  generalize rows.foldl (scanRow false alphagram) (RankState.init stepNum [] progress) = s at hinv
  constructor
  · intro u hu
    rcases List.mem_append.1 hu with h | h
    · obtain ⟨r, hr, hrun, hur⟩ := hinv.sound u h
      refine ⟨r, hr, ?_⟩
      rw [expectedUpdate, isLastRun_iff alphagram rows s hinv r hr, hrun]
      simpa using hur
    · obtain ⟨w, hw, rfl⟩ := List.mem_map.1 h
      obtain ⟨e, he, rfl⟩ := List.mem_map.1 hw
      obtain ⟨r, hr, rfl⟩ := List.mem_map.1 (hinv.perm.mem_iff.1 he)
      obtain ⟨hrpre, hrun⟩ := List.mem_filter.1 hr
      refine ⟨r, hrpre, ?_⟩
      rw [expectedUpdate, isLastRun_iff alphagram rows s hinv r hrpre, hrun]
      simp only [if_true]
      exact (lastRunUpdate_of_run alphagram rows s hinv r hrun).symm
  · intro r hr
    rw [expectedUpdate, isLastRun_iff alphagram rows s hinv r hr]
    cases hrun : inRun s.prevNumBlanks s.prevCombinations r with
    | false =>
      simp only [Bool.false_eq_true, if_false]
      exact List.mem_append_left _ (hinv.complete r hr hrun)
    | true =>
      simp only [if_true]
      apply List.mem_append_right
      rw [lastRunUpdate_of_run alphagram rows s hinv r hrun]
      refine List.mem_map.2 ⟨r.word, List.mem_map.2 ⟨(radixKey alphagram r.word, r.word), ?_, rfl⟩,
        rfl⟩
      exact hinv.perm.mem_iff.2 (List.mem_map.2 ⟨r, List.mem_filter.2 ⟨hr, hrun⟩, rfl⟩)

theorem expectedUpdate_fields (alphagram : QString → QString) (rows : List ProbRow)
    (r : ProbRow) :
    (expectedUpdate alphagram rows r).minProbOrder = 1 + (countGreater rows r : Int) ∧
    (expectedUpdate alphagram rows r).maxProbOrder = (countGreaterEq rows r : Int) ∧
    (expectedUpdate alphagram rows r).word = r.word ∧
    (expectedUpdate alphagram rows r).numBlanks = r.numBlanks := by
  unfold expectedUpdate
  split_ifs <;> simp [lastRunUpdate, rankedUpdate]

theorem row_of_key (rows : List ProbRow)
    (hnodup : (rows.map (fun r => (r.word, r.numBlanks))).Nodup)
    (r r' : ProbRow) (hr : r ∈ rows) (hr' : r' ∈ rows)
    (hw : r'.word = r.word) (hb : r'.numBlanks = r.numBlanks) : r' = r :=
  List.inj_on_of_nodup_map hnodup hr' hr (by simp [hw, hb])

theorem countGreaterEq_le_countGreater (rows : List ProbRow) (r1 r2 : ProbRow)
    (hnb : r1.numBlanks = r2.numBlanks) (hc : r2.combinations < r1.combinations) :
    countGreaterEq rows r1 ≤ countGreater rows r2 := by
  apply List.countP_mono_left
  intro x _ hx
  simp only [fromRun, aboveRun, decide_eq_true_eq] at *
  exact ⟨hx.1.trans hnb, by omega⟩

theorem band_bounds (rows : List ProbRow) (r : ProbRow) (hr : r ∈ rows) :
    countGreater rows r + 1 ≤ countGreaterEq rows r ∧
    countGreaterEq rows r ≤ classSize rows r.numBlanks := by
  constructor
  · rw [countGreaterEq, countP_fromRun, countGreater]
    have : 0 < rows.countP (inRun r.numBlanks r.combinations) :=
      List.countP_pos_iff.2 ⟨r, hr, inRun_self r⟩
    omega
  · apply List.countP_mono_left
    intro x _ hx
    simp only [fromRun, decide_eq_true_eq] at *
    exact hx.1

theorem countP_class (rows : List ProbRow) (nb : Int) (p : ProbRow → Bool)
    (hp : ∀ x, p x = true → x.numBlanks = nb) :
    (rows.filter (fun x => decide (x.numBlanks = nb))).countP p = rows.countP p := by
  rw [List.countP_filter]
  apply List.countP_congr
  intro x _
  simp only [Bool.and_eq_true, decide_eq_true_eq]
  exact ⟨fun h => h.1, fun h => ⟨h, hp x h⟩⟩

theorem rank_covered (rows : List ProbRow) (hsorted : rows.Pairwise selectOrder)
    (nb : Int) (k : Nat) (h1 : 1 ≤ k) (h2 : k ≤ classSize rows nb) :
    ∃ x ∈ rows, x.numBlanks = nb ∧ countGreater rows x < k ∧ k ≤ countGreaterEq rows x := by
  have hlen : classSize rows nb = (rows.filter (fun x => decide (x.numBlanks = nb))).length := by
    rw [classSize, List.countP_eq_length_filter]
  rw [hlen] at h2
  have hC : (rows.filter (fun x => decide (x.numBlanks = nb))).Pairwise selectOrder :=
    hsorted.filter _
  have hCmem : ∀ y ∈ rows.filter (fun x => decide (x.numBlanks = nb)),
      y ∈ rows ∧ y.numBlanks = nb := by
    intro y hy
    simpa using List.mem_filter.1 hy
  have habove : ∀ c, (rows.filter (fun x => decide (x.numBlanks = nb))).countP (aboveRun nb c) =
      rows.countP (aboveRun nb c) := fun c =>
    countP_class rows nb _ (fun x hx => by
      simp only [aboveRun, decide_eq_true_eq] at hx
      exact hx.1)
  have hfrom : ∀ c, (rows.filter (fun x => decide (x.numBlanks = nb))).countP (fromRun nb c) =
      rows.countP (fromRun nb c) := fun c =>
    countP_class rows nb _ (fun x hx => by
      simp only [fromRun, decide_eq_true_eq] at hx
      exact hx.1)
  generalize rows.filter (fun x => decide (x.numBlanks = nb)) = C at h2 hC hCmem habove hfrom
  have hi : k - 1 < C.length := by omega
  have hsplit : C = C.take (k - 1) ++ C[k - 1] :: C.drop (k - 1 + 1) := by
    rw [← List.drop_eq_getElem_cons hi, List.take_append_drop]
  have hxC : C[k - 1] ∈ C := List.getElem_mem hi
  have hA : ∀ a ∈ C.take (k - 1), a ∈ C := fun a ha => List.mem_of_mem_take ha
  have hB : ∀ b ∈ C.drop (k - 1 + 1), b ∈ C := fun b hb => List.mem_of_mem_drop hb
  have hAlen : (C.take (k - 1)).length = k - 1 := by
    rw [List.length_take]; omega
  generalize C[k - 1] = x at hsplit hxC
  generalize C.take (k - 1) = A at hsplit hA hAlen
  generalize C.drop (k - 1 + 1) = B at hsplit hB
  rw [hsplit, List.pairwise_append] at hC
  obtain ⟨_, hxB, hAx⟩ := hC
  have hxB' : ∀ b ∈ B, selectOrder x b := (List.pairwise_cons.1 hxB).1
  have hAx' : ∀ a ∈ A, selectOrder a x := fun a ha => hAx a ha x (List.mem_cons_self _ _)
  have hxnb := (hCmem x hxC).2
  refine ⟨x, (hCmem x hxC).1, hxnb, ?_, ?_⟩
  · rw [countGreater, hxnb, ← habove, hsplit, List.countP_append, List.countP_cons]
    have hB0 : B.countP (aboveRun nb x.combinations) = 0 := by
      rw [List.countP_eq_zero]
      intro b hb
      have hbnb := (hCmem b (hB b hb)).2
      simp only [aboveRun, decide_eq_true_eq, not_and]
      intro _
      rcases hxB' b hb with h | h
      · omega
      · omega
    have hx0 : aboveRun nb x.combinations x = false := by simp [aboveRun]
    have hAle := List.countP_le_length (aboveRun nb x.combinations) (l := A)
    rw [hB0, hx0]
    simp only [Bool.false_eq_true, if_false]
    omega
  · rw [countGreaterEq, hxnb, ← hfrom, hsplit, List.countP_append, List.countP_cons]
    have hAall : A.countP (fromRun nb x.combinations) = A.length := by
      rw [List.countP_eq_length]
      intro a ha
      have hanb := (hCmem a (hA a ha)).2
      simp only [fromRun, decide_eq_true_eq]
      refine ⟨hanb, ?_⟩
      rcases hAx' a ha with h | h
      · omega
      · exact h.2
    have hx1 : fromRun nb x.combinations x = true := by simp [fromRun, hxnb]
    rw [hAall, hx1]
    simp only [if_true]
    omega

/-- C1: on the rows of one word length, sorted by num_blanks ascending then
combinations descending, with distinct (word, num_blanks) pairs,
updateProbabilityOrder gives every row min_probability_order = 1 + (number of
rows of its class with strictly greater combinations) and
max_probability_order = (number of rows of its class with combinations greater
than or equal to its own), and the bands of every class are pairwise disjoint,
consecutive and cover exactly `1..n`. -/
theorem updateProbabilityOrder_bands (alphagram : QString → QString) (len : Nat)
    (rows : List ProbRow) (stepNum : Int) (progress : List Int)
    (hsorted : rows.Pairwise selectOrder)
    (hlen : ∀ r ∈ rows, r.word.length = len)
    (hnodup : (rows.map (fun r => (r.word, r.numBlanks))).Nodup) :
    ReceivesBand rows
      (updateProbabilityOrderLength false alphagram stepNum [] progress rows).updates ∧
    BandsTile rows
      (updateProbabilityOrderLength false alphagram stepNum [] progress rows).updates := by
  obtain ⟨hs, hc⟩ := updates_characterized alphagram len rows stepNum progress hsorted hlen hnodup
  generalize (updateProbabilityOrderLength false alphagram stepNum [] progress rows).updates
    = out at hs hc
  have hdisj : ∀ u ∈ out, ∀ v ∈ out, u.numBlanks = v.numBlanks →
      (u.minProbOrder = v.minProbOrder ∧ u.maxProbOrder = v.maxProbOrder) ∨
        u.maxProbOrder < v.minProbOrder ∨ v.maxProbOrder < u.minProbOrder := by
    intro u hu v hv hnb
    obtain ⟨r1, _, rfl⟩ := hs u hu
    obtain ⟨r2, _, rfl⟩ := hs v hv
    obtain ⟨a1, a2, _, a4⟩ := expectedUpdate_fields alphagram rows r1
    obtain ⟨b1, b2, _, b4⟩ := expectedUpdate_fields alphagram rows r2
    rw [a4, b4] at hnb
    rw [a1, a2, b1, b2]
    rcases lt_trichotomy r1.combinations r2.combinations with h | h | h
    · right; right
      have := countGreaterEq_le_countGreater rows r2 r1 hnb.symm h
      omega
    · left
      simp only [countGreater, countGreaterEq, hnb, h, and_self]
    · right; left
      have := countGreaterEq_le_countGreater rows r1 r2 hnb h
      omega
  have hin : ∀ u ∈ out, 1 ≤ u.minProbOrder ∧ u.minProbOrder ≤ u.maxProbOrder ∧
      u.maxProbOrder ≤ (classSize rows u.numBlanks : Int) := by
    intro u hu
    obtain ⟨r, hr, rfl⟩ := hs u hu
    obtain ⟨a1, a2, _, a4⟩ := expectedUpdate_fields alphagram rows r
    obtain ⟨c1, c2⟩ := band_bounds rows r hr
    rw [a1, a2, a4]
    omega
  have hcov : ∀ nb : Int, ∀ k : Int, 1 ≤ k → k ≤ (classSize rows nb : Int) →
      ∃ u ∈ out, u.numBlanks = nb ∧ u.minProbOrder ≤ k ∧ k ≤ u.maxProbOrder := by
    intro nb k h1 h2
    obtain ⟨x, hx, hxnb, c1, c2⟩ := rank_covered rows hsorted nb k.toNat (by omega) (by omega)
    obtain ⟨a1, a2, _, a4⟩ := expectedUpdate_fields alphagram rows x
    refine ⟨expectedUpdate alphagram rows x, hc x hx, a4.trans hxnb, ?_, ?_⟩
    · rw [a1]; omega
    · rw [a2]; omega
  refine ⟨?_, hdisj, hin, hcov, ?_⟩
  · intro r hr
    obtain ⟨a1, a2, a3, a4⟩ := expectedUpdate_fields alphagram rows r
    refine ⟨⟨expectedUpdate alphagram rows r, hc r hr, a3, a4⟩, ?_⟩
    intro u hu hw hb
    obtain ⟨r', hr', rfl⟩ := hs u hu
    obtain ⟨_, _, b3, b4⟩ := expectedUpdate_fields alphagram rows r'
    have : r' = r := row_of_key rows hnodup r r' hr hr' (b3 ▸ hw) (b4 ▸ hb)
    rw [this]
    exact ⟨a1, a2⟩
  · intro u hu hlt
    obtain ⟨c1, c2, _⟩ := hin u hu
    obtain ⟨v, hv, hvnb, d1, d2⟩ := hcov u.numBlanks (u.maxProbOrder + 1) (by omega) (by omega)
    refine ⟨v, hv, hvnb, ?_⟩
    rcases hdisj u hu v hv hvnb.symm with h | h | h
    · omega
    · omega
    · omega

/-- C1 on the rows of AB, BA and CD. -/
theorem updateProbabilityOrder_bands_witness :
    sampleRows.Pairwise selectOrder ∧
    (∀ r ∈ sampleRows, r.word.length = 2) ∧
    (sampleRows.map (fun r => (r.word, r.numBlanks))).Nodup ∧
    ReceivesBand sampleRows
      (updateProbabilityOrderLength false getAlphagram 0 [] [] sampleRows).updates ∧
    BandsTile sampleRows
      (updateProbabilityOrderLength false getAlphagram 0 [] [] sampleRows).updates :=
  ⟨by decide, by decide, by decide,
    updateProbabilityOrder_bands getAlphagram 2 sampleRows 0 [] (by decide) (by decide) (by decide)⟩

theorem update_of_row (alphagram : QString → QString) (len : Nat)
    (rows : List ProbRow) (stepNum : Int) (progress : List Int)
    (hsorted : rows.Pairwise selectOrder)
    (hlen : ∀ r ∈ rows, r.word.length = len)
    (hnodup : (rows.map (fun r => (r.word, r.numBlanks))).Nodup)
    (r : ProbRow) (hr : r ∈ rows) (u : ProbUpdate)
    (hu : u ∈ (updateProbabilityOrderLength false alphagram stepNum [] progress rows).updates)
    (hw : u.word = r.word) (hb : u.numBlanks = r.numBlanks) :
    u = expectedUpdate alphagram rows r := by
  obtain ⟨hs, _⟩ := updates_characterized alphagram len rows stepNum progress hsorted hlen hnodup
  obtain ⟨r', hr', rfl⟩ := hs u hu
  obtain ⟨_, _, b3, b4⟩ := expectedUpdate_fields alphagram rows r'
  rw [row_of_key rows hnodup r r' hr hr' (b3 ▸ hw) (b4 ▸ hb)]

theorem expectedUpdate_perm (alphagram : QString → QString) (rows1 rows2 : List ProbRow)
    (hperm : rows1.Perm rows2) (r : ProbRow) :
    expectedUpdate alphagram rows1 r = expectedUpdate alphagram rows2 r := by
  have hlast : isLastRun rows1 r = isLastRun rows2 r := by
    rw [Bool.eq_iff_iff]
    simp only [isLastRun, List.all_eq_true]
    exact ⟨fun h y hy => h y (hperm.mem_iff.2 hy), fun h y hy => h y (hperm.mem_iff.1 hy)⟩
  simp only [expectedUpdate, lastRunUpdate, rankedUpdate, countGreater, countGreaterEq,
    rankInRun, hlast, hperm.countP_eq]

/-- C2 (the defect): in the run written by the loop after the row scan, here
the tied words AB and BA of the two-blank class, probOrder is not incremented
and both words receive probability_order 2; in the classes written during the
scan the tied words receive the distinct orders 1 and 2. -/
theorem updateProbabilityOrder_final_run_repeats_order :
    (updateProbabilityOrderLength false getAlphagram 0 [] [] sampleRows).updates =
      [⟨1, 1, 2, ['A', 'B'], 0⟩, ⟨2, 1, 2, ['B', 'A'], 0⟩, ⟨3, 3, 3, ['C', 'D'], 0⟩,
       ⟨1, 1, 3, ['A', 'B'], 1⟩, ⟨2, 1, 3, ['B', 'A'], 1⟩, ⟨3, 1, 3, ['C', 'D'], 1⟩,
       ⟨1, 1, 1, ['C', 'D'], 2⟩, ⟨2, 2, 3, ['A', 'B'], 2⟩, ⟨2, 2, 3, ['B', 'A'], 2⟩] := by
  decide

/-- C3: two row sequences of one length that are permutations of each other
and both sorted by num_blanks ascending then combinations descending make
updateProbabilityOrder execute the same UPDATE statements, every row receives
one in both runs, and the values written for a (word, num_blanks) pair are the
same in both runs. -/
theorem updateProbabilityOrder_deterministic (alphagram : QString → QString) (len : Nat)
    (rows1 rows2 : List ProbRow) (step1 step2 : Int) (progress1 progress2 : List Int)
    (hperm : rows1.Perm rows2)
    (hsorted1 : rows1.Pairwise selectOrder) (hsorted2 : rows2.Pairwise selectOrder)
    (hlen : ∀ r ∈ rows1, r.word.length = len)
    (hnodup : (rows1.map (fun r => (r.word, r.numBlanks))).Nodup) :
    (∀ u, u ∈ (updateProbabilityOrderLength false alphagram step1 [] progress1 rows1).updates ↔
      u ∈ (updateProbabilityOrderLength false alphagram step2 [] progress2 rows2).updates) ∧
    (∀ r ∈ rows1,
      ∃ u ∈ (updateProbabilityOrderLength false alphagram step1 [] progress1 rows1).updates,
        u.word = r.word ∧ u.numBlanks = r.numBlanks) ∧
    (∀ u ∈ (updateProbabilityOrderLength false alphagram step1 [] progress1 rows1).updates,
      ∀ v ∈ (updateProbabilityOrderLength false alphagram step2 [] progress2 rows2).updates,
        u.word = v.word → u.numBlanks = v.numBlanks → u = v) := by
  have hlen2 : ∀ r ∈ rows2, r.word.length = len := fun r hr => hlen r (hperm.mem_iff.2 hr)
  have hnodup2 : (rows2.map (fun r => (r.word, r.numBlanks))).Nodup :=
    (hperm.map _).nodup_iff.1 hnodup
  obtain ⟨s1, c1⟩ := updates_characterized alphagram len rows1 step1 progress1 hsorted1 hlen hnodup
  obtain ⟨s2, c2⟩ :=
    updates_characterized alphagram len rows2 step2 progress2 hsorted2 hlen2 hnodup2
  refine ⟨?_, ?_, ?_⟩
  · intro u
    constructor
    · intro hu
      obtain ⟨r, hr, rfl⟩ := s1 u hu
      rw [expectedUpdate_perm alphagram rows1 rows2 hperm r]
      exact c2 r (hperm.mem_iff.1 hr)
    · intro hu
      obtain ⟨r, hr, rfl⟩ := s2 u hu
      rw [← expectedUpdate_perm alphagram rows1 rows2 hperm r]
      exact c1 r (hperm.mem_iff.2 hr)
  · intro r hr
    obtain ⟨_, _, a3, a4⟩ := expectedUpdate_fields alphagram rows1 r
    exact ⟨expectedUpdate alphagram rows1 r, c1 r hr, a3, a4⟩
  · intro u hu v hv hw hb
    obtain ⟨r, hr, rfl⟩ := s1 u hu
    obtain ⟨_, _, a3, a4⟩ := expectedUpdate_fields alphagram rows1 r
    rw [update_of_row alphagram len rows2 step2 progress2 hsorted2 hlen2 hnodup2 r
      (hperm.mem_iff.1 hr) v hv (hw ▸ a3) (hb ▸ a4)]
    exact expectedUpdate_perm alphagram rows1 rows2 hperm r

/-- C3 on the rows of AB, BA and CD returned in two different orders. -/
theorem updateProbabilityOrder_deterministic_witness :
    sampleRows.Perm sampleRowsReordered ∧
    sampleRows.Pairwise selectOrder ∧ sampleRowsReordered.Pairwise selectOrder ∧
    (∀ r ∈ sampleRows, r.word.length = 2) ∧
    (sampleRows.map (fun r => (r.word, r.numBlanks))).Nodup ∧
    (∀ u ∈ (updateProbabilityOrderLength false getAlphagram 0 [] [] sampleRows).updates,
      ∀ v ∈ (updateProbabilityOrderLength false getAlphagram 0 [] []
          sampleRowsReordered).updates,
        u.word = v.word → u.numBlanks = v.numBlanks → u = v) :=
  ⟨by decide, by decide, by decide, by decide, by decide,
    (updateProbabilityOrder_deterministic getAlphagram 2 sampleRows sampleRowsReordered 0 0 [] []
      (by decide) (by decide) (by decide) (by decide) (by decide)).2.2⟩

/-- C4: in a class whose combinations are all at least 0, a row with
combinations 0 receives an UPDATE, its max_probability_order is the size of
the class, and no row of the class with positive combinations receives a
min_probability_order greater than that of the zero-combinations row. -/
theorem zero_combinations_rank_last (alphagram : QString → QString) (len : Nat)
    (rows : List ProbRow) (stepNum : Int) (progress : List Int)
    (hsorted : rows.Pairwise selectOrder)
    (hlen : ∀ r ∈ rows, r.word.length = len)
    (hnodup : (rows.map (fun r => (r.word, r.numBlanks))).Nodup)
    (r : ProbRow) (hr : r ∈ rows) (hzero : r.combinations = 0)
    (hnonneg : ∀ x ∈ rows, x.numBlanks = r.numBlanks → 0 ≤ x.combinations) :
    (∃ u ∈ (updateProbabilityOrderLength false alphagram stepNum [] progress rows).updates,
      u.word = r.word ∧ u.numBlanks = r.numBlanks) ∧
    ∀ u ∈ (updateProbabilityOrderLength false alphagram stepNum [] progress rows).updates,
      u.word = r.word → u.numBlanks = r.numBlanks →
        u.maxProbOrder = (classSize rows r.numBlanks : Int) ∧
        ∀ r' ∈ rows, r'.numBlanks = r.numBlanks → 0 < r'.combinations →
          ∀ v ∈ (updateProbabilityOrderLength false alphagram stepNum [] progress rows).updates,
            v.word = r'.word → v.numBlanks = r'.numBlanks →
              v.minProbOrder ≤ u.minProbOrder := by
  obtain ⟨_, hc⟩ := updates_characterized alphagram len rows stepNum progress hsorted hlen hnodup
  obtain ⟨a1, a2, a3, a4⟩ := expectedUpdate_fields alphagram rows r
  refine ⟨⟨expectedUpdate alphagram rows r, hc r hr, a3, a4⟩, ?_⟩
  intro u hu hw hb
  rw [update_of_row alphagram len rows stepNum progress hsorted hlen hnodup r hr u hu hw hb]
  constructor
  · rw [a2, countGreaterEq, classSize]
    congr 1
    apply List.countP_congr
    intro x hx
    simp only [fromRun, decide_eq_true_eq, hzero]
    exact ⟨fun h => h.1, fun h => ⟨h, hnonneg x hx h⟩⟩
  · intro r' hr' hnb hpos v hv hw' hb'
    rw [update_of_row alphagram len rows stepNum progress hsorted hlen hnodup r' hr' v hv hw' hb']
    obtain ⟨b1, _, _, _⟩ := expectedUpdate_fields alphagram rows r'
    rw [a1, b1]
    have : countGreater rows r' ≤ countGreater rows r := by
      apply List.countP_mono_left
      intro x _ hx
      simp only [aboveRun, decide_eq_true_eq, hzero] at *
      exact ⟨hx.1.trans hnb, by omega⟩
    omega

/-- C4 on the row of CD in the class without blanks, whose combinations
are 0. -/
theorem zero_combinations_rank_last_witness :
    sampleRows.Pairwise selectOrder ∧
    (∀ r ∈ sampleRows, r.word.length = 2) ∧
    (sampleRows.map (fun r => (r.word, r.numBlanks))).Nodup ∧
    (⟨['C', 'D'], 0, 0⟩ : ProbRow) ∈ sampleRows ∧
    (∀ x ∈ sampleRows, x.numBlanks = 0 → 0 ≤ x.combinations) ∧
    (∃ u ∈ (updateProbabilityOrderLength false getAlphagram 0 [] [] sampleRows).updates,
      u.word = ['C', 'D'] ∧ u.numBlanks = 0) :=
  ⟨by decide, by decide, by decide, by decide, by decide,
    (zero_combinations_rank_last getAlphagram 2 sampleRows 0 [] (by decide) (by decide)
      (by decide) ⟨['C', 'D'], 0, 0⟩ (by decide) rfl (by decide)).1⟩

theorem replaceDefinitionLinks_mono (definitions : QMap) (fuel : Nat) :
    ∀ (definition : QString) (maxDepth : Int) (useFollow : Bool) (r : QString),
      replaceDefinitionLinks definitions fuel definition maxDepth useFollow = some r →
      ∀ k, replaceDefinitionLinks definitions (fuel + k) definition maxDepth useFollow = some r := by
  induction fuel with
  | zero => intro d md u r h; simp [replaceDefinitionLinks] at h
  | succ fuel ih =>
    intro d md u r h k
    rw [Nat.add_right_comm]
    simp only [replaceDefinitionLinks] at h ⊢
    cases hf : findToken d u with
    | none => rw [hf] at h; simpa using h
    | some t =>
      obtain ⟨m, u1, isF⟩ := t
      rw [hf] at h
      simp only at h ⊢
      by_cases h0 : md = 0
      · simpa [h0] using h
      · simp only [ne_eq, h0, not_false_eq_true, if_true] at h ⊢
        exact ih _ _ _ _ h k

theorem replaceDefinitionLinks_unique (definitions : QMap) (fuel1 fuel2 : Nat)
    (definition : QString) (maxDepth : Int) (useFollow : Bool) (r1 r2 : QString)
    (h1 : replaceDefinitionLinks definitions fuel1 definition maxDepth useFollow = some r1)
    (h2 : replaceDefinitionLinks definitions fuel2 definition maxDepth useFollow = some r2) :
    r1 = r2 := by
  have a := replaceDefinitionLinks_mono definitions fuel1 definition maxDepth useFollow r1 h1 fuel2
  have b := replaceDefinitionLinks_mono definitions fuel2 definition maxDepth useFollow r2 h2 fuel1
  rw [Nat.add_comm] at b
  rw [a] at b
  exact Option.some.inj b

theorem resolveSenses_mono (definitions : QMap) (fuel : Nat) (senses : List QString) :
    ∀ (acc r : QString), resolveSenses definitions fuel senses acc = some r →
      ∀ k, resolveSenses definitions (fuel + k) senses acc = some r := by
  induction senses with
  | nil => intro acc r h k; simpa [resolveSenses] using h
  | cons d rest ih =>
    intro acc r h k
    simp only [resolveSenses] at h ⊢
    cases hd : replaceDefinitionLinks definitions fuel d MAX_DEFINITION_LINKS false with
    | none => rw [hd] at h; simp at h
    | some x =>
      rw [hd] at h
      rw [replaceDefinitionLinks_mono definitions fuel d _ _ x hd k]
      exact ih _ _ h k

theorem resolveWord_unique (rows : List (QString × QString)) (word : QString)
    (fuel1 fuel2 : Nat) (r1 r2 : QString)
    (h1 : resolveWord rows fuel1 word = some r1) (h2 : resolveWord rows fuel2 word = some r2) :
    r1 = r2 := by
  unfold resolveWord newDefinitionOf at h1 h2
  have a := resolveSenses_mono _ fuel1 _ _ r1 h1 fuel2
  have b := resolveSenses_mono _ fuel2 _ _ r2 h2 fuel1
  rw [Nat.add_comm] at b
  rw [a] at b
  exact Option.some.inj b

theorem resolveWord_mono (rows : List (QString × QString)) (word : QString)
    (fuel : Nat) (r : QString) (h : resolveWord rows fuel word = some r) (k : Nat) :
    resolveWord rows (k + fuel) word = some r := by
  unfold resolveWord newDefinitionOf at h ⊢
  rw [Nat.add_comm]
  exact resolveSenses_mono _ fuel _ _ r h k

/-- C5 as stated fails: with RUN defined as "[v] to move fast", SPRINT does
not resolve to "RUN (to move fast)", whatever the fuel. -/
theorem sprint_not_resolved_to_sense :
    ¬ ∃ fuel, resolveWord sprintRows fuel "SPRINT".toList = some "RUN (to move fast)".toList := by
  rintro ⟨fuel, h⟩
  have h2 : resolveWord sprintRows 2 "SPRINT".toList = some "RUN".toList := by decide
  have := resolveWord_unique sprintRows "SPRINT".toList fuel 2 _ _ h h2
  revert this
  decide

/-- C5 as amended: with the definitions of the spec, where the tag of RUN
stands before its sense text, getDefinitions discards the definition of RUN
and SPRINT resolves to "RUN"; with RUN defined as "to move fast [v]", the tag
after the sense text, SPRINT resolves to "RUN (to move fast)". Two nested
calls suffice in both cases. -/
theorem sprint_resolution :
    (getDefinitions false sprintRows 0 []).definitions =
      [("SPRINT".toList, "\x7bRUN=v\x7d".toList)] ∧
    getSubDefinition sprintRows "RUN".toList "v".toList = [] ∧
    (∀ n, resolveWord sprintRows (n + 2) "SPRINT".toList = some "RUN".toList) ∧
    (∀ n, resolveWord sprintRowsTagLast (n + 2) "SPRINT".toList =
      some "RUN (to move fast)".toList) :=
  ⟨by decide, by decide,
    fun n => resolveWord_mono sprintRows _ 2 _ (by decide) n,
    fun n => resolveWord_mono sprintRowsTagLast _ 2 _ (by decide) n⟩

theorem matchTokenAt_some (o c : Char) (text w p : QString)
    (h : matchTokenAt o c text = some (w, p)) :
    ∃ tail, text = o :: (w ++ '=' :: (p ++ c :: tail)) ∧ w ≠ [] ∧ p ≠ [] ∧
      (∀ x ∈ w, isWordChar x = true) ∧ (∀ x ∈ p, isWordChar x = true) := by
  cases text with
  | nil => simp [matchTokenAt] at h
  | cons a rest =>
    simp only [matchTokenAt] at h
    split_ifs at h with h1
    obtain ⟨ha, hw⟩ := h1
    have hrest := List.takeWhile_append_dropWhile isWordChar rest
    cases hd : rest.dropWhile isWordChar with
    | nil => rw [hd] at h; simp at h
    | cons e rest2 =>
      rw [hd] at h
      simp only at h
      split_ifs at h with h2
      obtain ⟨he, hp⟩ := h2
      have hrest2 := List.takeWhile_append_dropWhile isWordChar rest2
      cases hd2 : rest2.dropWhile isWordChar with
      | nil => rw [hd2] at h; simp at h
      | cons d tail =>
        rw [hd2] at h
        simp only at h
        split_ifs at h with h3
        simp only [Option.some.injEq, Prod.mk.injEq] at h
        obtain ⟨hw', hp'⟩ := h
        refine ⟨tail, ?_, hw' ▸ hw, hp' ▸ hp, ?_, ?_⟩
        · rw [← hw', ← hp', ← ha, ← he, ← h3, ← hd2, hrest2, ← hd, hrest]
        · intro x hx
          rw [← hw'] at hx
          exact List.mem_takeWhile_imp hx
        · intro x hx
          rw [← hp'] at hx
          exact List.mem_takeWhile_imp hx

theorem matchTokenAt_none_of_head (o c a : Char) (rest : QString) (h : a ≠ o) :
    matchTokenAt o c (a :: rest) = none := by
  simp [matchTokenAt, h]

theorem indexInToken_some (o c : Char) (text : QString) (m : TokenMatch)
    (h : indexInToken o c text = some m) :
    matchTokenAt o c (text.drop m.index) = some (m.word, m.pos) ∧
      m.matchedLength = m.word.length + m.pos.length + 3 ∧ m.index ≤ text.length := by
  induction text generalizing m with
  | nil => simp [indexInToken] at h
  | cons a rest ih =>
    simp only [indexInToken] at h
    cases hm : matchTokenAt o c (a :: rest) with
    | some wp =>
      obtain ⟨w, p⟩ := wp
      rw [hm] at h
      simp only [Option.some.injEq] at h
      subst h
      exact ⟨by simpa using hm, rfl, by simp⟩
    | none =>
      rw [hm] at h
      cases hr : indexInToken o c rest with
      | none => rw [hr] at h; simp at h
      | some m' =>
        rw [hr] at h
        simp only [Option.some.injEq] at h
        subst h
        obtain ⟨h1, h2, h3⟩ := ih m' hr
        exact ⟨by simpa using h1, h2, by simpa using h3⟩

theorem indexInToken_split (o c : Char) (text : QString) (m : TokenMatch)
    (h : indexInToken o c text = some m) :
    text = text.take m.index ++ (o :: m.word ++ '=' :: m.pos ++ [c]) ++
      text.drop (m.index + m.matchedLength) ∧
    m.word ≠ [] ∧ m.pos ≠ [] ∧
    (∀ x ∈ m.word, isWordChar x = true) ∧ (∀ x ∈ m.pos, isWordChar x = true) := by
  obtain ⟨h1, h2, _⟩ := indexInToken_some o c text m h
  obtain ⟨tail, ht, hw, hp, hww, hpw⟩ := matchTokenAt_some o c _ _ _ h1
  refine ⟨?_, hw, hp, hww, hpw⟩
  have hdrop : text.drop (m.index + m.matchedLength) = tail := by
    rw [← List.drop_drop, ht, h2]
    have : o :: (m.word ++ '=' :: (m.pos ++ c :: tail)) =
        (o :: m.word ++ '=' :: m.pos ++ [c]) ++ tail := by simp
    rw [this]
    apply List.drop_left'
    simp
    omega
  rw [hdrop]
  conv_lhs => rw [← List.take_append_drop m.index text, ht]
  simp

theorem indexInToken_none_of_not_mem (o c : Char) (text : QString) (h : o ∉ text) :
    indexInToken o c text = none := by
  induction text with
  | nil => rfl
  | cons a rest ih =>
    have ha : a ≠ o := fun e => h (e ▸ List.mem_cons_self _ _)
    have hr : o ∉ rest := fun e => h (List.mem_cons_of_mem _ e)
    simp [indexInToken, matchTokenAt_none_of_head o c a rest ha, ih hr]

theorem indexInToken_append (o c : Char) (pre text : QString) (h : o ∉ pre) :
    indexInToken o c (pre ++ text) =
      (indexInToken o c text).map (fun m => { m with index := m.index + pre.length }) := by
  induction pre with
  | nil =>
    simp only [List.nil_append, List.length_nil, Nat.add_zero]
    cases hx : indexInToken o c text <;> simp
  | cons a rest ih =>
    have ha : a ≠ o := fun e => h (e ▸ List.mem_cons_self _ _)
    have hr : o ∉ rest := fun e => h (List.mem_cons_of_mem _ e)
    rw [List.cons_append, indexInToken, matchTokenAt_none_of_head o c a _ ha]
    simp only []
    rw [ih hr]
    cases hx : indexInToken o c text <;> simp [Nat.add_assoc]

theorem findToken_some (text : QString) (useFollow : Bool) (m : TokenMatch)
    (follow isF : Bool) (h : findToken text useFollow = some (m, follow, isF)) :
    (isF = true ∧ follow = true ∧ followIndexIn text = some m) ∨
    (isF = false ∧ follow = useFollow ∧ followIndexIn text = none ∧
      replaceIndexIn text = some m) := by
  unfold findToken at h
  cases hf : followIndexIn text with
  | some m' =>
    rw [hf] at h
    simp only [Option.some.injEq, Prod.mk.injEq] at h
    obtain ⟨h1, h2, h3⟩ := h
    exact Or.inl ⟨h3.symm, h2.symm, by rw [h1]⟩
  | none =>
    rw [hf] at h
    cases hr : replaceIndexIn text with
    | some m' =>
      rw [hr] at h
      simp only [Option.some.injEq, Prod.mk.injEq] at h
      obtain ⟨h1, h2, h3⟩ := h
      exact Or.inr ⟨h3.symm, h2.symm, rfl, by rw [h1]⟩
    | none => rw [hr] at h; simp at h

theorem findToken_none_iff (text : QString) (useFollow : Bool) :
    findToken text useFollow = none ↔ followIndexIn text = none ∧ replaceIndexIn text = none := by
  unfold findToken
  cases hf : followIndexIn text with
  | some m' => simp
  | none =>
    cases hr : replaceIndexIn text with
    | some m' => simp
    | none => simp

theorem findToken_split (text : QString) (useFollow : Bool) (m : TokenMatch)
    (follow isF : Bool) (h : findToken text useFollow = some (m, follow, isF)) :
    text = text.take m.index ++ tokenText isF m ++ text.drop (m.index + m.matchedLength) ∧
    follow = (isF || useFollow) ∧ m.word ≠ [] := by
  rcases findToken_some text useFollow m follow isF h with ⟨h1, h2, h3⟩ | ⟨h1, h2, _, h3⟩
  · obtain ⟨hs, hw, _⟩ := indexInToken_split _ _ text m h3
    refine ⟨?_, by simp [h1, h2], hw⟩
    simpa [tokenText, h1] using hs
  · obtain ⟨hs, hw, _⟩ := indexInToken_split _ _ text m h3
    refine ⟨?_, by simp [h1, h2], hw⟩
    simpa [tokenText, h1] using hs

theorem replaceDefinitionLinks_of_no_token (definitions : QMap) (fuel : Nat) (text : QString)
    (maxDepth : Int) (useFollow : Bool) (h : findToken text useFollow = none) :
    replaceDefinitionLinks definitions (fuel + 1) text maxDepth useFollow = some text := by
  simp [replaceDefinitionLinks, h]

theorem replaceDefinitionLinks_one_step (definitions : QMap) (fuel : Nat) (text : QString)
    (maxDepth : Int) (useFollow : Bool) (m : TokenMatch) (follow isF : Bool)
    (hfind : findToken text useFollow = some (m, follow, isF))
    (hclean : maxDepth ≠ 0 →
      findToken (replaceAt text m (linkReplacement definitions m maxDepth follow isF)) follow
        = none) :
    replaceDefinitionLinks definitions (fuel + 2) text maxDepth useFollow =
      some (replaceAt text m (linkReplacement definitions m maxDepth follow isF)) := by
  simp only [replaceDefinitionLinks, hfind]
  by_cases h0 : maxDepth = 0
  · simp [h0]
  · simp only [ne_eq, h0, not_false_eq_true, if_true]
    exact replaceDefinitionLinks_of_no_token definitions fuel _ _ _ (hclean h0)

/-- C10: a text that contains neither a follow token nor a replace token is
returned unchanged by replaceDefinitionLinks, for every maxDepth and useFollow
(one call suffices); hence a result of replaceDefinitionLinks that contains no
token is returned unchanged when the function is applied to it again. -/
theorem replaceDefinitionLinks_unchanged_without_token (definitions : QMap) (fuel : Nat)
    (maxDepth : Int) (useFollow : Bool) :
    (∀ text : QString, followIndexIn text = none → replaceIndexIn text = none →
      replaceDefinitionLinks definitions (fuel + 1) text maxDepth useFollow = some text) ∧
    (∀ (text : QString) (fuel0 : Nat) (maxDepth0 : Int) (useFollow0 : Bool) (r : QString),
      replaceDefinitionLinks definitions fuel0 text maxDepth0 useFollow0 = some r →
      followIndexIn r = none → replaceIndexIn r = none →
      replaceDefinitionLinks definitions (fuel + 1) r maxDepth useFollow = some r) := by
  constructor
  · intro text hf hr
    exact replaceDefinitionLinks_of_no_token definitions fuel text maxDepth useFollow
      ((findToken_none_iff text useFollow).2 ⟨hf, hr⟩)
  · intro text fuel0 maxDepth0 useFollow0 r _ hf hr
    exact replaceDefinitionLinks_of_no_token definitions fuel r maxDepth useFollow
      ((findToken_none_iff r useFollow).2 ⟨hf, hr⟩)

/-- C10 on the text "to run fast" and on the result "RUN" of resolving the
link of SPRINT. -/
theorem replaceDefinitionLinks_unchanged_without_token_witness :
    followIndexIn "to run fast".toList = none ∧ replaceIndexIn "to run fast".toList = none ∧
    replaceDefinitionLinks [] 1 "to run fast".toList 3 false = some "to run fast".toList ∧
    replaceDefinitionLinks [] 2 "\x7bRUN=v\x7d".toList 3 false = some "RUN".toList ∧
    replaceDefinitionLinks [] 1 "RUN".toList 3 false = some "RUN".toList :=
  ⟨by decide, by decide,
    (replaceDefinitionLinks_unchanged_without_token [] 0 3 false).1 _ (by decide) (by decide),
    by decide,
    (replaceDefinitionLinks_unchanged_without_token [] 0 3 false).2 "\x7bRUN=v\x7d".toList 2 3
      false _ (by decide) (by decide) (by decide)⟩

theorem linkReplacement_fail (definitions : QMap) (m : TokenMatch) (maxDepth : Int)
    (follow isF : Bool)
    (hfail : maxDepth = 0 ∨ getSubDefinition definitions (toUpper m.word) m.pos = []) :
    linkReplacement definitions m maxDepth follow isF =
      if follow then m.word else toUpper m.word := by
  unfold linkReplacement
  rcases hfail with h | h
  · simp [h]
  · simp [h]

theorem linkReplacement_found (definitions : QMap) (m : TokenMatch) (maxDepth : Int)
    (useFollow isF : Bool) (hdepth : maxDepth ≠ 0)
    (hsub : getSubDefinition definitions (toUpper m.word) m.pos ≠ []) :
    linkReplacement definitions m maxDepth (isF || useFollow) isF =
      if isF then
        m.word ++ [' ', '('] ++ getSubDefinition definitions (toUpper m.word) m.pos ++ [')']
      else if useFollow then getSubDefinition definitions (toUpper m.word) m.pos
      else toUpper m.word ++ [',', ' '] ++ getSubDefinition definitions (toUpper m.word) m.pos := by
  unfold linkReplacement
  cases isF <;> cases useFollow <;> simp [hdepth, hsub]

/-- C8 as stated fails: the text below holds exactly one token, a follow token
whose target has no sub-definition, yet the result with maxDepth 3 is "a" and
not the text with the token replaced by the captured word, because the
substitution joins the surrounding text into a new token that the recursive
call replaces as well. -/
theorem fallback_can_form_new_token :
    tokenCount "\x7b\x7ba=b\x7d=c\x7d".toList = 1 ∧
    findToken "\x7b\x7ba=b\x7d=c\x7d".toList false =
      some (⟨1, ['a'], ['b'], 5⟩, true, true) ∧
    getSubDefinition [] (toUpper ['a']) ['b'] = [] ∧
    replaceDefinitionLinks [] 3 "\x7b\x7ba=b\x7d=c\x7d".toList 3 false = some ['a'] ∧
    ¬ ∃ fuel, replaceDefinitionLinks [] fuel "\x7b\x7ba=b\x7d=c\x7d".toList 3 false =
      some ("\x7b".toList ++ ['a'] ++ "=c\x7d".toList) := by
  refine ⟨by decide, by decide, by decide, by decide, ?_⟩
  rintro ⟨fuel, h⟩
  have h3 : replaceDefinitionLinks [] 3 "\x7b\x7ba=b\x7d=c\x7d".toList 3 false = some ['a'] := by
    decide
  have := replaceDefinitionLinks_unique [] fuel 3 _ _ _ _ _ h h3
  revert this
  decide

/-- C8 as amended: when the first token of the text (a follow token if the
text holds one, else a replace token) is `m`, and maxDepth is 0 or
getSubDefinition of the upper-cased word is empty, and, unless maxDepth is 0,
the text left by the substitution holds no token, then replaceDefinitionLinks
returns the text with the token replaced by the captured word verbatim in
follow mode (the token is a follow token or useFollow is true) and by the
upper-cased word otherwise; the text before and after the token is
unchanged. Two nested calls suffice. -/
theorem replaceDefinitionLinks_fallback (definitions : QMap) (fuel : Nat) (text : QString)
    (maxDepth : Int) (useFollow : Bool) (m : TokenMatch) (follow isF : Bool)
    (hfind : findToken text useFollow = some (m, follow, isF))
    (hfail : maxDepth = 0 ∨ getSubDefinition definitions (toUpper m.word) m.pos = [])
    (hclean : maxDepth ≠ 0 →
      findToken (text.take m.index ++ (if follow then m.word else toUpper m.word) ++
        text.drop (m.index + m.matchedLength)) follow = none) :
    text = text.take m.index ++ tokenText isF m ++ text.drop (m.index + m.matchedLength) ∧
    follow = (isF || useFollow) ∧
    replaceDefinitionLinks definitions (fuel + 2) text maxDepth useFollow =
      some (text.take m.index ++ (if follow then m.word else toUpper m.word) ++
        text.drop (m.index + m.matchedLength)) := by
  obtain ⟨hs, hfol, _⟩ := findToken_split text useFollow m follow isF hfind
  refine ⟨hs, hfol, ?_⟩
  have hrep := linkReplacement_fail definitions m maxDepth follow isF hfail
  have := replaceDefinitionLinks_one_step definitions fuel text maxDepth useFollow m follow isF
    hfind (by rw [hrep]; exact hclean)
  rw [hrep] at this
  exact this

/-- C8 on "see {run=v} now" with an empty definitions map. -/
theorem replaceDefinitionLinks_fallback_witness :
    findToken "see \x7brun=v\x7d now".toList false =
      some (⟨4, "run".toList, ['v'], 7⟩, true, true) ∧
    replaceDefinitionLinks [] 2 "see \x7brun=v\x7d now".toList 3 false =
      some "see run now".toList :=
  ⟨by decide,
    (replaceDefinitionLinks_fallback [] 0 "see \x7brun=v\x7d now".toList 3 false
      ⟨4, "run".toList, ['v'], 7⟩ true true (by decide) (Or.inr (by decide))
      (fun _ => by decide)).2.2⟩

/-- C9 as stated fails: the text below holds a single replace token whose
target W has the non-empty, token-free sub-definition "<a=b", yet with
useFollow = false the result is "W, A" and not the upper-cased word, a comma
and the sub-definition, because the substitution joins the sub-definition and
the suffix into a new token that the recursive call replaces as well. -/
theorem substitution_can_form_new_token :
    tokenCount "<w=p>>".toList = 1 ∧
    getSubDefinition [(['W'], "<a=b [p]".toList)] (toUpper ['w']) ['p'] = "<a=b".toList ∧
    findToken "<a=b".toList false = none ∧
    replaceDefinitionLinks [(['W'], "<a=b [p]".toList)] 3 "<w=p>>".toList 3 false =
      some "W, A".toList ∧
    ¬ ∃ fuel, replaceDefinitionLinks [(['W'], "<a=b [p]".toList)] fuel "<w=p>>".toList 3 false =
      some ([] ++ toUpper ['w'] ++ ", ".toList ++ "<a=b".toList ++ ">".toList) := by
  refine ⟨by decide, by decide, by decide, by decide, ?_⟩
  rintro ⟨fuel, h⟩
  have h3 : replaceDefinitionLinks [(['W'], "<a=b [p]".toList)] 3 "<w=p>>".toList 3 false =
      some "W, A".toList := by
    decide
  have := replaceDefinitionLinks_unique _ fuel 3 _ _ _ _ _ h h3
  revert this
  decide

/-- C9 as amended: with maxDepth other than 0, when the first token of the
text is `m`, its target has a non-empty sub-definition and the text left by the
substitution holds no token, replaceDefinitionLinks returns the text with the
token replaced by `word (subdef)` for a follow token, by `subdef` for a replace
token with useFollow = true, and by the upper-cased word, a comma, a space and
`subdef` for a replace token with useFollow = false; the text before and after
the token is unchanged. Two nested calls suffice. -/
theorem replaceDefinitionLinks_substitution (definitions : QMap) (fuel : Nat) (text : QString)
    (maxDepth : Int) (useFollow : Bool) (m : TokenMatch) (follow isF : Bool)
    (hfind : findToken text useFollow = some (m, follow, isF))
    (hdepth : maxDepth ≠ 0)
    (hsub : getSubDefinition definitions (toUpper m.word) m.pos ≠ [])
    (hclean : findToken (text.take m.index ++
        (if isF then
          m.word ++ [' ', '('] ++ getSubDefinition definitions (toUpper m.word) m.pos ++ [')']
        else if useFollow then getSubDefinition definitions (toUpper m.word) m.pos
        else toUpper m.word ++ [',', ' '] ++ getSubDefinition definitions (toUpper m.word) m.pos)
        ++ text.drop (m.index + m.matchedLength)) follow = none) :
    text = text.take m.index ++ tokenText isF m ++ text.drop (m.index + m.matchedLength) ∧
    replaceDefinitionLinks definitions (fuel + 2) text maxDepth useFollow =
      some (text.take m.index ++
        (if isF then
          m.word ++ [' ', '('] ++ getSubDefinition definitions (toUpper m.word) m.pos ++ [')']
        else if useFollow then getSubDefinition definitions (toUpper m.word) m.pos
        else toUpper m.word ++ [',', ' '] ++ getSubDefinition definitions (toUpper m.word) m.pos)
        ++ text.drop (m.index + m.matchedLength)) := by
  obtain ⟨hs, hfol, _⟩ := findToken_split text useFollow m follow isF hfind
  refine ⟨hs, ?_⟩
  have hrep := linkReplacement_found definitions m maxDepth useFollow isF hdepth hsub
  rw [← hfol] at hrep
  have := replaceDefinitionLinks_one_step definitions fuel text maxDepth useFollow m follow isF
    hfind (fun _ => by rw [hrep]; exact hclean)
  rw [hrep] at this
  exact this

/-- C9 on "see <run=v> now" with RUN defined as "to move fast [v]". -/
theorem replaceDefinitionLinks_substitution_witness :
    findToken "see <run=v> now".toList false =
      some (⟨4, "run".toList, ['v'], 7⟩, false, false) ∧
    getSubDefinition [("RUN".toList, "to move fast [v]".toList)] (toUpper "run".toList) ['v']
      ≠ [] ∧
    replaceDefinitionLinks [("RUN".toList, "to move fast [v]".toList)] 2
        "see <run=v> now".toList 3 false =
      some "see RUN, to move fast now".toList :=
  ⟨by decide, by decide,
    (replaceDefinitionLinks_substitution [("RUN".toList, "to move fast [v]".toList)] 0
      "see <run=v> now".toList 3 false ⟨4, "run".toList, ['v'], 7⟩ false false
      (by decide) (by decide) (by decide) (by decide)).2⟩

theorem isOpener_of_wordChar (c : Char) (h : isWordChar c = true) : isOpener c = false := by
  cases ho : isOpener c with
  | false => rfl
  | true =>
    exfalso
    simp only [isOpener, Bool.or_eq_true, beq_iff_eq] at ho
    rcases ho with ho | ho <;> subst ho <;> revert h <;> decide

theorem isOpener_toUpper (c : Char) (h : isWordChar c = true) : isOpener c.toUpper = false := by
  unfold Char.toUpper
  simp only []
  split_ifs with hl
  · obtain ⟨h1, h2⟩ := hl
    generalize c.toNat = n at h1 h2
    interval_cases n <;> decide
  · exact isOpener_of_wordChar c h

theorem openCount_word (w : QString) (h : ∀ x ∈ w, isWordChar x = true) : openCount w = 0 := by
  rw [openCount, List.countP_eq_zero]
  intro x hx
  simp [isOpener_of_wordChar x (h x hx)]

theorem openCount_toUpper (w : QString) (h : ∀ x ∈ w, isWordChar x = true) :
    openCount (toUpper w) = 0 := by
  rw [openCount, List.countP_eq_zero]
  intro x hx
  obtain ⟨y, hy, rfl⟩ := List.mem_map.1 hx
  simp [isOpener_toUpper y (h y hy)]

theorem openCount_append (a b : QString) : openCount (a ++ b) = openCount a + openCount b := by
  simp [openCount, List.countP_append]

theorem findToken_none_of_openCount (text : QString) (useFollow : Bool)
    (h : openCount text = 0) : findToken text useFollow = none := by
  rw [openCount, List.countP_eq_zero] at h
  rw [findToken_none_iff]
  constructor
  · apply indexInToken_none_of_not_mem
    intro hm
    exact h _ hm (by decide)
  · apply indexInToken_none_of_not_mem
    intro hm
    exact h _ hm (by decide)

theorem findToken_word_chars (text : QString) (useFollow : Bool) (m : TokenMatch)
    (follow isF : Bool) (h : findToken text useFollow = some (m, follow, isF)) :
    (∀ x ∈ m.word, isWordChar x = true) ∧ (∀ x ∈ m.pos, isWordChar x = true) := by
  rcases findToken_some text useFollow m follow isF h with ⟨_, _, h3⟩ | ⟨_, _, _, h3⟩
  · obtain ⟨_, _, _, hw, hp⟩ := indexInToken_split _ _ text m h3
    exact ⟨hw, hp⟩
  · obtain ⟨_, _, _, hw, hp⟩ := indexInToken_split _ _ text m h3
    exact ⟨hw, hp⟩

theorem openCount_tokenText (isF : Bool) (m : TokenMatch)
    (hw : ∀ x ∈ m.word, isWordChar x = true) (hp : ∀ x ∈ m.pos, isWordChar x = true) :
    openCount (tokenText isF m) = 1 := by
  have h1 := openCount_word m.word hw
  have h2 := openCount_word m.pos hp
  unfold openCount at *
  cases isF <;>
    simp [tokenText, List.countP_cons, List.countP_append, h1, h2, isOpener]

theorem openCount_replaceAt (text : QString) (useFollow : Bool) (m : TokenMatch)
    (follow isF : Bool) (h : findToken text useFollow = some (m, follow, isF))
    (repl : QString) (hr : openCount repl = 0) :
    openCount (replaceAt text m repl) + 1 = openCount text := by
  obtain ⟨hs, _, _⟩ := findToken_split text useFollow m follow isF h
  obtain ⟨hw, hp⟩ := findToken_word_chars text useFollow m follow isF h
  have ht := openCount_tokenText isF m hw hp
  conv_rhs => rw [hs]
  simp only [replaceAt, openCount_append, hr, ht]
  omega

theorem fallback_facts (text : QString) (useFollow : Bool) (m : TokenMatch)
    (follow isF : Bool) (h : findToken text useFollow = some (m, follow, isF)) :
    openCount (if follow then m.word else toUpper m.word) = 0 ∧
    (if follow then m.word else toUpper m.word) ≠ [] := by
  obtain ⟨hw, _⟩ := findToken_word_chars text useFollow m follow isF h
  obtain ⟨_, _, hne⟩ := findToken_split text useFollow m follow isF h
  cases follow
  · exact ⟨by simpa using openCount_toUpper m.word hw, by simpa [toUpper] using hne⟩
  · exact ⟨by simpa using openCount_word m.word hw, by simpa using hne⟩

theorem replaceAt_ne_nil (text : QString) (m : TokenMatch) (repl : QString) (h : repl ≠ []) :
    replaceAt text m repl ≠ [] := by
  simp [replaceAt, h]

theorem replaceDefinitionLinks_step (definitions : QMap) (fuel : Nat) (text : QString)
    (d : Int) (u : Bool) (m : TokenMatch) (follow isF : Bool)
    (hf : findToken text u = some (m, follow, isF)) :
    replaceDefinitionLinks definitions (fuel + 1) text d u =
      if d ≠ 0 then
        replaceDefinitionLinks definitions fuel
          (replaceAt text m (linkReplacement definitions m d follow isF))
          (if follow then d - 1 else d) follow
      else some (replaceAt text m (linkReplacement definitions m d follow isF)) := by
  rw [replaceDefinitionLinks]
  simp only [hf]

theorem brace_not_mem_replaceAt (text : QString) (m : TokenMatch)
    (hw : ∀ x ∈ m.word, isWordChar x = true) (h : Char.ofNat 123 ∉ text) :
    Char.ofNat 123 ∉ replaceAt text m (toUpper m.word) := by
  intro hm
  simp only [replaceAt, List.mem_append] at hm
  rcases hm with (hm | hm) | hm
  · exact h (List.mem_of_mem_take hm)
  · obtain ⟨y, hy, hyu⟩ := List.mem_map.1 hm
    have := isOpener_toUpper y (hw y hy)
    rw [hyu] at this
    revert this
    decide
  · exact h (List.mem_of_mem_drop hm)

theorem cyclePrefix_chars (k : Nat) :
    ∀ c ∈ cyclePrefix k, c = 'A' ∨ c = ',' ∨ c = ' ' := by
  induction k with
  | zero => intro c hc; simp [cyclePrefix] at hc
  | succ k ih =>
    intro c hc
    simp only [cyclePrefix, List.mem_append] at hc
    rcases hc with hc | hc
    · exact ih c hc
    · revert hc
      simp only [String.toList]
      intro hc
      simpa using hc

theorem cycle_findToken (k : Nat) :
    findToken (cyclePrefix k ++ "<a=n>".toList) false =
      some (⟨(cyclePrefix k).length, ['a'], ['n'], 5⟩, false, false) := by
  have h1 : Char.ofNat 123 ∉ cyclePrefix k := by
    intro h
    rcases cyclePrefix_chars k _ h with h | h | h <;> revert h <;> decide
  have h2 : '<' ∉ cyclePrefix k := by
    intro h
    rcases cyclePrefix_chars k _ h with h | h | h <;> revert h <;> decide
  have h3 : indexInToken (Char.ofNat 123) (Char.ofNat 125) "<a=n>".toList = none := by decide
  have h4 : indexInToken '<' '>' "<a=n>".toList = some ⟨0, ['a'], ['n'], 5⟩ := by decide
  unfold findToken followIndexIn replaceIndexIn
  rw [indexInToken_append _ _ _ _ h1, indexInToken_append _ _ _ _ h2, h3, h4]
  simp

theorem cycle_never_returns (fuel : Nat) :
    ∀ k, replaceDefinitionLinks cyclicDefinitions fuel (cyclePrefix k ++ "<a=n>".toList) 3 false
      = none := by
  induction fuel with
  | zero => intro k; rfl
  | succ fuel ih =>
    intro k
    have hsub : getSubDefinition cyclicDefinitions (toUpper ['a']) ['n'] = "<a=n>".toList := by
      decide
    have hrep : linkReplacement cyclicDefinitions ⟨(cyclePrefix k).length, ['a'], ['n'], 5⟩ 3
        false false = "A, <a=n>".toList := by
      simp only [linkReplacement, hsub]
      decide
    have hmod : replaceAt (cyclePrefix k ++ "<a=n>".toList)
        ⟨(cyclePrefix k).length, ['a'], ['n'], 5⟩ "A, <a=n>".toList =
        cyclePrefix (k + 1) ++ "<a=n>".toList := by
      simp only [replaceAt, List.take_left', cyclePrefix]
      rw [List.drop_append]
      simp
    rw [replaceDefinitionLinks_step cyclicDefinitions fuel _ 3 false _ false false
      (cycle_findToken k), hrep, hmod]
    simp only [ne_eq, OfNat.ofNat_ne_zero, not_false_eq_true, if_true, Bool.false_eq_true,
      if_false]
    exact ih (k + 1)

/-- C6 (the defect): with the definition "<a=n> [n]" of the word A, which
getDefinitions keeps, replaceDefinitionLinks on the sense "<a=n>" with
maxDepth 3 and useFollow = false makes no number of nested calls that ends:
every call replaces the token by "A, <a=n>" and recurses with the same
maxDepth. -/
theorem replaceDefinitionLinks_cycle_never_returns :
    (getDefinitions false [(['A'], "<a=n> [n]".toList)] 0 []).definitions = cyclicDefinitions ∧
    ∀ fuel, replaceDefinitionLinks cyclicDefinitions fuel "<a=n>".toList 3 false = none :=
  ⟨by decide, fun fuel => cycle_never_returns fuel 0⟩

theorem linkReplacement_ne_nil (definitions : QMap) (m : TokenMatch) (maxDepth : Int)
    (useFollow isF : Bool) (hw : m.word ≠ []) :
    linkReplacement definitions m maxDepth useFollow isF ≠ [] := by
  have hu : toUpper m.word ≠ [] := by simpa [toUpper] using hw
  unfold linkReplacement
  simp only []
  split_ifs <;> simp_all

theorem replaceDefinitionLinks_ne_nil (definitions : QMap) (fuel : Nat) :
    ∀ (text : QString) (d : Int) (u : Bool) (r : QString), text ≠ [] →
      replaceDefinitionLinks definitions fuel text d u = some r → r ≠ [] := by
  induction fuel with
  | zero => intro text d u r _ h; simp [replaceDefinitionLinks] at h
  | succ fuel ih =>
    intro text d u r hne h
    cases hf : findToken text u with
    | none =>
      rw [replaceDefinitionLinks_of_no_token definitions fuel text d u hf] at h
      exact (Option.some.inj h) ▸ hne
    | some t =>
      obtain ⟨m, follow, isF⟩ := t
      obtain ⟨_, _, hw⟩ := findToken_split text u m follow isF hf
      have hmod := replaceAt_ne_nil text m _
        (linkReplacement_ne_nil definitions m d follow isF hw)
      rw [replaceDefinitionLinks_step definitions fuel text d u m follow isF hf] at h
      by_cases h0 : d = 0
      · simp only [h0, ne_eq, not_true_eq_false, if_false, Option.some.injEq] at h
        rw [← h, ← h0]
        exact hmod
      · simp only [ne_eq, h0, not_false_eq_true, if_true] at h
        exact ih _ _ _ _ hmod h

theorem intercalate_cons_cons (sep a b : QString) (rest : List QString) :
    sep.intercalate (a :: b :: rest) = a ++ sep ++ sep.intercalate (b :: rest) := by
  simp [List.intercalate, List.intersperse]

theorem resolveSenses_joined (definitions : QMap) (fuel : Nat) (senses resolved : List QString)
    (hres : List.Forall₂
      (fun s r => replaceDefinitionLinks definitions fuel s MAX_DEFINITION_LINKS false = some r)
      senses resolved)
    (hne : ∀ r ∈ resolved, r ≠ []) (acc : QString) :
    resolveSenses definitions fuel senses acc =
      some (if acc = [] then ['\n'].intercalate resolved
        else if resolved = [] then acc else acc ++ ['\n'] ++ ['\n'].intercalate resolved) := by
  induction hres generalizing acc with
  | nil => by_cases h : acc = [] <;> simp [resolveSenses, h, List.intercalate]
  | @cons s r senses resolved hsr _ ih =>
    have hr : r ≠ [] := hne r (List.mem_cons_self _ _)
    have hrest : ∀ x ∈ resolved, x ≠ [] := fun x hx => hne x (List.mem_cons_of_mem _ hx)
    simp only [resolveSenses, hsr]
    rw [ih hrest]
    by_cases h : acc = []
    · subst h
      cases resolved with
      | nil => simp [hr, List.intercalate]
      | cons b rest => simp [hr, intercalate_cons_cons]
    · cases resolved with
      | nil => simp [h, List.intercalate]
      | cons b rest => simp [h, intercalate_cons_cons]

theorem forall₂_source {α β : Type} {R : α → β → Prop} {l1 : List α} {l2 : List β}
    (h : List.Forall₂ R l1 l2) : ∀ b ∈ l2, ∃ a ∈ l1, R a b := by
  induction h with
  | nil => intro b hb; simp at hb
  | cons hab _ ih =>
    intro b hb
    rcases List.mem_cons.1 hb with h | h
    · subst h
      exact ⟨_, List.mem_cons_self _ _, hab⟩
    · obtain ⟨a, ha, hr⟩ := ih b h
      exact ⟨a, List.mem_cons_of_mem _ ha, hr⟩

theorem splitGo_ne_nil (sep : QString) (text : QString) :
    ∀ (skip : Nat) (cur : QString), splitGo sep text skip cur ≠ [] := by
  induction text with
  | nil => intro skip cur; simp [splitGo]
  | cons c rest ih =>
    intro skip cur
    cases skip with
    | zero =>
      simp only [splitGo]
      split_ifs
      · simp
      · exact ih _ _
    | succ k =>
      simp only [splitGo]
      exact ih _ _

theorem count_intercalate_newline (resolved : List QString)
    (h : ∀ r ∈ resolved, '\n' ∉ r) (hne : resolved ≠ []) :
    (['\n'].intercalate resolved).count '\n' + 1 = resolved.length := by
  induction resolved with
  | nil => exact absurd rfl hne
  | cons a rest ih =>
    have ha : a.count '\n' = 0 := List.count_eq_zero.2 (h a (List.mem_cons_self _ _))
    cases rest with
    | nil => simp [List.intercalate, ha]
    | cons b rest =>
      have := ih (fun r hr => h r (List.mem_cons_of_mem _ hr)) (by simp)
      rw [intercalate_cons_cons]
      simp only [List.count_append, ha, List.length_cons] at this ⊢
      simp only [List.count_cons_self, List.count_nil]
      omega

/-- C11: for a raw definition whose senses (the pieces between " / ") are all
non-empty and resolve to the texts `resolved`, sense by sense, by
replaceDefinitionLinks(sense, 3, false), the new definition computed by
updateDefinitionLinks is these texts joined with one newline between
consecutive texts; there are as many texts as senses, and, when no resolved
text holds a newline itself, as many lines. -/
theorem updateDefinitionLinks_joins_senses (definitions : QMap) (fuel : Nat)
    (definition : QString) (resolved : List QString)
    (hne : ∀ s ∈ splitSenses definition, s ≠ [])
    (hres : List.Forall₂
      (fun s r => replaceDefinitionLinks definitions fuel s MAX_DEFINITION_LINKS false = some r)
      (splitSenses definition) resolved) :
    newDefinitionOf definitions fuel definition = some (['\n'].intercalate resolved) ∧
    resolved.length = (splitSenses definition).length ∧
    ((∀ r ∈ resolved, '\n' ∉ r) →
      (['\n'].intercalate resolved).count '\n' + 1 = (splitSenses definition).length) := by
  have hlen := hres.length_eq
  have hrne : ∀ r ∈ resolved, r ≠ [] := by
    intro r hr
    obtain ⟨s, hs, hsr⟩ := forall₂_source hres r hr
    exact replaceDefinitionLinks_ne_nil definitions fuel s _ _ r (hne s hs) hsr
  refine ⟨?_, hlen.symm, ?_⟩
  · have := resolveSenses_joined definitions fuel _ _ hres hrne []
    simpa [newDefinitionOf] using this
  · intro hnl
    rw [hlen]
    apply count_intercalate_newline resolved hnl
    intro h
    rw [h] at hlen
    exact splitGo_ne_nil _ _ _ _ (List.length_eq_zero.1 hlen)

/-- C11 on a definition with three senses, RUN being defined as
"to move fast [v]". -/
theorem updateDefinitionLinks_joins_senses_witness :
    (∀ s ∈ splitSenses threeSenses, s ≠ []) ∧
    newDefinitionOf [("RUN".toList, "to move fast [v]".toList)] 2 threeSenses =
      some (['\n'].intercalate
        ["RUN (to move fast)".toList, "a RUN, to move fast".toList, ['b']]) ∧
    newDefinitionOf [("RUN".toList, "to move fast [v]".toList)] 2 threeSenses =
      some "RUN (to move fast)\na RUN, to move fast\nb".toList :=
  ⟨by decide,
    (updateDefinitionLinks_joins_senses [("RUN".toList, "to move fast [v]".toList)] 2
      threeSenses ["RUN (to move fast)".toList, "a RUN, to move fast".toList, ['b']]
      (by decide)
      (List.Forall₂.cons (by decide) (List.Forall₂.cons (by decide)
        (List.Forall₂.cons (by decide) List.Forall₂.nil)))).1,
    by decide⟩

theorem takeWhile_append_all {p : Char → Bool} (ws l : QString) (h : ∀ x ∈ ws, p x = true) :
    (ws ++ l).takeWhile p = ws ++ l.takeWhile p ∧ (ws ++ l).dropWhile p = l.dropWhile p := by
  induction ws with
  | nil => simp
  | cons a ws ih =>
    have ha := h a (List.mem_cons_self _ _)
    obtain ⟨h1, h2⟩ := ih (fun x hx => h x (List.mem_cons_of_mem _ hx))
    simp [List.takeWhile_cons, List.dropWhile_cons, ha, h1, h2]

theorem isSpace_ne_bracket (c : Char) (h : isSpace c = true) : c ≠ '[' := by
  intro hc
  subst hc
  revert h
  decide

theorem altSenseAt_iff (t : QString) :
    altSenseAt t = true ↔
      ∃ ws1 ws2 c b, t = ws1 ++ '/' :: ws2 ++ c :: b ∧
        ws1 ≠ [] ∧ (∀ x ∈ ws1, isSpace x = true) ∧
        ws2 ≠ [] ∧ (∀ x ∈ ws2, isSpace x = true) ∧ c ≠ '[' := by
  constructor
  · intro h
    have ht := List.takeWhile_append_dropWhile isSpace t
    have hW : ∀ x ∈ t.takeWhile isSpace, isSpace x = true := fun x hx =>
      List.mem_takeWhile_imp hx
    simp only [altSenseAt, Bool.and_eq_true, decide_eq_true_eq] at h
    obtain ⟨hne, hm⟩ := h
    cases hD : t.dropWhile isSpace with
    | nil => rw [hD] at hm; simp at hm
    | cons e rest =>
      rw [hD] at hm
      by_cases he : e = '/'
      · subst he
        simp only at hm
        have hr := List.takeWhile_append_dropWhile isSpace rest
        have hR : ∀ x ∈ rest.takeWhile isSpace, isSpace x = true := fun x hx =>
          List.mem_takeWhile_imp hx
        cases hT : rest.takeWhile isSpace with
        | nil => rw [hT] at hm; simp at hm
        | cons x R =>
          rw [hT] at hm hr hR
          cases R with
          | nil =>
            cases hE : rest.dropWhile isSpace with
            | nil => rw [hE] at hm; simp at hm
            | cons d E =>
              rw [hE] at hm hr
              simp only [decide_eq_true_eq] at hm
              refine ⟨t.takeWhile isSpace, [x], d, E, ?_, hne, hW, by simp, ?_, hm⟩
              · conv_lhs => rw [← ht, hD, ← hr]
                simp
              · intro y hy
                exact hR y hy
          | cons y R' =>
            refine ⟨t.takeWhile isSpace, [x], y, R' ++ rest.dropWhile isSpace, ?_, hne, hW,
              by simp, ?_, ?_⟩
            · conv_lhs => rw [← ht, hD, ← hr]
              simp
            · intro z hz
              rw [List.mem_singleton.1 hz]
              exact hR x (List.mem_cons_self _ _)
            · exact isSpace_ne_bracket y (hR y (by simp))
      · have : ∀ (l : QString), (match e :: rest with
            | '/' :: rest =>
              match rest.takeWhile isSpace, rest.dropWhile isSpace with
              | [], _ => false
              | [_], [] => false
              | [_], d :: _ => decide (d ≠ '[')
              | _ :: _ :: _, _ => true
            | _ => false) = false := by
          intro _
          split
          · rename_i h1
            simp only [List.cons.injEq] at h1
            exact absurd h1.1 he
          · rfl
        rw [this []] at hm
        simp at hm
  · rintro ⟨ws1, ws2, c, b, rfl, hne1, hs1, hne2, hs2, hc⟩
    have hslash : isSpace '/' = false := by decide
    obtain ⟨h1, h2⟩ := takeWhile_append_all (p := isSpace) ws1 ('/' :: ws2 ++ c :: b) hs1
    have h1' : (ws1 ++ '/' :: ws2 ++ c :: b).takeWhile isSpace = ws1 := by
      have : ws1 ++ '/' :: ws2 ++ c :: b = ws1 ++ ('/' :: ws2 ++ c :: b) := by simp
      rw [this, h1]
      simp [List.takeWhile_cons, hslash]
    have h2' : (ws1 ++ '/' :: ws2 ++ c :: b).dropWhile isSpace = '/' :: (ws2 ++ c :: b) := by
      have : ws1 ++ '/' :: ws2 ++ c :: b = ws1 ++ ('/' :: ws2 ++ c :: b) := by simp
      rw [this, h2]
      simp [List.dropWhile_cons, hslash]
    obtain ⟨h3, h4⟩ := takeWhile_append_all (p := isSpace) ws2 (c :: b) hs2
    simp only [altSenseAt, h1', h2', Bool.and_eq_true, decide_eq_true_eq]
    refine ⟨hne1, ?_⟩
    rw [h3, h4]
    cases ws2 with
    | nil => exact absurd rfl hne2
    | cons x ws2' =>
      cases ws2' with
      | nil =>
        by_cases hcs : isSpace c = true
        · simp [List.takeWhile_cons, hcs]
        · simp [List.takeWhile_cons, List.dropWhile_cons, hcs, hc]
      | cons y ws2'' => simp

theorem altSenseAnywhere_iff (t : QString) :
    altSenseAnywhere t = true ↔ HasAlternateSense t := by
  constructor
  · intro h
    induction t with
    | nil => simp [altSenseAnywhere] at h
    | cons c rest ih =>
      simp only [altSenseAnywhere, Bool.or_eq_true] at h
      rcases h with h | h
      · obtain ⟨ws1, ws2, d, b, ht, h1, h2, h3, h4, h5⟩ := (altSenseAt_iff _).1 h
        exact ⟨[], ws1, ws2, d, b, by simpa using ht, h1, h2, h3, h4, h5⟩
      · obtain ⟨a, ws1, ws2, d, b, ht, h1, h2, h3, h4, h5⟩ := ih h
        exact ⟨c :: a, ws1, ws2, d, b, by simp [ht], h1, h2, h3, h4, h5⟩
  · rintro ⟨a, ws1, ws2, d, b, ht, h1, h2, h3, h4, h5⟩
    induction a generalizing t with
    | nil =>
      have hat : altSenseAt t = true :=
        (altSenseAt_iff t).2 ⟨ws1, ws2, d, b, by simpa using ht, h1, h2, h3, h4, h5⟩
      cases t with
      | nil => simp [altSenseAt] at hat
      | cons c rest => simp [altSenseAnywhere, hat]
    | cons x a ih =>
      subst ht
      simp only [List.cons_append, altSenseAnywhere, Bool.or_eq_true]
      right
      exact ih _ (by simp)

theorem defRegexMatches_iff (definition : QString) :
    defRegexMatches definition = true ↔ KeptBySpec definition := by
  unfold defRegexMatches KeptBySpec
  rw [Bool.or_eq_true, altSenseAnywhere_iff]
  apply or_congr _ Iff.rfl
  cases definition with
  | nil => simp
  | cons c rest => simp

theorem getDefinitionsRow_definitions (cancelled : Bool) (s : DefsState)
    (word definition : QString) (hs : s.returned = false) :
    (getDefinitionsRow cancelled s (word, definition)).definitions =
      if defRegexMatches definition then qmapInsert word definition s.definitions
      else s.definitions := by
  unfold getDefinitionsRow
  simp only [hs, Bool.false_eq_true, if_false]
  by_cases h : defRegexMatches definition = true
  · simp [h]
  · simp only [h, not_false_eq_true, if_true, Bool.false_eq_true, if_false]
    split_ifs <;> rfl

theorem not_kept_of_no_slash (tag : QString) (h : '/' ∉ tag) : ¬ KeptBySpec ('[' :: tag) := by
  rintro (⟨c, rest, hc, hne⟩ | ⟨a, ws1, ws2, d, b, ht, _⟩)
  · simp only [List.cons.injEq] at hc
    exact hne hc.1.symm
  · have hm : '/' ∈ '[' :: tag := by
      rw [ht]
      simp
    rcases List.mem_cons.1 hm with h' | h'
    · revert h'; decide
    · exact h h'

/-- C12 as stated fails: "[v] to move fast" has sense text after its leading
bracketed tag, yet it is not kept: getDefinitions discards it. -/
theorem tag_then_sense_is_discarded :
    SenseAfterLeadingTag "[v] to move fast".toList ∧
    ¬ KeptBySpec "[v] to move fast".toList ∧
    (getDefinitions false [("RUN".toList, "[v] to move fast".toList)] 0 []).definitions = [] := by
  refine ⟨⟨['v'], " to move fast".toList, by decide, by decide, 't', by decide, by decide⟩,
    ?_, by decide⟩
  rw [← defRegexMatches_iff]
  decide

/-- C12 as amended: getDefinitions keeps the definition of a word if and only
if the definition is not empty with a first character other than `[`, or
holds whitespace, a slash, whitespace and then a character other than `[`; a
definition that starts with `[` and holds no slash, in particular one that is
only a bracketed tag, is discarded; a discarded definition is empty or starts
with `[`. -/
theorem getDefinitions_keeps_iff (definition : QString) :
    (defRegexMatches definition = true ↔ KeptBySpec definition) ∧
    (∀ (cancelled : Bool) (s : DefsState) (word : QString), s.returned = false →
      (getDefinitionsRow cancelled s (word, definition)).definitions =
        if defRegexMatches definition then qmapInsert word definition s.definitions
        else s.definitions) ∧
    (∀ tag : QString, '/' ∉ tag → ¬ KeptBySpec ('[' :: tag)) ∧
    (¬ KeptBySpec definition → definition = [] ∨ ∃ rest, definition = '[' :: rest) := by
  refine ⟨defRegexMatches_iff definition,
    fun cancelled s word hs => getDefinitionsRow_definitions cancelled s word definition hs,
    not_kept_of_no_slash, ?_⟩
  intro h
  cases definition with
  | nil => exact Or.inl rfl
  | cons c rest =>
    right
    by_cases hc : c = '['
    · exact ⟨rest, by rw [hc]⟩
    · exact absurd (Or.inl ⟨c, rest, rfl, hc⟩) h

/-- C12 on the definition "[n] / large [adj]", which is kept for its second
sense, and on the bare tag "[n]", which is discarded. -/
theorem getDefinitions_keeps_iff_witness :
    KeptBySpec "[n] / large [adj]".toList ∧
    (getDefinitionsRow false ⟨[], 0, [], false⟩
      ("BIG".toList, "[n] / large [adj]".toList)).definitions =
      [("BIG".toList, "[n] / large [adj]".toList)] ∧
    '/' ∉ "n]".toList ∧ ¬ KeptBySpec "[n]".toList :=
  ⟨(getDefinitions_keeps_iff "[n] / large [adj]".toList).1.1 (by decide),
    by decide, by decide,
    (getDefinitions_keeps_iff "[n]".toList).2.2.1 "n]".toList (by decide)⟩

theorem annotateStyles_eq (isAcceptable : QString → QString → Bool) (hookWord : QString)
    (lexStyles : List LexiconStyle) :
    ∀ (pre suf : QString) (i : Nat), pre.length = i + 1 →
      annotateStyles isAcceptable hookWord lexStyles (pre ++ suf) i =
        (pre ++ hookSymbols isAcceptable lexStyles hookWord ++ suf,
          i + (hookSymbols isAcceptable lexStyles hookWord).length) := by
  induction lexStyles with
  | nil => intro pre suf i _; simp [annotateStyles, hookSymbols]
  | cons style rest ih =>
    intro pre suf i hi
    simp only [annotateStyles]
    have htake : (pre ++ suf).take (i + 1) = pre := by
      rw [← hi]; exact List.take_left' rfl
    have hdrop : (pre ++ suf).drop (i + 1) = suf := by
      rw [← hi]; exact List.drop_left' rfl
    by_cases hm : isAcceptable style.compareLexicon hookWord = style.inCompareLexicon
    · have hx : (!(xor (isAcceptable style.compareLexicon hookWord) style.inCompareLexicon))
          = true := by
        rw [hm]; cases style.inCompareLexicon <;> rfl
      rw [if_pos hx, htake, hdrop]
      have := ih (pre ++ style.symbol) suf (i + style.symbol.length)
        (by rw [List.length_append, hi]; omega)
      rw [this]
      simp [hookSymbols, List.filter_cons, hm, Nat.add_assoc]
    · have hx : (!(xor (isAcceptable style.compareLexicon hookWord) style.inCompareLexicon))
          = false := by
        revert hm
        cases isAcceptable style.compareLexicon hookWord <;>
          cases style.inCompareLexicon <;> simp
      rw [hx]
      simp only [Bool.false_eq_true, if_false]
      rw [ih pre suf i hi]
      simp [hookSymbols, List.filter_cons, hm]

theorem annotateHooks_eq (isAcceptable : QString → QString → Bool)
    (lexStyles : List LexiconStyle) (hookWordOf : Char → QString) (rest : QString) :
    ∀ (fuel : Nat) (done : QString), rest.length ≤ fuel →
      annotateHooks isAcceptable lexStyles hookWordOf fuel (done ++ rest) done.length =
        done ++ rest.flatMap
          (fun c => c :: hookSymbols isAcceptable lexStyles (hookWordOf c.toUpper)) := by
  induction rest with
  | nil =>
    intro fuel done _
    cases fuel with
    | zero => simp [annotateHooks]
    | succ fuel => simp [annotateHooks]
  | cons c rest ih =>
    intro fuel done hfuel
    cases fuel with
    | zero => simp at hfuel
    | succ fuel =>
      have hlt : done.length < (done ++ c :: rest).length := by simp
      have hc : (done ++ c :: rest).getD done.length ' ' = c := by
        rw [List.getD_eq_getElem?_getD, List.getElem?_append_right (le_refl _)]
        simp
      simp only [annotateHooks, hlt, if_true, hc]
      have hsplit : done ++ c :: rest = (done ++ [c]) ++ rest := by simp
      rw [hsplit, annotateStyles_eq isAcceptable _ lexStyles (done ++ [c]) rest done.length
        (by simp)]
      simp only []
      have := ih fuel (done ++ [c] ++ hookSymbols isAcceptable lexStyles (hookWordOf c.toUpper))
        (by simpa using hfuel)
      simp only [List.length_append, List.length_singleton] at this
      rw [show done.length + (hookSymbols isAcceptable lexStyles (hookWordOf c.toUpper)).length + 1
        = done.length + 1 + (hookSymbols isAcceptable lexStyles (hookWordOf c.toUpper)).length
        by omega]
      rw [this]
      simp [List.flatMap_cons]

theorem hookLetters_foldl (p q : Char → Bool) (l : List Char) :
    ∀ (f b : QString),
      l.foldl (fun fb letter =>
        ((if p letter then fb.1 ++ [letter] else fb.1),
         (if q letter then fb.2 ++ [letter] else fb.2))) (f, b) =
      (f ++ l.filter p, b ++ l.filter q) := by
  induction l with
  | nil => intro f b; simp
  | cons a l ih =>
    intro f b
    rw [List.foldl_cons, ih]
    by_cases hp : p a = true <;> by_cases hq : q a = true <;>
      simp [List.filter_cons, hp, hq]

theorem hookLetters_eq (isAcceptable : QString → Bool) (word : QString) :
    hookLetters isAcceptable word =
      (letters.filter (fun l => isAcceptable (l :: word)),
       letters.filter (fun l => isAcceptable (word ++ [l]))) := by
  unfold hookLetters
  have := hookLetters_foldl (fun l => isAcceptable (l :: word))
    (fun l => isAcceptable (word ++ [l])) letters [] []
  simpa using this

theorem letters_toUpper : ∀ c ∈ letters, c.toUpper = c := by decide

theorem flatMap_congr_mem {l : List Char} {f g : Char → QString}
    (h : ∀ c ∈ l, f c = g c) : l.flatMap f = l.flatMap g := by
  induction l with
  | nil => rfl
  | cons a l ih =>
    rw [List.flatMap_cons, List.flatMap_cons, h a (List.mem_cons_self _ _),
      ih (fun c hc => h c (List.mem_cons_of_mem _ hc))]

theorem annotateHooks_letters (isAcceptable : QString → QString → Bool)
    (lexStyles : List LexiconStyle) (hookWordOf : Char → QString) (p : Char → Bool) (k : Nat) :
    annotateHooks isAcceptable lexStyles hookWordOf ((letters.filter p).length + k)
        (letters.filter p) 0 =
      (letters.filter p).flatMap
        (fun letter => letter :: hookSymbols isAcceptable lexStyles (hookWordOf letter)) := by
  have := annotateHooks_eq isAcceptable lexStyles hookWordOf (letters.filter p)
    ((letters.filter p).length + k) [] (by omega)
  simp only [List.nil_append, List.length_nil] at this
  rw [this]
  apply flatMap_congr_mem
  intro c hc
  rw [letters_toUpper c (List.mem_of_mem_filter hc)]

theorem flatMap_pure (l : List Char) : l.flatMap (fun c => [c]) = l := by
  induction l with
  | nil => rfl
  | cons a l ih => rw [List.flatMap_cons, ih]; rfl

/-- C14: for every word, style list and oracle, the front hooks of insertWords
are the letters of A to Z, in alphabetical order, that make an acceptable word
in front of the word; the annotation loop, given at least as many iterations
as there are hooks, turns them into the concatenation, letter by letter, of
the letter followed by the symbols of exactly the styles for which
isAcceptable(style.compareLexicon, letter + word) equals
style.inCompareLexicon, in the order of the style list; the stored front_hooks
is the lower-cased annotated string; the same holds for the back hooks with
word + letter. Every symbol thus stands behind the letter it annotates. -/
theorem insertWords_annotates_hooks (env : Collaborators) (lexiconName : QString)
    (lexStyles : List LexiconStyle) (length : Nat) (word : QString) :
    (hookLetters (env.isAcceptable lexiconName) word).1 =
      letters.filter (fun l => env.isAcceptable lexiconName (l :: word)) ∧
    (hookLetters (env.isAcceptable lexiconName) word).2 =
      letters.filter (fun l => env.isAcceptable lexiconName (word ++ [l])) ∧
    letters.Pairwise (fun a b => a < b) ∧
    (∀ k, annotateHooks env.isAcceptable lexStyles (fun c => c :: word)
        ((letters.filter (fun l => env.isAcceptable lexiconName (l :: word))).length + k)
        (letters.filter (fun l => env.isAcceptable lexiconName (l :: word))) 0 =
      (letters.filter (fun l => env.isAcceptable lexiconName (l :: word))).flatMap
        (fun letter => letter :: hookSymbols env.isAcceptable lexStyles (letter :: word))) ∧
    (∀ k, annotateHooks env.isAcceptable lexStyles (fun c => word ++ [c])
        ((letters.filter (fun l => env.isAcceptable lexiconName (word ++ [l]))).length + k)
        (letters.filter (fun l => env.isAcceptable lexiconName (word ++ [l]))) 0 =
      (letters.filter (fun l => env.isAcceptable lexiconName (word ++ [l]))).flatMap
        (fun letter => letter :: hookSymbols env.isAcceptable lexStyles (word ++ [letter]))) ∧
    (wordRow env lexiconName lexStyles length word).frontHooks =
      toLower ((letters.filter (fun l => env.isAcceptable lexiconName (l :: word))).flatMap
        (fun letter => letter :: hookSymbols env.isAcceptable lexStyles (letter :: word))) ∧
    (wordRow env lexiconName lexStyles length word).backHooks =
      toLower ((letters.filter (fun l => env.isAcceptable lexiconName (word ++ [l]))).flatMap
        (fun letter => letter :: hookSymbols env.isAcceptable lexStyles (word ++ [letter]))) := by
  have hh := hookLetters_eq (env.isAcceptable lexiconName) word
  have hf := fun k => annotateHooks_letters env.isAcceptable lexStyles (fun c => c :: word)
    (fun l => env.isAcceptable lexiconName (l :: word)) k
  have hb := fun k => annotateHooks_letters env.isAcceptable lexStyles (fun c => word ++ [c])
    (fun l => env.isAcceptable lexiconName (word ++ [l])) k
  refine ⟨by rw [hh], by rw [hh], by decide, hf, hb, ?_, ?_⟩
  · by_cases hs : lexStyles = []
    · subst hs
      simp only [wordRow, hh, ne_eq, not_true_eq_false, if_false, hookSymbols, List.filter_nil,
        List.flatMap_nil, flatMap_pure]
    · have := hf 0
      simp only [Nat.add_zero] at this
      simp only [wordRow, hh, ne_eq, hs, not_false_eq_true, if_true, this]
  · by_cases hs : lexStyles = []
    · subst hs
      simp only [wordRow, hh, ne_eq, not_true_eq_false, if_false, hookSymbols, List.filter_nil,
        List.flatMap_nil, flatMap_pure]
    · have := hb 0
      simp only [Nat.add_zero] at this
      simp only [wordRow, hh, ne_eq, hs, not_false_eq_true, if_true, this]

theorem lowerLetters_eq : lowerLetters = letters.map Char.toLower := by decide

theorem letters_lower_upper : ∀ c ∈ letters, c.toLower.toUpper = c := by decide

theorem toLower_filter_letters (p : Char → Bool) :
    toLower (letters.filter p) = lowerLetters.filter (fun c => p c.toUpper) := by
  have h : letters.filter p = letters.filter ((fun c => p c.toUpper) ∘ Char.toLower) := by
    apply List.filter_congr
    intro c hc
    simp [Function.comp, letters_lower_upper c hc]
  rw [lowerLetters_eq, List.filter_map, toLower, ← h]

/-- C15: with an empty style list, the front_hooks that insertWords stores for
a word is the string of the lower-case letters `c`, in alphabetical order, for
which isAcceptable(lexicon, upper(c) + word) holds; it is strictly ascending
and every such letter occurs in it exactly once; likewise back_hooks with
word + upper(c). -/
theorem insertWords_hooks_without_styles (env : Collaborators) (lexiconName : QString)
    (length : Nat) (word : QString) :
    (wordRow env lexiconName [] length word).frontHooks =
      lowerLetters.filter (fun c => env.isAcceptable lexiconName (c.toUpper :: word)) ∧
    (wordRow env lexiconName [] length word).backHooks =
      lowerLetters.filter (fun c => env.isAcceptable lexiconName (word ++ [c.toUpper])) ∧
    (wordRow env lexiconName [] length word).frontHooks.Pairwise (fun a b => a < b) ∧
    (wordRow env lexiconName [] length word).backHooks.Pairwise (fun a b => a < b) ∧
    (∀ c ∈ lowerLetters, env.isAcceptable lexiconName (c.toUpper :: word) = true →
      (wordRow env lexiconName [] length word).frontHooks.count c = 1) ∧
    (∀ c ∈ lowerLetters, env.isAcceptable lexiconName (word ++ [c.toUpper]) = true →
      (wordRow env lexiconName [] length word).backHooks.count c = 1) := by
  have hh := hookLetters_eq (env.isAcceptable lexiconName) word
  have hf : (wordRow env lexiconName [] length word).frontHooks =
      lowerLetters.filter (fun c => env.isAcceptable lexiconName (c.toUpper :: word)) := by
    simp only [wordRow, hh, ne_eq, not_true_eq_false, if_false]
    exact toLower_filter_letters (fun l => env.isAcceptable lexiconName (l :: word))
  have hb : (wordRow env lexiconName [] length word).backHooks =
      lowerLetters.filter (fun c => env.isAcceptable lexiconName (word ++ [c.toUpper])) := by
    simp only [wordRow, hh, ne_eq, not_true_eq_false, if_false]
    exact toLower_filter_letters (fun l => env.isAcceptable lexiconName (word ++ [l]))
  have hsorted : lowerLetters.Pairwise (fun a b => a < b) := by decide
  have hnodup : lowerLetters.Nodup := by decide
  refine ⟨hf, hb, ?_, ?_, ?_, ?_⟩
  · rw [hf]; exact hsorted.filter _
  · rw [hb]; exact hsorted.filter _
  · intro c hc hacc
    rw [hf]
    exact List.count_eq_one_of_mem (hnodup.filter _) (List.mem_filter.2 ⟨hc, hacc⟩)
  · intro c hc hacc
    rw [hb]
    exact List.count_eq_one_of_mem (hnodup.filter _) (List.mem_filter.2 ⟨hc, hacc⟩)

theorem anagramsValue_set (k : QString) (v : Int) (m : List (QString × Int)) (k' : QString) :
    anagramsValue (anagramsSet k v m) k' = if k' = k then v else anagramsValue m k' := by
  induction m with
  | nil =>
    by_cases h : k' = k
    · simp [anagramsSet, anagramsValue, List.find?, h]
    · have : (k == k') = false := by simpa using fun e => h e.symm
      simp [anagramsSet, anagramsValue, List.find?, h, this]
  | cons e m ih =>
    obtain ⟨k1, v1⟩ := e
    simp only [anagramsSet]
    by_cases h1 : k1 = k
    · subst h1
      by_cases h : k' = k1
      · subst h
        simp [anagramsValue, List.find?]
      · have : (k1 == k') = false := by simpa using fun e => h e.symm
        simp [anagramsValue, List.find?, h, this]
    · simp only [h1, if_false]
      by_cases h2 : k1 = k'
      · subst h2
        simp [anagramsValue, List.find?, h1]
      · have : (k1 == k') = false := by simpa using h2
        have hrec : anagramsValue ((k1, v1) :: anagramsSet k v m) k' =
            anagramsValue (anagramsSet k v m) k' := by
          simp [anagramsValue, List.find?, this]
        have hrec2 : anagramsValue ((k1, v1) :: m) k' = anagramsValue m k' := by
          simp [anagramsValue, List.find?, this]
        rw [hrec, hrec2, ih]

theorem anagramsValue_of_not_contains (m : List (QString × Int)) (k : QString)
    (h : anagramsContains m k = false) : anagramsValue m k = 0 := by
  induction m with
  | nil => simp [anagramsValue]
  | cons e m ih =>
    simp only [anagramsContains, List.any_cons, Bool.or_eq_false_iff] at h
    have h2 : anagramsValue m k = 0 := ih (by simpa [anagramsContains] using h.2)
    have : anagramsValue (e :: m) k = anagramsValue m k := by
      simp [anagramsValue, List.find?, h.1]
    rw [this, h2]

theorem anagramsValue_countAnagram (m : List (QString × Int)) (a k : QString) :
    anagramsValue (countAnagram m a) k = anagramsValue m k + if k = a then 1 else 0 := by
  unfold countAnagram
  by_cases hc : anagramsContains m a = true
  · simp only [hc, if_true, anagramsValue_set]
    by_cases hk : k = a
    · simp [hk]
    · simp [hk]
  · have hc' : anagramsContains m a = false := by simpa using hc
    simp only [hc', Bool.false_eq_true, if_false, anagramsValue_set]
    by_cases hk : k = a
    · simp [hk, anagramsValue_of_not_contains m a hc']
    · simp [hk]

theorem InsertState.check_not_cancelled (s : InsertState) :
    (InsertState.check false s).numAnagramsMap = s.numAnagramsMap ∧
    (InsertState.check false s).writes = s.writes ∧
    (InsertState.check false s).returned = s.returned ∧
    (InsertState.check false s).stepNum = s.stepNum + 1 := by
  unfold InsertState.check
  simp only [Bool.false_eq_true, if_false]
  split_ifs <;> simp

theorem insertWordRow_fold (env : Collaborators) (lexiconName : QString)
    (lexStyles : List LexiconStyle) (length : Nat) (words : List QString) :
    ∀ s : InsertState, s.returned = false →
      let t := words.foldl (insertWordRow false env lexiconName lexStyles length) s
      t.returned = false ∧
      t.stepNum = s.stepNum + words.length ∧
      t.writes = s.writes ++
        words.map (fun w => Statement.insertWord (wordRow env lexiconName lexStyles length w)) ∧
      ∀ k, anagramsValue t.numAnagramsMap k =
        anagramsValue s.numAnagramsMap k + (words.countP (fun w => env.getAlphagram w = k) : Nat) := by
  induction words with
  | nil => intro s hs; simp [hs]
  | cons w words ih =>
    intro s hs
    simp only [List.foldl_cons]
    obtain ⟨c1, c2, c3, c4⟩ := InsertState.check_not_cancelled
      { s with
        numAnagramsMap := countAnagram s.numAnagramsMap (env.getAlphagram w)
        writes := s.writes ++
          [Statement.insertWord (wordRow env lexiconName lexStyles length w)] }
    have hstep : insertWordRow false env lexiconName lexStyles length s w =
        InsertState.check false
          { s with
            numAnagramsMap := countAnagram s.numAnagramsMap (env.getAlphagram w)
            writes := s.writes ++
              [Statement.insertWord (wordRow env lexiconName lexStyles length w)] } := by
      simp [insertWordRow, hs]
    rw [hstep]
    obtain ⟨h1, h2, h3, h4⟩ := ih _ (c3.trans hs)
    refine ⟨h1, ?_, ?_, ?_⟩
    · rw [h2, c4]; simp only [List.length_cons]; push_cast; ring
    · rw [h3, c2]; simp
    · intro k
      rw [h4 k, c1, anagramsValue_countAnagram, List.countP_cons]
      by_cases hk : env.getAlphagram w = k
      · simp [hk]; ring
      · have hk' : ¬ k = env.getAlphagram w := fun e => hk e.symm
        simp [hk, hk']

theorem insertProbabilityRows_fold (env : Collaborators) (length : Nat)
    (words : List QString) :
    ∀ s : InsertState, s.returned = false →
      let t := words.foldl (insertProbabilityRows false env length) s
      t.returned = false ∧
      t.stepNum = s.stepNum + words.length ∧
      t.numAnagramsMap = s.numAnagramsMap ∧
      t.writes = s.writes ++ words.flatMap (fun w =>
        [Statement.insertProbability w length 0 (env.getNumCombinations w 0),
         Statement.insertProbability w length 1 (env.getNumCombinations w 1),
         Statement.insertProbability w length 2 (env.getNumCombinations w 2)]) := by
  induction words with
  | nil => intro s hs; simp [hs]
  | cons w words ih =>
    intro s hs
    simp only [List.foldl_cons]
    obtain ⟨c1, c2, c3, c4⟩ := InsertState.check_not_cancelled
      { s with
        writes := s.writes ++
          [Statement.insertProbability w length 0 (env.getNumCombinations w 0),
           Statement.insertProbability w length 1 (env.getNumCombinations w 1),
           Statement.insertProbability w length 2 (env.getNumCombinations w 2)] }
    have hstep : insertProbabilityRows false env length s w =
        InsertState.check false
          { s with
            writes := s.writes ++
              [Statement.insertProbability w length 0 (env.getNumCombinations w 0),
               Statement.insertProbability w length 1 (env.getNumCombinations w 1),
               Statement.insertProbability w length 2 (env.getNumCombinations w 2)] } := by
      simp [insertProbabilityRows, hs]
    rw [hstep]
    obtain ⟨h1, h2, h3, h4⟩ := ih _ (c3.trans hs)
    refine ⟨h1, ?_, ?_, ?_⟩
    · rw [h2, c4]; simp only [List.length_cons]; push_cast; ring
    · rw [h3, c1]
    · rw [h4, c2]; simp [List.flatMap_cons]

theorem updateAnagramCount_fold (env : Collaborators) (words : List QString) :
    ∀ s : InsertState, s.returned = false →
      let t := words.foldl (updateAnagramCount false env) s
      t.returned = false ∧
      t.stepNum = s.stepNum + words.length ∧
      t.numAnagramsMap = s.numAnagramsMap ∧
      t.writes = s.writes ++ words.map (fun w =>
        Statement.updateNumAnagrams (anagramsValue s.numAnagramsMap (env.getAlphagram w)) w) := by
  induction words with
  | nil => intro s hs; simp [hs]
  | cons w words ih =>
    intro s hs
    simp only [List.foldl_cons]
    obtain ⟨c1, c2, c3, c4⟩ := InsertState.check_not_cancelled
      { s with
        writes := s.writes ++
          [Statement.updateNumAnagrams
            (anagramsValue s.numAnagramsMap (env.getAlphagram w)) w] }
    have hstep : updateAnagramCount false env s w =
        InsertState.check false
          { s with
            writes := s.writes ++
              [Statement.updateNumAnagrams
                (anagramsValue s.numAnagramsMap (env.getAlphagram w)) w] } := by
      simp [updateAnagramCount, hs]
    rw [hstep]
    obtain ⟨h1, h2, h3, h4⟩ := ih _ (c3.trans hs)
    refine ⟨h1, ?_, ?_, ?_⟩
    · rw [h2, c4]; simp only [List.length_cons]; push_cast; ring
    · rw [h3, c1]
    · rw [h4, c2, c1]; simp

theorem insertWordsLength_spec (env : Collaborators) (lexiconName : QString)
    (lexStyles : List LexiconStyle) (length : Nat) (s : InsertState) (hs : s.returned = false) :
    (insertWordsLength false env lexiconName lexStyles s length).returned = false ∧
    (insertWordsLength false env lexiconName lexStyles s length).stepNum =
      s.stepNum + 3 * (env.wordGraphSearch lexiconName length).length ∧
    (∀ k, anagramsValue
        (insertWordsLength false env lexiconName lexStyles s length).numAnagramsMap k =
      anagramsValue s.numAnagramsMap k +
        ((env.wordGraphSearch lexiconName length).countP
          (fun w => env.getAlphagram w = k) : Nat)) ∧
    (insertWordsLength false env lexiconName lexStyles s length).writes =
      s.writes ++
      (env.wordGraphSearch lexiconName length).map
        (fun w => Statement.insertWord (wordRow env lexiconName lexStyles length w)) ++
      (env.wordGraphSearch lexiconName length).flatMap (fun w =>
        [Statement.insertProbability w length 0 (env.getNumCombinations w 0),
         Statement.insertProbability w length 1 (env.getNumCombinations w 1),
         Statement.insertProbability w length 2 (env.getNumCombinations w 2)]) ++
      (env.wordGraphSearch lexiconName length).map (fun w =>
        Statement.updateNumAnagrams
          (anagramsValue s.numAnagramsMap (env.getAlphagram w) +
            ((env.wordGraphSearch lexiconName length).countP
              (fun w' => env.getAlphagram w' = env.getAlphagram w) : Nat)) w) := by
  unfold insertWordsLength
  simp only []
  obtain ⟨a1, a2, a3, a4⟩ := insertWordRow_fold env lexiconName lexStyles length
    (env.wordGraphSearch lexiconName length) s hs
  obtain ⟨b1, b2, b3, b4⟩ := insertProbabilityRows_fold env length
    (env.wordGraphSearch lexiconName length) _ a1
  obtain ⟨c1, c2, c3, c4⟩ := updateAnagramCount_fold env
    (env.wordGraphSearch lexiconName length) _ b1
  refine ⟨c1, ?_, ?_, ?_⟩
  · rw [c2, b2, a2]; ring
  · intro k
    rw [c3, b3, a4 k]
  · rw [c4, b4, a3, b3]
    congr 1
    apply List.map_congr_left
    intro w _
    rw [a4]

theorem insertWords_range (env : Collaborators) (lexiconName : QString) (stepNum : Int)
    (hlen : ∀ l, ∀ w ∈ env.wordGraphSearch lexiconName l, w.length = l)
    (halpha : ∀ w, (env.getAlphagram w).length = w.length) (n : Nat) :
    let t := (List.range n).foldl
      (fun s i =>
        insertWordsLength false env lexiconName (applicableStyles env lexiconName) s (i + 1))
      ⟨[], stepNum, [], [], false⟩
    t.returned = false ∧
    t.stepNum = stepNum + 3 * (searchedWords env lexiconName n).length ∧
    (∀ k, anagramsValue t.numAnagramsMap k =
      ((searchedWords env lexiconName n).countP (fun w => env.getAlphagram w = k) : Nat)) ∧
    (∀ v w, Statement.updateNumAnagrams v w ∈ t.writes ↔
      ∃ i, i < n ∧ w ∈ env.wordGraphSearch lexiconName (i + 1) ∧
        v = ((env.wordGraphSearch lexiconName (i + 1)).countP
          (fun w' => env.getAlphagram w' = env.getAlphagram w) : Nat)) := by
  induction n with
  | zero => simp [searchedWords, anagramsValue]
  | succ n ih =>
    simp only [List.range_succ, List.foldl_append, List.foldl_cons, List.foldl_nil]
    obtain ⟨h1, h2, h3, h4⟩ := ih
    obtain ⟨s1, s2, s3, s4⟩ := insertWordsLength_spec env lexiconName
      (applicableStyles env lexiconName) (n + 1) _ h1
    have hsw : searchedWords env lexiconName (n + 1) =
        searchedWords env lexiconName n ++ env.wordGraphSearch lexiconName (n + 1) := by
      simp [searchedWords, List.range_succ, List.flatMap_append]
    have hzero : ∀ w ∈ env.wordGraphSearch lexiconName (n + 1),
        (searchedWords env lexiconName n).countP
          (fun w' => env.getAlphagram w' = env.getAlphagram w) = 0 := by
      intro w hw
      rw [List.countP_eq_zero]
      intro w' hw' he
      simp only [searchedWords, List.mem_flatMap, List.mem_range] at hw'
      obtain ⟨i, hi, hwi⟩ := hw'
      have l1 := hlen _ _ hwi
      have l2 := hlen _ _ hw
      have := congrArg List.length (of_decide_eq_true he)
      rw [halpha, halpha, l1, l2] at this
      omega
    refine ⟨s1, ?_, ?_, ?_⟩
    · rw [s2, h2, hsw, List.length_append]; push_cast; ring
    · intro k
      rw [s3 k, h3 k, hsw, List.countP_append]; push_cast; ring
    · intro v w
      rw [s4]
      simp only [List.mem_append, List.mem_map, List.mem_flatMap, List.mem_cons,
        List.mem_singleton, List.not_mem_nil, or_false, Statement.updateNumAnagrams.injEq,
        reduceCtorEq, and_false, exists_false, false_or, or_self, h4 v w]
      constructor
      · rintro (⟨i, hi, hw, hv⟩ | ⟨w', hw', hv, rfl⟩)
        · exact ⟨i, by omega, hw, hv⟩
        · refine ⟨n, by omega, hw', ?_⟩
          rw [← hv, h3, hzero w' hw']
          simp
      · rintro ⟨i, hi, hw, hv⟩
        by_cases hin : i < n
        · exact Or.inl ⟨i, hin, hw, hv⟩
        · have : i = n := by omega
          subst this
          refine Or.inr ⟨w, hw, ?_, rfl⟩
          rw [hv, h3, hzero w hw]
          simp

/-- C13: in a run of insertWords that is not cancelled, when every word found
by the search for a length has that length and the alphagram of a word has
the length of the word, the num_anagrams written for a word is the number of
words of the same length with the same alphagram, and only such values are
written; hence all words that share an alphagram receive the same value,
although numAnagramsMap is never cleared between the lengths. -/
theorem insertWords_num_anagrams (env : Collaborators) (lexiconName : QString)
    (stepNum : Int)
    (hlen : ∀ l, ∀ w ∈ env.wordGraphSearch lexiconName l, w.length = l)
    (halpha : ∀ w, (env.getAlphagram w).length = w.length) :
    (∀ l, 1 ≤ l → l ≤ MAX_WORD_LEN → ∀ w ∈ env.wordGraphSearch lexiconName l,
      Statement.updateNumAnagrams
        ((env.wordGraphSearch lexiconName l).countP
          (fun w' => env.getAlphagram w' = env.getAlphagram w) : Nat) w ∈
        (insertWords false env lexiconName stepNum).writes) ∧
    (∀ v w, Statement.updateNumAnagrams v w ∈
        (insertWords false env lexiconName stepNum).writes →
      ∃ l, 1 ≤ l ∧ l ≤ MAX_WORD_LEN ∧ w ∈ env.wordGraphSearch lexiconName l ∧
        v = ((env.wordGraphSearch lexiconName l).countP
          (fun w' => env.getAlphagram w' = env.getAlphagram w) : Nat)) ∧
    (∀ v1 w1 v2 w2,
      Statement.updateNumAnagrams v1 w1 ∈ (insertWords false env lexiconName stepNum).writes →
      Statement.updateNumAnagrams v2 w2 ∈ (insertWords false env lexiconName stepNum).writes →
      env.getAlphagram w1 = env.getAlphagram w2 → v1 = v2) := by
  obtain ⟨_, _, _, h4⟩ := insertWords_range env lexiconName stepNum hlen halpha MAX_WORD_LEN
  have hmem : ∀ v w, Statement.updateNumAnagrams v w ∈
      (insertWords false env lexiconName stepNum).writes ↔
      ∃ i, i < MAX_WORD_LEN ∧ w ∈ env.wordGraphSearch lexiconName (i + 1) ∧
        v = ((env.wordGraphSearch lexiconName (i + 1)).countP
          (fun w' => env.getAlphagram w' = env.getAlphagram w) : Nat) := h4
  refine ⟨?_, ?_, ?_⟩
  · intro l h1 h2 w hw
    rw [hmem]
    refine ⟨l - 1, by omega, ?_, ?_⟩
    · rw [Nat.sub_add_cancel h1]; exact hw
    · rw [Nat.sub_add_cancel h1]
  · intro v w h
    obtain ⟨i, hi, hw, hv⟩ := (hmem v w).1 h
    exact ⟨i + 1, by omega, by omega, hw, hv⟩
  · intro v1 w1 v2 w2 h1 h2 he
    obtain ⟨i, _, hw1, hv1⟩ := (hmem v1 w1).1 h1
    obtain ⟨j, _, hw2, hv2⟩ := (hmem v2 w2).1 h2
    have hij : i = j := by
      have l1 := hlen _ _ hw1
      have l2 := hlen _ _ hw2
      have := congrArg List.length he
      rw [halpha, halpha, l1, l2] at this
      omega
    subst hij
    rw [hv1, hv2, he]

theorem getAlphagram_length (w : QString) : (getAlphagram w).length = w.length := by
  unfold getAlphagram
  exact List.length_insertionSort _ _

/-- C13 on the small lexicon: EAT, ATE and TEA all receive 3. -/
theorem insertWords_num_anagrams_witness :
    (∀ l, ∀ w ∈ sampleEnv.wordGraphSearch [] l, w.length = l) ∧
    (∀ w, (sampleEnv.getAlphagram w).length = w.length) ∧
    Statement.updateNumAnagrams 3 "EAT".toList ∈ (insertWords false sampleEnv [] 0).writes ∧
    Statement.updateNumAnagrams 3 "ATE".toList ∈ (insertWords false sampleEnv [] 0).writes ∧
    Statement.updateNumAnagrams 3 "TEA".toList ∈ (insertWords false sampleEnv [] 0).writes ∧
    ∀ v w, Statement.updateNumAnagrams v w ∈ (insertWords false sampleEnv [] 0).writes →
      ∃ l, 1 ≤ l ∧ l ≤ MAX_WORD_LEN ∧ w ∈ sampleEnv.wordGraphSearch [] l ∧
        v = ((sampleEnv.wordGraphSearch [] l).countP
          (fun w' => sampleEnv.getAlphagram w' = sampleEnv.getAlphagram w) : Nat) :=
  ⟨fun l w hw => by simpa [sampleEnv] using (List.mem_filter.1 hw).2,
    getAlphagram_length,
    by decide, by decide, by decide,
    (insertWords_num_anagrams sampleEnv [] 0
      (fun l w hw => by simpa [sampleEnv] using (List.mem_filter.1 hw).2)
      getAlphagram_length).2.1⟩

/-- C15 on the word AT of the small lexicon: the front hooks are "be" (BAT,
EAT), the back hook is "e" (ATE). -/
theorem insertWords_hooks_without_styles_witness :
    (wordRow sampleEnv [] [] 2 "AT".toList).frontHooks = "be".toList ∧
    (wordRow sampleEnv [] [] 2 "AT".toList).backHooks = ['e'] ∧
    'b' ∈ lowerLetters ∧ sampleEnv.isAcceptable [] ('b'.toUpper :: "AT".toList) = true ∧
    (wordRow sampleEnv [] [] 2 "AT".toList).frontHooks.count 'b' = 1 :=
  ⟨by decide, by decide, by decide, by decide,
    (insertWords_hooks_without_styles sampleEnv [] 2 "AT".toList).2.2.2.2.1 'b' (by decide)
      (by decide)⟩

/-! ## updateDefinitions: line parsing -/

theorem splitChar_append_sep (sep : Char) (a b : QString) (ha : sep ∉ a) (cur : QString) :
    splitChar sep (a ++ sep :: b) cur = (cur ++ a) :: splitChar sep b [] := by
  induction a generalizing cur with
  | nil => simp [splitChar]
  | cons c a ih =>
    have hc : c ≠ sep := fun h => ha (by simp [h])
    have ha2 : sep ∉ a := fun h => ha (by simp [h])
    simp [splitChar, hc, ih ha2]

theorem splitChar_no_sep (sep : Char) (a : QString) (ha : sep ∉ a) (cur : QString) :
    splitChar sep a cur = [cur ++ a] := by
  induction a generalizing cur with
  | nil => simp [splitChar]
  | cons c a ih =>
    have hc : c ≠ sep := fun h => ha (by simp [h])
    have ha2 : sep ∉ a := fun h => ha (by simp [h])
    simp [splitChar, hc, ih ha2]

theorem splitChar_ne_nil (sep : Char) (t cur : QString) : splitChar sep t cur ≠ [] := by
  induction t generalizing cur with
  | nil => simp [splitChar]
  | cons c t ih =>
    unfold splitChar
    split_ifs
    · simp
    · exact ih _

theorem intercalate_splitChar (sep : Char) (t cur : QString) :
    [sep].intercalate (splitChar sep t cur) = cur ++ t := by
  induction t generalizing cur with
  | nil => simp [splitChar, List.intercalate]
  | cons c t ih =>
    unfold splitChar
    split_ifs with h
    · obtain ⟨x, xs, hx⟩ := List.exists_cons_of_ne_nil (splitChar_ne_nil sep t [])
      have h2 := ih []
      rw [hx] at h2
      rw [hx, intercalate_cons_cons, h2, h]
      simp
    · rw [ih]
      simp

theorem qsection_first (first rest : QString) (h : ' ' ∉ first) :
    qsection (first ++ ' ' :: rest) ' ' 0 0 = first := by
  unfold qsection
  rw [splitChar_append_sep _ _ _ h]
  simp [List.intercalate]

theorem qsection_rest (first rest : QString) (h : ' ' ∉ first) :
    qsection (first ++ ' ' :: rest) ' ' 1 (-1) = rest := by
  unfold qsection
  rw [splitChar_append_sep _ _ _ h]
  have h1 : ((1 : Int)).toNat = 1 := rfl
  have h2 : ((-1 : Int) + ((([] : QString) ++ first) :: splitChar ' ' rest []).length - 1 + 1).toNat
      = (splitChar ' ' rest []).length := by
    simp
  simp only [show ¬ ((1 : Int) < 0) by decide, show ((-1 : Int) < 0) by decide, if_true,
    if_false, h1, h2, List.drop_succ_cons, List.drop_zero, List.take_length]
  rw [intercalate_splitChar]
  simp

theorem qsection_single (line : QString) (h : ' ' ∉ line) :
    qsection line ' ' 0 0 = line ∧ qsection line ' ' 1 (-1) = [] := by
  unfold qsection
  rw [splitChar_no_sep _ _ h]
  constructor
  · simp [List.intercalate]
  · simp [List.intercalate]

theorem PhaseState.check_writes (cancelled : Bool) (s : PhaseState) :
    (PhaseState.check cancelled s).writes = s.writes := by
  unfold PhaseState.check
  split_ifs <;> rfl

theorem PhaseState.check_continues (cancelled : Bool) (s : PhaseState)
    (h : (PhaseState.check cancelled s).returned = false) :
    (PhaseState.check cancelled s).stepNum = s.stepNum + 1 := by
  unfold PhaseState.check at h ⊢
  split_ifs at h ⊢ <;> simp_all

theorem PhaseState.phase_check_not_cancelled (s : PhaseState) :
    (PhaseState.check false s).stepNum = s.stepNum + 1 ∧
    (PhaseState.check false s).returned = s.returned ∧
    (PhaseState.check false s).writes = s.writes := by
  unfold PhaseState.check
  simp only [Bool.false_eq_true, if_false]
  split_ifs <;> simp

theorem updateDefinitionsLine_not_cancelled (s : PhaseState) (buffer : QString)
    (hs : s.returned = false) :
    (updateDefinitionsLine false s buffer).stepNum = s.stepNum + 1 ∧
    (updateDefinitionsLine false s buffer).returned = false := by
  unfold updateDefinitionsLine
  simp only [hs, Bool.false_eq_true, if_false]
  split_ifs
  · have h := PhaseState.phase_check_not_cancelled s
    exact ⟨h.1, h.2.1.trans hs⟩
  · have h := PhaseState.phase_check_not_cancelled
      { s with writes := s.writes ++ [Statement.updateDefinition
        (qsection (simplified buffer) ' ' 1 (-1)) (toUpper (qsection (simplified buffer) ' ' 0 0))] }
    exact ⟨by simpa [hs] using h.1, by simpa [hs] using h.2.1⟩

theorem updateDefinitions_fold_stepNum (lines : List QString) (s : PhaseState)
    (hs : s.returned = false) :
    (lines.foldl (updateDefinitionsLine false) s).stepNum = s.stepNum + lines.length ∧
    (lines.foldl (updateDefinitionsLine false) s).returned = false := by
  induction lines generalizing s with
  | nil => simp [hs]
  | cons l lines ih =>
    have h := updateDefinitionsLine_not_cancelled s l hs
    have h2 := ih (updateDefinitionsLine false s l) h.2
    simp only [List.foldl_cons, List.length_cons]
    refine ⟨?_, h2.2⟩
    rw [h2.1, h.1]
    push_cast
    ring

/-- C16: updateDefinitions line parsing, for one line read while the loop is
running. A line whose simplified form is empty or starts with # executes no
update. Every other line executes exactly one update: when the simplified line
is `first ++ " " ++ rest` with no space in `first`, the update sets the
definition `rest` for the word `toUpper first`; when the simplified line has no
space, it sets the empty definition for the upper-cased line. If the function
does not return at this line, stepNum grows by exactly one, whether the line is
skipped or not; and a run that is not cancelled leaves stepNum increased by the
number of lines read. -/
theorem updateDefinitions_line_parsing (cancelled : Bool) (s : PhaseState) (buffer : QString)
    (hs : s.returned = false)
    (hcont : (updateDefinitionsLine cancelled s buffer).returned = false) :
    ((simplified buffer = [] ∨ (simplified buffer).head? = some '#') →
      (updateDefinitionsLine cancelled s buffer).writes = s.writes) ∧
    (¬ (simplified buffer = [] ∨ (simplified buffer).head? = some '#') →
      (∀ first rest, simplified buffer = first ++ ' ' :: rest → ' ' ∉ first →
        (updateDefinitionsLine cancelled s buffer).writes =
          s.writes ++ [Statement.updateDefinition rest (toUpper first)]) ∧
      (' ' ∉ simplified buffer →
        (updateDefinitionsLine cancelled s buffer).writes =
          s.writes ++ [Statement.updateDefinition [] (toUpper (simplified buffer))])) ∧
    (updateDefinitionsLine cancelled s buffer).stepNum = s.stepNum + 1 ∧
    (∀ lines stepNum,
      (updateDefinitions false (some lines) stepNum).stepNum = stepNum + lines.length ∧
      (updateDefinitions false (some lines) stepNum).returned = false) := by
  have hlen : (simplified buffer).length = 0 ↔ simplified buffer = [] := List.length_eq_zero
  refine ⟨?_, ?_, ?_, ?_⟩
  · intro h
    unfold updateDefinitionsLine
    simp only [hs, Bool.false_eq_true, if_false, hlen, h, if_true]
    exact PhaseState.check_writes _ _
  · intro h
    have hw : (updateDefinitionsLine cancelled s buffer).writes =
        s.writes ++ [Statement.updateDefinition (qsection (simplified buffer) ' ' 1 (-1))
          (toUpper (qsection (simplified buffer) ' ' 0 0))] := by
      unfold updateDefinitionsLine
      simp only [hs, Bool.false_eq_true, if_false, hlen, h]
      exact PhaseState.check_writes _ _
    refine ⟨?_, ?_⟩
    · intro first rest hline hfirst
      rw [hw, hline, qsection_first _ _ hfirst, qsection_rest _ _ hfirst]
    · intro hno
      rw [hw, (qsection_single _ hno).1, (qsection_single _ hno).2]
  · unfold updateDefinitionsLine at hcont ⊢
    simp only [hs, Bool.false_eq_true, if_false] at hcont ⊢
    split_ifs at hcont ⊢
    · exact PhaseState.check_continues _ _ hcont
    · exact PhaseState.check_continues _ _ hcont
  · intro lines stepNum
    exact updateDefinitions_fold_stepNum lines ⟨stepNum, [], [], false⟩ rfl

/-- Witness for C16: the line "run   to move  fast [v]" read at step 7 sets the
definition "to move fast [v]" of the word RUN and moves stepNum to 8. -/
theorem updateDefinitions_line_parsing_witness :
    (updateDefinitionsLine false ⟨7, [], [], false⟩ " run   to move  fast [v]\n".toList).returned
      = false ∧
    (updateDefinitionsLine false ⟨7, [], [], false⟩ " run   to move  fast [v]\n".toList).writes =
      [Statement.updateDefinition "to move fast [v]".toList "RUN".toList] ∧
    (updateDefinitionsLine false ⟨7, [], [], false⟩ " run   to move  fast [v]\n".toList).stepNum
      = 8 := by
  have h := updateDefinitions_line_parsing false ⟨7, [], [], false⟩
    " run   to move  fast [v]\n".toList rfl (by decide)
  exact ⟨by decide, (h.2.1 (by decide)).1 "run".toList "to move fast [v]".toList
    (by decide) (by decide), h.2.2.1⟩

/-! ## Cancellation and the transactions -/

theorem Store.run_exec_open (committed pending writes : List Statement) :
    Store.run ⟨committed, some pending⟩ (writes.map DbEvent.exec) =
      ⟨committed, some (pending ++ writes)⟩ := by
  induction writes generalizing pending with
  | nil => simp [Store.run]
  | cons w writes ih =>
    have h := ih (pending ++ [w])
    simp only [Store.run, List.map_cons, List.foldl_cons, Store.apply] at h ⊢
    rw [h]
    simp

theorem Store.run_transaction (store : Store) (hopen : store.openTransaction = none)
    (writes : List Statement) :
    Store.run store (DbEvent.beginTransaction :: writes.map DbEvent.exec ++
      [DbEvent.endTransaction]) = ⟨store.committed ++ writes, none⟩ := by
  have h := Store.run_exec_open store.committed [] writes
  simp only [Store.run] at h
  simp only [Store.run, List.foldl_cons, List.foldl_append, List.foldl_nil, Store.apply, hopen, h]
  simp

/-- C17, counterexample: cancelled from its start, insertWords on the sample
lexicon inserts the word AT, reads the flag and returns early; the row of AT
is in the committed store afterwards. -/
theorem cancelled_insertWords_is_committed :
    (insertWordsPhase true sampleEnv [] 0).returned = true ∧
    (insertWordsPhase true sampleEnv [] 0).events =
      [DbEvent.beginTransaction,
       DbEvent.exec (Statement.insertWord (wordRow sampleEnv [] [] 2 "AT".toList)),
       DbEvent.endTransaction] ∧
    Store.run ⟨[], none⟩ (insertWordsPhase true sampleEnv [] 0).events =
      ⟨[Statement.insertWord (wordRow sampleEnv [] [] 2 "AT".toList)], none⟩ := by
  decide

/-- C17, amended: every phase that has opened a transaction ends it with
END TRANSACTION, also when it reads the cancelled flag and returns early. From
a store with no open transaction, the store after insertWords,
updateProbabilityOrder, updateDefinitions or the transaction of
updateDefinitionLinks has no open transaction and its committed state holds
every statement the phase has executed, whether the phase returned early or
not. The function updateDefinitionLinks that finds the flag set after
getDefinitions returns before it opens a transaction and sends nothing. -/
theorem cancel_branch_commits (store : Store) (hopen : store.openTransaction = none)
    (cancelled : Bool) (env : Collaborators) (lexiconName : QString) (stepNum : Int)
    (select : Nat → List ProbRow) (definitionFile : Option (List QString))
    (definitions : QMap) (fuel : Nat) (selectWords : List (QString × QString)) :
    Store.run store (insertWordsPhase cancelled env lexiconName stepNum).events =
      ⟨store.committed ++ (insertWords cancelled env lexiconName stepNum).writes, none⟩ ∧
    Store.run store
        (updateProbabilityOrderPhase cancelled env.getAlphagram select stepNum).events =
      ⟨store.committed ++
        (updateProbabilityOrder cancelled env.getAlphagram select stepNum).updates.map
          Statement.updateProbability, none⟩ ∧
    Store.run store (updateDefinitionsPhase cancelled definitionFile stepNum).events =
      ⟨store.committed ++ (updateDefinitions cancelled definitionFile stepNum).writes, none⟩ ∧
    (∀ s, updateDefinitionLinksLoop cancelled definitions fuel definitions
        ⟨stepNum, [], [], false⟩ = some s →
      ∃ r, updateDefinitionLinksTransaction cancelled definitions fuel stepNum = some r ∧
        r.returned = s.returned ∧
        Store.run store r.events = ⟨store.committed ++ s.writes, none⟩) ∧
    (∃ r, updateDefinitionLinks true selectWords fuel stepNum = some r ∧ r.events = [] ∧
      Store.run store r.events = store) := by
  refine ⟨?_, ?_, ?_, ?_, ?_⟩
  · simp only [insertWordsPhase, ite_self]
    exact Store.run_transaction store hopen _
  · simp only [updateProbabilityOrderPhase, ite_self]
    have h := Store.run_transaction store hopen
      ((updateProbabilityOrder cancelled env.getAlphagram select stepNum).updates.map
        Statement.updateProbability)
    rw [List.map_map] at h
    exact h
  · simp only [updateDefinitionsPhase, ite_self]
    exact Store.run_transaction store hopen _
  · intro s hs
    have hr : updateDefinitionLinksTransaction cancelled definitions fuel stepNum =
        some ⟨s.stepNum, DbEvent.beginTransaction :: s.writes.map DbEvent.exec ++
          [DbEvent.endTransaction], s.progress, s.returned⟩ := by
      simp only [updateDefinitionLinksTransaction, hs, ite_self]
    exact ⟨_, hr, rfl, Store.run_transaction store hopen _⟩
  · have hr : updateDefinitionLinks true selectWords fuel stepNum =
        some ⟨(getDefinitions true selectWords stepNum []).stepNum, [],
          (getDefinitions true selectWords stepNum []).progress, true⟩ := by
      simp only [updateDefinitionLinks, if_true]
    exact ⟨_, hr, rfl, rfl⟩

/-- Witness for C17: the cancelled run of insertWords and of updateDefinitions
on the sample lexicon, from the empty store. -/
theorem cancel_branch_commits_witness :
    (⟨[], none⟩ : Store).openTransaction = none ∧
    (insertWords true sampleEnv [] 0).returned = true ∧
    Store.run ⟨[], none⟩ (insertWordsPhase true sampleEnv [] 0).events =
      ⟨[] ++ (insertWords true sampleEnv [] 0).writes, none⟩ ∧
    (updateDefinitions true (some sampleDefinitionFile.tail) 0).returned = true ∧
    Store.run ⟨[], none⟩ (updateDefinitionsPhase true (some sampleDefinitionFile.tail) 0).events =
      ⟨[] ++ (updateDefinitions true (some sampleDefinitionFile.tail) 0).writes, none⟩ ∧
    (updateDefinitions true (some sampleDefinitionFile.tail) 0).writes =
      [Statement.updateDefinition "in the position of [prep]".toList "AT".toList] :=
  have h := cancel_branch_commits ⟨[], none⟩ rfl true sampleEnv [] 0 (fun _ => [])
    (some sampleDefinitionFile.tail) [] 0 []
  ⟨rfl, by decide, h.1, by decide, h.2.2.1, by decide⟩

/-! ## Cancellation and the later phases -/

/-- C18, at the failing input: the flag is set from the start, the lexicon is
the sample lexicon and the first line of the definitions file defines AT.
insertWords inserts AT, reads the flag and returns early. runPrivate goes on
with the later phases: updateProbabilityOrder opens and ends a transaction,
and updateDefinitions executes the update of the definition of AT before it
reads the flag. Only updateDefinitionLinks, which reads the flag after
getDefinitions, sends nothing. -/
theorem runPrivate_writes_after_cancel :
    (insertWordsPhase true sampleEnv [] 0).returned = true ∧
    (updateDefinitionsPhase true (some sampleDefinitionFile.tail) 0).events =
      [DbEvent.beginTransaction,
       DbEvent.exec
        (Statement.updateDefinition "in the position of [prep]".toList "AT".toList),
       DbEvent.endTransaction] ∧
    runPrivate true sampleEnv cancelledDatabase [] (some sampleDefinitionFile.tail) 0 =
      some
        { signals := [Signal.steps 100, Signal.progress 1, Signal.steps 41, Signal.progress 0,
            Signal.progress 41]
          events := createTables ++ [DbEvent.exec (Statement.createIndex "word_index")] ++
            [DbEvent.beginTransaction,
             DbEvent.exec (Statement.insertWord (wordRow sampleEnv [] [] 2 "AT".toList)),
             DbEvent.endTransaction] ++
            [DbEvent.beginTransaction, DbEvent.endTransaction] ++
            [DbEvent.beginTransaction,
             DbEvent.exec
              (Statement.updateDefinition "in the position of [prep]".toList "AT".toList),
             DbEvent.endTransaction] } := by
  decide

/-! ## Configuration errors -/

/-- C19, counterexample: with a definitions file that cannot be opened,
runPrivate on the sample lexicon creates the tables, inserts the word and
probability rows and ends with progress(numSteps), exactly as it does with an
empty definitions file. -/
theorem unopenable_definitions_file_is_skipped :
    ∃ r, runPrivate false sampleEnv undefinedDatabase [] none 0 = some r ∧
      runPrivate false sampleEnv undefinedDatabase [] (some []) 0 = some r ∧
      DbEvent.exec (Statement.createTable "words") ∈ r.events ∧
      DbEvent.exec (Statement.insertWord (wordRow sampleEnv [] [] 2 "AT".toList)) ∈ r.events ∧
      DbEvent.exec (Statement.insertProbability "AT".toList 2 0 2) ∈ r.events ∧
      r.signals = [Signal.steps 100, Signal.progress 1, Signal.steps 41, Signal.progress 0,
        Signal.progress 0, Signal.progress 41] :=
  ⟨_, rfl, rfl, by decide, by decide, by decide, by decide⟩
/-- C19, amended: when the destination store cannot be opened, runPrivate
returns at once: it creates no table, inserts no row and emits no signal. When
the definitions file cannot be opened, updateDefinitions only opens and ends
its transaction, and the run is the run with an empty definitions file: in a
store that opens, the tables and indexes are created and insertWords runs, and
the run ends with progress(numSteps). -/
theorem runPrivate_configuration_errors (cancelled : Bool) (env : Collaborators)
    (db : Database) (lexiconName : QString) (definitionFile : Option (List QString))
    (fuel : Nat) :
    (db.opens = false →
      runPrivate cancelled env db lexiconName definitionFile fuel = some ⟨[], []⟩) ∧
    runPrivate cancelled env db lexiconName none fuel =
      runPrivate cancelled env db lexiconName (some []) fuel ∧
    (∀ stepNum, updateDefinitionsPhase cancelled none stepNum =
      ⟨stepNum, [DbEvent.beginTransaction, DbEvent.endTransaction], [], false⟩) ∧
    (db.opens = true → ∀ r, runPrivate cancelled env db lexiconName none fuel = some r →
      (∃ rest, r.events = createTables ++ createIndexes cancelled ++
        (insertWordsPhase cancelled env lexiconName
          ((env.getNumWords lexiconName * 8).tdiv 99)).events ++ rest) ∧
      r.signals.getLast? = some (Signal.progress
        (env.getNumWords lexiconName * 8 + (env.getNumWords lexiconName * 8).tdiv 99 + 1))) := by
  refine ⟨?_, ?_, ?_, ?_⟩
  · intro h
    simp [runPrivate, h]
  · rfl
  · intro stepNum
    rfl
  · intro h r hr
    simp only [runPrivate, h, not_true_eq_false, if_false] at hr
    split at hr
    · exact absurd hr (by simp)
    · rename_i linked hl
      injection hr with hr
      subst hr
      refine ⟨⟨(updateProbabilityOrderPhase cancelled env.getAlphagram db.selectProbability
          (insertWordsPhase cancelled env lexiconName
            ((env.getNumWords lexiconName * 8).tdiv 99)).stepNum).events ++
          (updateDefinitionsPhase cancelled none
            (updateProbabilityOrderPhase cancelled env.getAlphagram db.selectProbability
              (insertWordsPhase cancelled env lexiconName
                ((env.getNumWords lexiconName * 8).tdiv 99)).stepNum).stepNum).events ++
          linked.events, ?_⟩, ?_⟩
      · simp only [List.append_assoc]
      · exact List.getLast?_concat _

/-- Witness for C19: the sample lexicon with a store that cannot be opened. -/
theorem runPrivate_configuration_errors_witness :
    (⟨false, fun _ => [], []⟩ : Database).opens = false ∧
    runPrivate false sampleEnv ⟨false, fun _ => [], []⟩ [] (some sampleDefinitionFile) 0 =
      some ⟨[], []⟩ :=
  ⟨rfl, (runPrivate_configuration_errors false sampleEnv ⟨false, fun _ => [], []⟩ []
    (some sampleDefinitionFile) 0).1 rfl⟩

/-! ## Progress is monotone -/

theorem Bounded.nil (lo hi : Int) : Bounded lo hi [] :=
  ⟨List.Pairwise.nil, fun _ h => absurd h (List.not_mem_nil _)⟩

theorem Bounded.mono {lo hi hi2 : Int} {l : List Int} (h : Bounded lo hi l) (hle : hi ≤ hi2) :
    Bounded lo hi2 l :=
  ⟨h.1, fun p hp => ⟨(h.2 p hp).1, le_trans (h.2 p hp).2 hle⟩⟩

theorem Bounded.snoc {lo hi hi2 v : Int} {l : List Int} (h : Bounded lo hi l)
    (hlo : lo ≤ v) (hv : hi ≤ v) (hv2 : v ≤ hi2) : Bounded lo hi2 (l ++ [v]) := by
  refine ⟨?_, ?_⟩
  · rw [List.pairwise_append]
    refine ⟨h.1, List.pairwise_singleton _ _, ?_⟩
    intro a ha b hb
    rw [List.mem_singleton] at hb
    rw [hb]
    exact le_trans (h.2 a ha).2 hv
  · intro p hp
    rcases List.mem_append.1 hp with hp | hp
    · exact ⟨(h.2 p hp).1, le_trans (h.2 p hp).2 (le_trans hv hv2)⟩
    · rw [List.mem_singleton] at hp
      rw [hp]
      exact ⟨hlo, hv2⟩

theorem Bounded.append {lo mid hi : Int} {l1 l2 : List Int} (h1 : Bounded lo mid l1)
    (h2 : Bounded mid hi l2) (hlo : lo ≤ mid) (hhi : mid ≤ hi) : Bounded lo hi (l1 ++ l2) := by
  refine ⟨?_, ?_⟩
  · rw [List.pairwise_append]
    refine ⟨h1.1, h2.1, ?_⟩
    intro a ha b hb
    exact le_trans (h1.2 a ha).2 (h2.2 b hb).1
  · intro p hp
    rcases List.mem_append.1 hp with hp | hp
    · exact ⟨(h1.2 p hp).1, le_trans (h1.2 p hp).2 hhi⟩
    · exact ⟨le_trans hlo (h2.2 p hp).1, (h2.2 p hp).2⟩

/-- A loop whose body, while the function has not returned, increments stepNum
once and emits at most the value of stepNum before the increment. -/
theorem foldl_counted {σ α : Type} (stepNum : σ → Int) (progress : σ → List Int)
    (returned : σ → Bool) (f : σ → α → σ)
    (hf : ∀ s a, returned s = false → returned (f s a) = false ∧
      stepNum (f s a) = stepNum s + 1 ∧
      (progress (f s a) = progress s ∨ progress (f s a) = progress s ++ [stepNum s]))
    (start : Int) (l : List α) (s : σ) (hr : returned s = false) (hle : start ≤ stepNum s)
    (hb : Bounded start (stepNum s) (progress s)) :
    returned (l.foldl f s) = false ∧ stepNum (l.foldl f s) = stepNum s + l.length ∧
      Bounded start (stepNum (l.foldl f s)) (progress (l.foldl f s)) := by
  induction l generalizing s with
  | nil => simpa using ⟨hr, hb⟩
  | cons a l ih =>
    obtain ⟨h1, h2, h3⟩ := hf s a hr
    have hb2 : Bounded start (stepNum (f s a)) (progress (f s a)) := by
      rcases h3 with h3 | h3
      · rw [h3, h2]
        exact hb.mono (by omega)
      · rw [h3, h2]
        exact hb.snoc hle (le_refl _) (by omega)
    obtain ⟨i1, i2, i3⟩ := ih (f s a) h1 (by omega) hb2
    refine ⟨i1, ?_, i3⟩
    simp only [List.foldl_cons, List.length_cons]
    rw [i2, h2]
    push_cast
    ring

theorem InsertState.check_shape (s : InsertState) :
    (InsertState.check false s).returned = s.returned ∧
    (InsertState.check false s).stepNum = s.stepNum + 1 ∧
    ((InsertState.check false s).progress = s.progress ∨
      (InsertState.check false s).progress = s.progress ++ [s.stepNum]) := by
  unfold InsertState.check
  simp only [Bool.false_eq_true, if_false]
  split_ifs <;> simp

theorem PhaseState.phase_check_shape (s : PhaseState) :
    (PhaseState.check false s).returned = s.returned ∧
    (PhaseState.check false s).stepNum = s.stepNum + 1 ∧
    ((PhaseState.check false s).progress = s.progress ∨
      (PhaseState.check false s).progress = s.progress ++ [s.stepNum]) := by
  unfold PhaseState.check
  simp only [Bool.false_eq_true, if_false]
  split_ifs <;> simp

theorem insertWordRow_shape (env : Collaborators) (lexiconName : QString)
    (lexStyles : List LexiconStyle) (length : Nat) (s : InsertState) (word : QString)
    (hs : s.returned = false) :
    (insertWordRow false env lexiconName lexStyles length s word).returned = false ∧
    (insertWordRow false env lexiconName lexStyles length s word).stepNum = s.stepNum + 1 ∧
    ((insertWordRow false env lexiconName lexStyles length s word).progress = s.progress ∨
      (insertWordRow false env lexiconName lexStyles length s word).progress =
        s.progress ++ [s.stepNum]) := by
  unfold insertWordRow
  rw [if_neg (by simp [hs])]
  have h := InsertState.check_shape
    { s with
      numAnagramsMap := countAnagram s.numAnagramsMap (env.getAlphagram word)
      writes := s.writes ++
        [Statement.insertWord (wordRow env lexiconName lexStyles length word)] }
  exact ⟨h.1.trans hs, h.2.1, h.2.2⟩

theorem insertProbabilityRows_shape (env : Collaborators) (length : Nat) (s : InsertState)
    (word : QString) (hs : s.returned = false) :
    (insertProbabilityRows false env length s word).returned = false ∧
    (insertProbabilityRows false env length s word).stepNum = s.stepNum + 1 ∧
    ((insertProbabilityRows false env length s word).progress = s.progress ∨
      (insertProbabilityRows false env length s word).progress = s.progress ++ [s.stepNum]) := by
  unfold insertProbabilityRows
  rw [if_neg (by simp [hs])]
  have h := InsertState.check_shape
    { s with
      writes := s.writes ++
        [Statement.insertProbability word length 0 (env.getNumCombinations word 0),
         Statement.insertProbability word length 1 (env.getNumCombinations word 1),
         Statement.insertProbability word length 2 (env.getNumCombinations word 2)] }
  exact ⟨h.1.trans hs, h.2.1, h.2.2⟩

theorem updateAnagramCount_shape (env : Collaborators) (s : InsertState) (word : QString)
    (hs : s.returned = false) :
    (updateAnagramCount false env s word).returned = false ∧
    (updateAnagramCount false env s word).stepNum = s.stepNum + 1 ∧
    ((updateAnagramCount false env s word).progress = s.progress ∨
      (updateAnagramCount false env s word).progress = s.progress ++ [s.stepNum]) := by
  unfold updateAnagramCount
  rw [if_neg (by simp [hs])]
  have h := InsertState.check_shape
    { s with
      writes := s.writes ++
        [Statement.updateNumAnagrams
          (anagramsValue s.numAnagramsMap (env.getAlphagram word)) word] }
  exact ⟨h.1.trans hs, h.2.1, h.2.2⟩

theorem insertWordsLength_counted (env : Collaborators) (lexiconName : QString)
    (lexStyles : List LexiconStyle) (length : Nat) (start : Int) (s : InsertState)
    (hr : s.returned = false) (hle : start ≤ s.stepNum)
    (hb : Bounded start s.stepNum s.progress) :
    (insertWordsLength false env lexiconName lexStyles s length).returned = false ∧
    (insertWordsLength false env lexiconName lexStyles s length).stepNum =
      s.stepNum + 3 * (env.wordGraphSearch lexiconName length).length ∧
    Bounded start (insertWordsLength false env lexiconName lexStyles s length).stepNum
      (insertWordsLength false env lexiconName lexStyles s length).progress := by
  unfold insertWordsLength
  obtain ⟨a1, a2, a3⟩ := foldl_counted InsertState.stepNum InsertState.progress
    InsertState.returned (insertWordRow false env lexiconName lexStyles length)
    (fun s a h => insertWordRow_shape env lexiconName lexStyles length s a h)
    start (env.wordGraphSearch lexiconName length) s hr hle hb
  obtain ⟨b1, b2, b3⟩ := foldl_counted InsertState.stepNum InsertState.progress
    InsertState.returned (insertProbabilityRows false env length)
    (fun s a h => insertProbabilityRows_shape env length s a h)
    start (env.wordGraphSearch lexiconName length) _ a1 (by omega) a3
  obtain ⟨c1, c2, c3⟩ := foldl_counted InsertState.stepNum InsertState.progress
    InsertState.returned (updateAnagramCount false env)
    (fun s a h => updateAnagramCount_shape env s a h)
    start (env.wordGraphSearch lexiconName length) _ b1 (by omega) b3
  refine ⟨c1, ?_, c3⟩
  simp only [] at c2 ⊢
  rw [c2, b2, a2]
  ring

theorem insertWords_counted (env : Collaborators) (lexiconName : QString) (stepNum : Int)
    (n : Nat) :
    let t := (List.range n).foldl
      (fun s i =>
        insertWordsLength false env lexiconName (applicableStyles env lexiconName) s (i + 1))
      (⟨[], stepNum, [], [], false⟩ : InsertState)
    t.returned = false ∧
    t.stepNum = stepNum + 3 * (searchedWords env lexiconName n).length ∧
    Bounded stepNum t.stepNum t.progress := by
  induction n with
  | zero => simpa [searchedWords] using Bounded.nil stepNum stepNum
  | succ n ih =>
    simp only [List.range_succ, List.foldl_append, List.foldl_cons, List.foldl_nil]
    obtain ⟨h1, h2, h3⟩ := ih
    obtain ⟨s1, s2, s3⟩ := insertWordsLength_counted env lexiconName
      (applicableStyles env lexiconName) (n + 1) stepNum _ h1 (by omega) h3
    refine ⟨s1, ?_, s3⟩
    rw [s2, h2]
    simp only [searchedWords, List.range_succ, List.flatMap_append, List.flatMap_cons,
      List.flatMap_nil, List.length_append, List.append_nil]
    push_cast
    ring

theorem updateDefinitionsLine_shape (s : PhaseState) (buffer : QString)
    (hs : s.returned = false) :
    (updateDefinitionsLine false s buffer).returned = false ∧
    (updateDefinitionsLine false s buffer).stepNum = s.stepNum + 1 ∧
    ((updateDefinitionsLine false s buffer).progress = s.progress ∨
      (updateDefinitionsLine false s buffer).progress = s.progress ++ [s.stepNum]) := by
  unfold updateDefinitionsLine
  rw [if_neg (by simp [hs])]
  simp only []
  split_ifs
  · have h := PhaseState.phase_check_shape s
    exact ⟨h.1.trans hs, h.2.1, h.2.2⟩
  · have h := PhaseState.phase_check_shape
      { s with writes := s.writes ++ [Statement.updateDefinition
        (qsection (simplified buffer) ' ' 1 (-1)) (toUpper (qsection (simplified buffer) ' ' 0 0))] }
    exact ⟨h.1.trans hs, h.2.1, h.2.2⟩

theorem updateDefinitions_counted (definitionFile : Option (List QString)) (stepNum : Int) :
    (updateDefinitions false definitionFile stepNum).returned = false ∧
    (updateDefinitions false definitionFile stepNum).stepNum =
      stepNum + fileLength definitionFile ∧
    Bounded stepNum (updateDefinitions false definitionFile stepNum).stepNum
      (updateDefinitions false definitionFile stepNum).progress := by
  cases definitionFile with
  | none => simpa [updateDefinitions, fileLength] using Bounded.nil stepNum stepNum
  | some lines =>
    exact foldl_counted PhaseState.stepNum PhaseState.progress PhaseState.returned
      (updateDefinitionsLine false) (fun s a h => updateDefinitionsLine_shape s a h)
      stepNum lines ⟨stepNum, [], [], false⟩ rfl (le_refl _) (Bounded.nil _ _)

theorem updateDefinitionsLine_emits (s : PhaseState) (buffer : QString)
    (hs : s.returned = false) (hk : s.stepNum % PROGRESS_STEP = 0) :
    (updateDefinitionsLine false s buffer).progress = s.progress ++ [s.stepNum] := by
  unfold updateDefinitionsLine
  rw [if_neg (by simp [hs])]
  simp only []
  split_ifs <;> simp [PhaseState.check, hk]

theorem updateDefinitions_progress_grows (lines : List QString) (s : PhaseState)
    (hs : s.returned = false) (p : Int) (hp : p ∈ s.progress) :
    p ∈ (lines.foldl (updateDefinitionsLine false) s).progress := by
  induction lines generalizing s with
  | nil => exact hp
  | cons l lines ih =>
    obtain ⟨h1, _, h3⟩ := updateDefinitionsLine_shape s l hs
    refine ih _ h1 ?_
    rcases h3 with h3 | h3
    · rw [h3]
      exact hp
    · rw [h3]
      exact List.mem_append_left _ hp

/-- In a run of updateDefinitions that is not cancelled, every multiple of
PROGRESS_STEP that stepNum passes is emitted. -/
theorem updateDefinitions_emits (lines : List QString) (s : PhaseState)
    (hs : s.returned = false) (k : Int) (hlo : s.stepNum ≤ k)
    (hhi : k < s.stepNum + lines.length) (hk : k % PROGRESS_STEP = 0) :
    k ∈ (lines.foldl (updateDefinitionsLine false) s).progress := by
  induction lines generalizing s with
  | nil =>
    simp only [List.length_nil, Nat.cast_zero, add_zero] at hhi
    omega
  | cons l lines ih =>
    obtain ⟨h1, h2, _⟩ := updateDefinitionsLine_shape s l hs
    simp only [List.length_cons, Nat.cast_add, Nat.cast_one] at hhi
    simp only [List.foldl_cons]
    by_cases heq : s.stepNum = k
    · apply updateDefinitions_progress_grows _ _ h1
      rw [updateDefinitionsLine_emits s l hs (by rw [heq]; exact hk), heq]
      simp
    · exact ih _ h1 (by omega) (by omega)

theorem qmapInsert_length_le (k v : QString) (m : QMap) :
    (qmapInsert k v m).length ≤ m.length + 1 := by
  induction m with
  | nil => simp [qmapInsert]
  | cons e m ih =>
    obtain ⟨k2, v2⟩ := e
    unfold qmapInsert
    split_ifs
    · simp
    · simpa using ih
    · simp

theorem flushRun_counted (mx nb : Int) (ws : List QString) (start : Int) (s : RankState)
    (hle : start ≤ s.stepNum) (hb : Bounded start s.stepNum s.progress) :
    Bounded start (flushRun false mx nb ws s).stepNum (flushRun false mx nb ws s).progress := by
  induction ws generalizing s with
  | nil => simpa [flushRun] using hb
  | cons w ws ih =>
    simp only [flushRun, Bool.false_eq_true, if_false]
    split_ifs with h
    · apply ih
      · simp only []
        omega
      · exact hb.snoc hle (le_refl _) (by simp)
    · apply ih
      · simp only []
        omega
      · exact hb.mono (by simp)

theorem scanRow_counted (alphagram : QString → QString) (start bound : Int) (s : RankState)
    (row : ProbRow) (hr : s.returned = false) (hle : start ≤ s.stepNum)
    (hb : Bounded start s.stepNum s.progress)
    (hn : s.stepNum + s.equalWordMap.length ≤ bound) :
    (scanRow false alphagram s row).returned = false ∧
    start ≤ (scanRow false alphagram s row).stepNum ∧
    Bounded start (scanRow false alphagram s row).stepNum
      (scanRow false alphagram s row).progress ∧
    (scanRow false alphagram s row).stepNum +
      (scanRow false alphagram s row).equalWordMap.length ≤ bound + 1 := by
  by_cases hnb : row.numBlanks = s.prevNumBlanks
  · by_cases hc : row.combinations ≠ s.prevCombinations ∧ s.equalWordMap ≠ []
    · obtain ⟨_, _, f3, _, _, _, _, f8⟩ := flushRun_not_cancelled
        (s.minProbOrder + s.equalWordMap.length - 1) s.prevNumBlanks
        (s.equalWordMap.map Prod.snd) s
      have fb := flushRun_counted (s.minProbOrder + s.equalWordMap.length - 1) s.prevNumBlanks
        (s.equalWordMap.map Prod.snd) start s hle hb
      rw [List.length_map] at f3
      have f8b := f8.trans hr
      simp only [scanRow, hr, hnb, hc, f8b, Bool.false_eq_true, if_false, ne_eq,
        not_true_eq_false, not_false_eq_true, and_self, if_true]
      refine ⟨trivial, by omega, fb, ?_⟩
      have := qmapInsert_length_le (alphagram row.word ++ row.word) row.word []
      simp only [List.length_nil] at this
      omega
    · simp only [scanRow, hr, hnb, hc, Bool.false_eq_true, if_false, ne_eq,
        not_true_eq_false, not_false_eq_true, if_true]
      refine ⟨trivial, hle, hb, ?_⟩
      have := qmapInsert_length_le (alphagram row.word ++ row.word) row.word s.equalWordMap
      omega
  · simp only [scanRow, hr, hnb, flushNewBlanks_eq, Bool.false_eq_true, if_false, ne_eq,
      not_true_eq_false, not_false_eq_true, if_true, and_false]
    refine ⟨trivial, hle, hb, ?_⟩
    have := qmapInsert_length_le (alphagram row.word ++ row.word) row.word []
    simp only [List.length_nil] at this
    omega

theorem scanRows_counted (alphagram : QString → QString) (start : Int) (rows : List ProbRow)
    (bound : Int) (s : RankState) (hr : s.returned = false) (hle : start ≤ s.stepNum)
    (hb : Bounded start s.stepNum s.progress)
    (hn : s.stepNum + s.equalWordMap.length ≤ bound) :
    (rows.foldl (scanRow false alphagram) s).returned = false ∧
    start ≤ (rows.foldl (scanRow false alphagram) s).stepNum ∧
    Bounded start (rows.foldl (scanRow false alphagram) s).stepNum
      (rows.foldl (scanRow false alphagram) s).progress ∧
    (rows.foldl (scanRow false alphagram) s).stepNum +
      (rows.foldl (scanRow false alphagram) s).equalWordMap.length ≤ bound + rows.length := by
  induction rows generalizing s bound with
  | nil => simpa using ⟨hr, hle, hb, hn⟩
  | cons row rows ih =>
    obtain ⟨h1, h2, h3, h4⟩ := scanRow_counted alphagram start bound s row hr hle hb hn
    obtain ⟨i1, i2, i3, i4⟩ := ih (bound + 1) _ h1 h2 h3 h4
    refine ⟨i1, i2, i3, ?_⟩
    simp only [List.foldl_cons, List.length_cons, Nat.cast_add, Nat.cast_one] at i4 ⊢
    omega

theorem updateProbabilityOrderLength_counted (alphagram : QString → QString)
    (start stepNum : Int) (updates : List ProbUpdate) (progress : List Int)
    (rows : List ProbRow) (hle : start ≤ stepNum) (hb : Bounded start stepNum progress) :
    (updateProbabilityOrderLength false alphagram stepNum updates progress rows).returned
      = false ∧
    start ≤ (updateProbabilityOrderLength false alphagram stepNum updates progress rows).stepNum ∧
    (updateProbabilityOrderLength false alphagram stepNum updates progress rows).stepNum ≤
      stepNum + rows.length ∧
    Bounded start
      (updateProbabilityOrderLength false alphagram stepNum updates progress rows).stepNum
      (updateProbabilityOrderLength false alphagram stepNum updates progress rows).progress := by
  obtain ⟨h1, h2, h3, h4⟩ := scanRows_counted alphagram start rows stepNum
    (RankState.init stepNum updates progress) rfl hle hb (by simp [RankState.init])
  simp only [updateProbabilityOrderLength, h1, Bool.false_eq_true, if_false, flushFinal_eq]
  refine ⟨trivial, h2, ?_, h3⟩
  have := Int.natCast_nonneg
    (rows.foldl (scanRow false alphagram) (RankState.init stepNum updates progress)).equalWordMap.length
  omega

theorem updateProbabilityOrder_counted (alphagram : QString → QString)
    (select : Nat → List ProbRow) (stepNum : Int) (n : Nat) :
    let t := (List.range n).foldl
      (fun s i =>
        if s.returned then s
        else updateProbabilityOrderLength false alphagram s.stepNum s.updates s.progress
          (select (i + 1)))
      (RankState.init stepNum [] [])
    t.returned = false ∧ stepNum ≤ t.stepNum ∧
    t.stepNum ≤ stepNum + (selectedRows select n).length ∧
    Bounded stepNum t.stepNum t.progress := by
  induction n with
  | zero => simpa [selectedRows, RankState.init] using Bounded.nil stepNum stepNum
  | succ n ih =>
    simp only [List.range_succ, List.foldl_append, List.foldl_cons, List.foldl_nil]
    obtain ⟨h1, h2, h3, h4⟩ := ih
    simp only [h1, Bool.false_eq_true, if_false]
    obtain ⟨s1, s2, s3, s4⟩ := updateProbabilityOrderLength_counted alphagram stepNum _
      ((List.range n).foldl
        (fun s i =>
          if s.returned then s
          else updateProbabilityOrderLength false alphagram s.stepNum s.updates s.progress
            (select (i + 1)))
        (RankState.init stepNum [] [])).updates _ (select (n + 1)) h2 h4
    refine ⟨s1, s2, ?_, s4⟩
    simp only [selectedRows, List.range_succ, List.flatMap_append, List.flatMap_cons,
      List.flatMap_nil, List.length_append, List.append_nil, Nat.cast_add] at h3 ⊢
    omega

theorem getDefinitionsRow_counted (start bound : Int) (s : DefsState)
    (row : QString × QString) (hr : s.returned = false) (hle : start ≤ s.stepNum)
    (hb : Bounded start s.stepNum s.progress)
    (hn : s.stepNum + s.definitions.length ≤ bound) :
    (getDefinitionsRow false s row).returned = false ∧
    start ≤ (getDefinitionsRow false s row).stepNum ∧
    Bounded start (getDefinitionsRow false s row).stepNum (getDefinitionsRow false s row).progress ∧
    (getDefinitionsRow false s row).stepNum +
      (getDefinitionsRow false s row).definitions.length ≤ bound + 1 := by
  unfold getDefinitionsRow
  rw [if_neg (by simp [hr])]
  by_cases hm : defRegexMatches row.2 = true
  · simp only [hm, not_true_eq_false, if_false]
    refine ⟨hr, hle, hb, ?_⟩
    have := qmapInsert_length_le row.1 row.2 s.definitions
    omega
  · simp only [hm, not_false_eq_true, if_true, Bool.false_eq_true, if_false]
    split_ifs
    · exact ⟨hr, by simp only []; omega, hb.snoc (by omega) (by omega) (le_refl _),
        by simp only []; omega⟩
    · exact ⟨hr, by simp only []; omega, hb.mono (by simp), by simp only []; omega⟩

theorem getDefinitions_counted (start : Int) (rows : List (QString × QString)) (bound : Int)
    (s : DefsState) (hr : s.returned = false) (hle : start ≤ s.stepNum)
    (hb : Bounded start s.stepNum s.progress)
    (hn : s.stepNum + s.definitions.length ≤ bound) :
    (rows.foldl (getDefinitionsRow false) s).returned = false ∧
    start ≤ (rows.foldl (getDefinitionsRow false) s).stepNum ∧
    Bounded start (rows.foldl (getDefinitionsRow false) s).stepNum
      (rows.foldl (getDefinitionsRow false) s).progress ∧
    (rows.foldl (getDefinitionsRow false) s).stepNum +
      (rows.foldl (getDefinitionsRow false) s).definitions.length ≤ bound + rows.length := by
  induction rows generalizing s bound with
  | nil => simpa using ⟨hr, hle, hb, hn⟩
  | cons row rows ih =>
    obtain ⟨h1, h2, h3, h4⟩ := getDefinitionsRow_counted start bound s row hr hle hb hn
    obtain ⟨i1, i2, i3, i4⟩ := ih (bound + 1) _ h1 h2 h3 h4
    refine ⟨i1, i2, i3, ?_⟩
    simp only [List.foldl_cons, List.length_cons, Nat.cast_add, Nat.cast_one] at i4 ⊢
    omega

theorem getDefinitionsRow_returned (s : DefsState) (row : QString × QString)
    (hr : s.returned = false) : (getDefinitionsRow false s row).returned = false := by
  unfold getDefinitionsRow
  rw [if_neg (by simp [hr])]
  simp only [Bool.false_eq_true, if_false]
  split_ifs <;> exact hr

/-- The definitions map that getDefinitions builds in a run that is not
cancelled does not depend on stepNum. -/
theorem getDefinitions_definitions_eq (rows : List (QString × QString)) (s t : DefsState)
    (hs : s.returned = false) (ht : t.returned = false) (h : s.definitions = t.definitions) :
    (rows.foldl (getDefinitionsRow false) s).definitions =
      (rows.foldl (getDefinitionsRow false) t).definitions := by
  induction rows generalizing s t with
  | nil => exact h
  | cons row rows ih =>
    obtain ⟨word, definition⟩ := row
    simp only [List.foldl_cons]
    apply ih _ _ (getDefinitionsRow_returned s _ hs) (getDefinitionsRow_returned t _ ht)
    rw [getDefinitionsRow_definitions false s word definition hs,
      getDefinitionsRow_definitions false t word definition ht, h]

theorem updateDefinitionLinksEntry_counted (definitions : QMap) (fuel : Nat) (start : Int)
    (s : PhaseState) (entry : QString × QString) (hr : s.returned = false)
    (hle : start ≤ s.stepNum) (hb : Bounded start s.stepNum s.progress)
    (hres : newDefinitionOf definitions fuel entry.2 ≠ none) :
    ∃ t, updateDefinitionLinksEntry false definitions fuel s entry = some t ∧
      t.returned = false ∧ t.stepNum = s.stepNum + 1 ∧ Bounded start t.stepNum t.progress := by
  obtain ⟨newDefinition, hnew⟩ := Option.ne_none_iff_exists'.1 hres
  unfold updateDefinitionLinksEntry
  rw [if_neg (by simp [hr])]
  simp only [hnew, Bool.false_eq_true, if_false]
  by_cases hd : entry.2 = newDefinition
  · simp only [hd, ne_eq, not_true_eq_false, if_false]
    split_ifs
    · exact ⟨_, rfl, hr, rfl, hb.snoc (by omega) (by omega) (le_refl _)⟩
    · exact ⟨_, rfl, hr, rfl, hb.mono (by simp)⟩
  · simp only [hd, ne_eq, not_false_eq_true, if_true]
    split_ifs
    · exact ⟨_, rfl, hr, rfl, hb.snoc (by omega) (by omega) (le_refl _)⟩
    · exact ⟨_, rfl, hr, rfl, hb.mono (by simp)⟩

theorem updateDefinitionLinksLoop_counted (definitions : QMap) (fuel : Nat) (start : Int)
    (entries : List (QString × QString)) (s : PhaseState) (hr : s.returned = false)
    (hle : start ≤ s.stepNum) (hb : Bounded start s.stepNum s.progress)
    (hres : ∀ e ∈ entries, newDefinitionOf definitions fuel e.2 ≠ none) :
    ∃ t, updateDefinitionLinksLoop false definitions fuel entries s = some t ∧
      t.returned = false ∧ t.stepNum = s.stepNum + entries.length ∧
      Bounded start t.stepNum t.progress := by
  induction entries generalizing s with
  | nil => exact ⟨s, rfl, hr, by simp, hb⟩
  | cons e entries ih =>
    obtain ⟨t, h1, h2, h3, h4⟩ := updateDefinitionLinksEntry_counted definitions fuel start s e
      hr hle hb (hres e (List.mem_cons_self _ _))
    obtain ⟨u, i1, i2, i3, i4⟩ := ih t h2 (by omega) h4
      (fun e2 he2 => hres e2 (List.mem_cons_of_mem _ he2))
    refine ⟨u, ?_, i2, ?_, i4⟩
    · simp only [updateDefinitionLinksLoop, h1, i1]
    · rw [i3, h3]
      simp only [List.length_cons, Nat.cast_add, Nat.cast_one]
      ring

theorem updateDefinitionLinks_counted (rows : List (QString × QString)) (fuel : Nat)
    (stepNum : Int)
    (hres : ∀ e ∈ (getDefinitions false rows 0 []).definitions,
      newDefinitionOf (getDefinitions false rows 0 []).definitions fuel e.2 ≠ none) :
    ∃ r, updateDefinitionLinks false rows fuel stepNum = some r ∧ stepNum ≤ r.stepNum ∧
      r.stepNum ≤ stepNum + rows.length ∧ Bounded stepNum r.stepNum r.progress := by
  have hd : (getDefinitions false rows stepNum []).definitions =
      (getDefinitions false rows 0 []).definitions :=
    getDefinitions_definitions_eq rows ⟨[], stepNum, [], false⟩ ⟨[], 0, [], false⟩ rfl rfl rfl
  have g : (getDefinitions false rows stepNum []).returned = false ∧
      stepNum ≤ (getDefinitions false rows stepNum []).stepNum ∧
      Bounded stepNum (getDefinitions false rows stepNum []).stepNum
        (getDefinitions false rows stepNum []).progress ∧
      (getDefinitions false rows stepNum []).stepNum +
        (getDefinitions false rows stepNum []).definitions.length ≤ stepNum + rows.length :=
    getDefinitions_counted stepNum rows stepNum
      ⟨[], stepNum, [], false⟩ rfl (le_refl _) (Bounded.nil _ _) (by simp)
  obtain ⟨_, g2, g3, g4⟩ := g
  rw [← hd] at hres
  obtain ⟨t, l1, l2, l3, l4⟩ := updateDefinitionLinksLoop_counted
    (getDefinitions false rows stepNum []).definitions fuel
    (getDefinitions false rows stepNum []).stepNum
    (getDefinitions false rows stepNum []).definitions
    ⟨(getDefinitions false rows stepNum []).stepNum, [], [], false⟩ rfl (le_refl _)
    (Bounded.nil _ _) hres
  simp only [] at l3
  refine ⟨⟨t.stepNum, DbEvent.beginTransaction :: t.writes.map DbEvent.exec ++
    [DbEvent.endTransaction], (getDefinitions false rows stepNum []).progress ++ t.progress,
    t.returned⟩, ?_, ?_, ?_, ?_⟩
  · simp only [updateDefinitionLinks, Bool.false_eq_true, if_false,
      updateDefinitionLinksTransaction, l1, ite_self]
  · simp only []
    omega
  · simp only []
    omega
  · show Bounded stepNum t.stepNum
      ((getDefinitions false rows stepNum []).progress ++ t.progress)
    exact Bounded.append g3 l4 g2 (by omega)

theorem progressAfterSteps_progress (values acc : List Int) :
    (values.map Signal.progress).foldl
      (fun values signal =>
        match signal with
        | Signal.steps _ => []
        | Signal.progress stepNum => values ++ [stepNum])
      acc = acc ++ values := by
  induction values generalizing acc with
  | nil => simp
  | cons v values ih => simp [ih]

theorem progressAfterSteps_run (numSteps stepNum : Int) (values : List Int) :
    progressAfterSteps ([Signal.steps 100, Signal.progress 1, Signal.steps numSteps,
      Signal.progress stepNum] ++ values.map Signal.progress ++ [Signal.progress numSteps]) =
      stepNum :: values ++ [numSteps] := by
  unfold progressAfterSteps
  rw [List.foldl_append, List.foldl_append]
  simp only [List.foldl_cons, List.foldl_nil, List.nil_append]
  rw [progressAfterSteps_progress]
  simp

theorem runPrivate_of_links (cancelled : Bool) (env : Collaborators) (db : Database)
    (lexiconName : QString) (definitionFile : Option (List QString)) (fuel : Nat)
    (linked : PhaseResult) (hopen : db.opens = true)
    (hl : updateDefinitionLinks cancelled db.selectWords fuel
      (updateDefinitionsPhase cancelled definitionFile
        (updateProbabilityOrderPhase cancelled env.getAlphagram db.selectProbability
          (insertWordsPhase cancelled env lexiconName
            ((env.getNumWords lexiconName * 8).tdiv 99)).stepNum).stepNum).stepNum =
      some linked) :
    runPrivate cancelled env db lexiconName definitionFile fuel =
      some
        { signals :=
            [Signal.steps 100, Signal.progress 1,
              Signal.steps (env.getNumWords lexiconName * 8 +
                (env.getNumWords lexiconName * 8).tdiv 99 + 1),
              Signal.progress ((env.getNumWords lexiconName * 8).tdiv 99)] ++
            ((insertWordsPhase cancelled env lexiconName
                ((env.getNumWords lexiconName * 8).tdiv 99)).progress ++
              (updateProbabilityOrderPhase cancelled env.getAlphagram db.selectProbability
                (insertWordsPhase cancelled env lexiconName
                  ((env.getNumWords lexiconName * 8).tdiv 99)).stepNum).progress ++
              (updateDefinitionsPhase cancelled definitionFile
                (updateProbabilityOrderPhase cancelled env.getAlphagram db.selectProbability
                  (insertWordsPhase cancelled env lexiconName
                    ((env.getNumWords lexiconName * 8).tdiv 99)).stepNum).stepNum).progress ++
              linked.progress).map Signal.progress ++
            [Signal.progress (env.getNumWords lexiconName * 8 +
              (env.getNumWords lexiconName * 8).tdiv 99 + 1)]
          events := createTables ++ createIndexes cancelled ++
            (insertWordsPhase cancelled env lexiconName
              ((env.getNumWords lexiconName * 8).tdiv 99)).events ++
            (updateProbabilityOrderPhase cancelled env.getAlphagram db.selectProbability
              (insertWordsPhase cancelled env lexiconName
                ((env.getNumWords lexiconName * 8).tdiv 99)).stepNum).events ++
            (updateDefinitionsPhase cancelled definitionFile
              (updateProbabilityOrderPhase cancelled env.getAlphagram db.selectProbability
                (insertWordsPhase cancelled env lexiconName
                  ((env.getNumWords lexiconName * 8).tdiv 99)).stepNum).stepNum).events ++
            linked.events } := by
  simp only [runPrivate, hopen, not_true_eq_false, if_false, hl]

theorem paddedDefinitionFile_length : paddedDefinitionFile.length = 986 := by
  rw [paddedDefinitionFile, List.length_append, List.length_replicate]
  rfl

theorem padded_emits : (1000 : Int) ∈
    (updateDefinitionsPhase false (some paddedDefinitionFile) 15).progress := by
  have hlen : ((⟨15, [], [], false⟩ : PhaseState).stepNum : Int) ≤ 1000 := by decide
  have hhi : (1000 : Int) < (⟨15, [], [], false⟩ : PhaseState).stepNum +
      paddedDefinitionFile.length := by
    rw [paddedDefinitionFile_length]
    decide
  have h := updateDefinitions_emits paddedDefinitionFile ⟨15, [], [], false⟩ rfl 1000
    hlen hhi (by decide)
  simp only [updateDefinitionsPhase, updateDefinitions]
  exact h

/-- The phases of a run that is not cancelled, one after the other: stepNum
never decreases, grows by three for every word found, by at most one for every
probability row, by one for every line of the definitions file and by at most
one for every row of the words table, and the progress values of the phases,
in the order of the run, are non-decreasing between the first and the last
stepNum. -/
theorem phases_counted (env : Collaborators) (db : Database) (lexiconName : QString)
    (definitionFile : Option (List QString)) (fuel : Nat) (stepNum : Int)
    (hfuel : ∀ e ∈ (getDefinitions false db.selectWords 0 []).definitions,
      newDefinitionOf (getDefinitions false db.selectWords 0 []).definitions fuel e.2 ≠ none) :
    ∃ linked, updateDefinitionLinks false db.selectWords fuel
      (updateDefinitionsPhase false definitionFile
        (updateProbabilityOrderPhase false env.getAlphagram db.selectProbability
          (insertWordsPhase false env lexiconName stepNum).stepNum).stepNum).stepNum =
        some linked ∧
      stepNum ≤ linked.stepNum ∧
      linked.stepNum ≤ stepNum + 3 * ((searchedWords env lexiconName MAX_WORD_LEN).length : Int) +
        (selectedRows db.selectProbability MAX_WORD_LEN).length +
        fileLength definitionFile + db.selectWords.length ∧
      Bounded stepNum linked.stepNum
        ((insertWordsPhase false env lexiconName stepNum).progress ++
          (updateProbabilityOrderPhase false env.getAlphagram db.selectProbability
            (insertWordsPhase false env lexiconName stepNum).stepNum).progress ++
          (updateDefinitionsPhase false definitionFile
            (updateProbabilityOrderPhase false env.getAlphagram db.selectProbability
              (insertWordsPhase false env lexiconName stepNum).stepNum).stepNum).progress ++
          linked.progress) := by
  have hi : (insertWords false env lexiconName stepNum).returned = false ∧
      (insertWords false env lexiconName stepNum).stepNum =
        stepNum + 3 * (searchedWords env lexiconName MAX_WORD_LEN).length ∧
      Bounded stepNum (insertWords false env lexiconName stepNum).stepNum
        (insertWords false env lexiconName stepNum).progress :=
    insertWords_counted env lexiconName stepNum MAX_WORD_LEN
  obtain ⟨_, i2, i3⟩ := hi
  have hp : ∀ n : Int,
      (updateProbabilityOrder false env.getAlphagram db.selectProbability n).returned = false ∧
      n ≤ (updateProbabilityOrder false env.getAlphagram db.selectProbability n).stepNum ∧
      (updateProbabilityOrder false env.getAlphagram db.selectProbability n).stepNum ≤
        n + (selectedRows db.selectProbability MAX_WORD_LEN).length ∧
      Bounded n (updateProbabilityOrder false env.getAlphagram db.selectProbability n).stepNum
        (updateProbabilityOrder false env.getAlphagram db.selectProbability n).progress :=
    fun n => updateProbabilityOrder_counted env.getAlphagram db.selectProbability n MAX_WORD_LEN
  obtain ⟨_, p2, p3, p4⟩ := hp (insertWords false env lexiconName stepNum).stepNum
  obtain ⟨_, d2, d3⟩ := updateDefinitions_counted definitionFile
    (updateProbabilityOrder false env.getAlphagram db.selectProbability
      (insertWords false env lexiconName stepNum).stepNum).stepNum
  obtain ⟨linked, l1, l2, l3, l4⟩ := updateDefinitionLinks_counted db.selectWords fuel
    (updateDefinitions false definitionFile
      (updateProbabilityOrder false env.getAlphagram db.selectProbability
        (insertWords false env lexiconName stepNum).stepNum).stepNum).stepNum hfuel
  refine ⟨linked, l1, ?_, ?_, ?_⟩
  · omega
  · omega
  · simp only [insertWordsPhase, updateProbabilityOrderPhase, updateDefinitionsPhase]
    have hdle : (updateProbabilityOrder false env.getAlphagram db.selectProbability
        (insertWords false env lexiconName stepNum).stepNum).stepNum ≤
        (updateDefinitions false definitionFile
          (updateProbabilityOrder false env.getAlphagram db.selectProbability
            (insertWords false env lexiconName stepNum).stepNum).stepNum).stepNum := by
      omega
    exact Bounded.append
      (Bounded.append (Bounded.append i3 p4 (by omega) p2) d3 (by omega) hdle)
      l4 (by omega) l2

/-- C20, counterexample: on the sample lexicon of 5 words, with a definitions
file of 986 lines, the total announced is 41, updateDefinitions emits
progress(1000), and the run ends with progress(41). -/
theorem progress_exceeds_numSteps :
    ∃ r, runPrivate false sampleEnv sampleDatabase [] (some paddedDefinitionFile) 10 = some r ∧
      Signal.steps 41 ∈ r.signals ∧ 1000 ∈ progressAfterSteps r.signals ∧
      (progressAfterSteps r.signals).getLast? = some 41 := by
  obtain ⟨linked, hl, -, -, -⟩ := phases_counted sampleEnv sampleDatabase []
    (some paddedDefinitionFile) 10 ((sampleEnv.getNumWords [] * 8).tdiv 99) (by decide)
  refine ⟨_, runPrivate_of_links false sampleEnv sampleDatabase [] (some paddedDefinitionFile)
    10 linked rfl hl, ?_, ?_, ?_⟩
  · exact List.mem_append_left _ (List.mem_append_left _ (by decide))
  · rw [progressAfterSteps_run]
    apply List.mem_append_left
    apply List.mem_cons_of_mem
    apply List.mem_append_left
    apply List.mem_append_right
    have h15 : (updateProbabilityOrderPhase false sampleEnv.getAlphagram
        sampleDatabase.selectProbability
        (insertWordsPhase false sampleEnv [] ((sampleEnv.getNumWords [] * 8).tdiv 99)).stepNum).stepNum
        = 15 := by
      decide
    rw [h15]
    exact padded_emits
  · rw [progressAfterSteps_run]
    exact List.getLast?_concat _

/-- C20, amended: in a run of runPrivate that is not cancelled, on a store that
opens and with definitions whose links resolve, if the steps taken (three for
every word found, one for every probability row, one for every line of the
definitions file and one for every row of the words table) are at most
8 * numWords + 1, then the run ends, and the values emitted through progress
after the total numSteps = 8 * numWords + (8 * numWords) / 99 + 1 has been
announced are non-decreasing, never exceed numSteps, and end with numSteps. -/
theorem runPrivate_progress_monotone (env : Collaborators) (db : Database)
    (lexiconName : QString) (definitionFile : Option (List QString)) (fuel : Nat)
    (hopen : db.opens = true)
    (hfuel : ∀ e ∈ (getDefinitions false db.selectWords 0 []).definitions,
      newDefinitionOf (getDefinitions false db.selectWords 0 []).definitions fuel e.2 ≠ none)
    (hsteps : 3 * ((searchedWords env lexiconName MAX_WORD_LEN).length : Int) +
      (selectedRows db.selectProbability MAX_WORD_LEN).length +
      fileLength definitionFile + db.selectWords.length ≤ 8 * env.getNumWords lexiconName + 1) :
    ∃ r, runPrivate false env db lexiconName definitionFile fuel = some r ∧
      Signal.steps (env.getNumWords lexiconName * 8 +
        (env.getNumWords lexiconName * 8).tdiv 99 + 1) ∈ r.signals ∧
      (progressAfterSteps r.signals).Pairwise (fun a b => a ≤ b) ∧
      (∀ p ∈ progressAfterSteps r.signals,
        p ≤ env.getNumWords lexiconName * 8 + (env.getNumWords lexiconName * 8).tdiv 99 + 1) ∧
      (progressAfterSteps r.signals).getLast? =
        some (env.getNumWords lexiconName * 8 +
          (env.getNumWords lexiconName * 8).tdiv 99 + 1) := by
  obtain ⟨linked, hl, h1, h2, h3⟩ := phases_counted env db lexiconName definitionFile fuel
    ((env.getNumWords lexiconName * 8).tdiv 99) hfuel
  have hb : Bounded ((env.getNumWords lexiconName * 8).tdiv 99)
      (env.getNumWords lexiconName * 8 + (env.getNumWords lexiconName * 8).tdiv 99 + 1)
      (([] ++ [(env.getNumWords lexiconName * 8).tdiv 99]) ++ _ ++
        [env.getNumWords lexiconName * 8 + (env.getNumWords lexiconName * 8).tdiv 99 + 1]) :=
    Bounded.snoc
      (Bounded.append
        (Bounded.snoc (Bounded.nil _ _) (le_refl _) (le_refl _) (le_refl _)) h3 (le_refl _) h1)
      (by omega) (by omega) (le_refl _)
  refine ⟨_, runPrivate_of_links false env db lexiconName definitionFile fuel linked hopen hl,
    ?_, ?_, ?_, ?_⟩
  · exact List.mem_append_left _ (List.mem_append_left _ (by simp))
  · rw [progressAfterSteps_run]
    exact hb.1
  · rw [progressAfterSteps_run]
    exact fun p hp => (hb.2 p hp).2
  · rw [progressAfterSteps_run]
    exact List.getLast?_concat _

/-- Witness for C20: the sample lexicon of 5 words with its definitions file of
6 lines; the 41 steps of the run are within the total. -/
theorem runPrivate_progress_monotone_witness :
    sampleDatabase.opens = true ∧
    3 * ((searchedWords sampleEnv [] MAX_WORD_LEN).length : Int) +
      (selectedRows sampleDatabase.selectProbability MAX_WORD_LEN).length +
      fileLength (some sampleDefinitionFile) + sampleDatabase.selectWords.length ≤
      8 * sampleEnv.getNumWords [] + 1 ∧
    ∃ r, runPrivate false sampleEnv sampleDatabase [] (some sampleDefinitionFile) 10 = some r ∧
      Signal.steps 41 ∈ r.signals ∧
      (progressAfterSteps r.signals).Pairwise (fun a b => a ≤ b) ∧
      (∀ p ∈ progressAfterSteps r.signals, p ≤ 41) ∧
      (progressAfterSteps r.signals).getLast? = some 41 :=
  ⟨rfl, by decide,
    runPrivate_progress_monotone sampleEnv sampleDatabase [] (some sampleDefinitionFile) 10
      rfl (by decide) (by decide)⟩

/-! ## updateProbabilityOrder: ranks inside the bands -/

theorem countP_lt_of_mem {α : Type} (p q : α → Bool) (l : List α)
    (hpq : ∀ x ∈ l, p x = true → q x = true) (r : α) (hr : r ∈ l) (hq : q r = true)
    (hp : p r = false) : l.countP p < l.countP q := by
  induction l with
  | nil => exact absurd hr (List.not_mem_nil _)
  | cons x l ih =>
    have hmono : l.countP p ≤ l.countP q :=
      List.countP_mono_left (fun y hy h => hpq y (List.mem_cons_of_mem _ hy) h)
    rcases List.mem_cons.1 hr with h | h
    · subst h
      simp only [List.countP_cons, hq, hp, if_true, Bool.false_eq_true, if_false]
      omega
    · have ih2 := ih (fun y hy h2 => hpq y (List.mem_cons_of_mem _ hy) h2) h
      simp only [List.countP_cons]
      by_cases hx : p x = true
      · simp only [hx, hpq x (List.mem_cons_self _ _) hx, if_true]
        omega
      · simp only [hx, Bool.false_eq_true, if_false]
        split_ifs <;> omega

theorem rankInRun_lt (alphagram : QString → QString) (rows : List ProbRow) (r : ProbRow)
    (hr : r ∈ rows) :
    rankInRun alphagram rows r < rows.countP (inRun r.numBlanks r.combinations) := by
  apply countP_lt_of_mem _ _ rows _ r hr (inRun_self r)
  · simp [keyBelow, inRun]
  · intro x _ hx
    simp only [keyBelow, Bool.and_eq_true] at hx
    exact hx.1

theorem expectedUpdate_order (alphagram : QString → QString) (rows : List ProbRow)
    (r : ProbRow) (hr : r ∈ rows) :
    (expectedUpdate alphagram rows r).minProbOrder ≤ (expectedUpdate alphagram rows r).probOrder ∧
    (expectedUpdate alphagram rows r).probOrder ≤ (expectedUpdate alphagram rows r).maxProbOrder := by
  have h1 := rankInRun_lt alphagram rows r hr
  have h2 := countP_fromRun rows r.numBlanks r.combinations
  have h3 := (band_bounds rows r hr).1
  unfold expectedUpdate
  split_ifs
  · simp only [lastRunUpdate, countGreater, countGreaterEq] at *
    omega
  · simp only [rankedUpdate, countGreater, countGreaterEq] at *
    omega

/-- C21: for the rows of one length as the SELECT returns them, every row
receives an UPDATE, and every UPDATE written for a row carries values with
1 <= min_probability_order <= probability_order <= max_probability_order <= n,
n being the number of rows of the class of the row; two rows of a class with
equal combinations receive the same min_probability_order and the same
max_probability_order. -/
theorem updateProbabilityOrder_order_within_band (alphagram : QString → QString) (len : Nat)
    (rows : List ProbRow) (stepNum : Int) (progress : List Int)
    (hsorted : rows.Pairwise selectOrder)
    (hlen : ∀ r ∈ rows, r.word.length = len)
    (hnodup : (rows.map (fun r => (r.word, r.numBlanks))).Nodup) :
    (∀ r ∈ rows,
      (∃ u ∈ (updateProbabilityOrderLength false alphagram stepNum [] progress rows).updates,
        u.word = r.word ∧ u.numBlanks = r.numBlanks) ∧
      ∀ u ∈ (updateProbabilityOrderLength false alphagram stepNum [] progress rows).updates,
        u.word = r.word → u.numBlanks = r.numBlanks →
          1 ≤ u.minProbOrder ∧ u.minProbOrder ≤ u.probOrder ∧ u.probOrder ≤ u.maxProbOrder ∧
          u.maxProbOrder ≤ (classSize rows r.numBlanks : Int)) ∧
    (∀ r1 ∈ rows, ∀ r2 ∈ rows, r1.numBlanks = r2.numBlanks →
      r1.combinations = r2.combinations →
      ∀ u ∈ (updateProbabilityOrderLength false alphagram stepNum [] progress rows).updates,
      ∀ v ∈ (updateProbabilityOrderLength false alphagram stepNum [] progress rows).updates,
        u.word = r1.word → u.numBlanks = r1.numBlanks →
        v.word = r2.word → v.numBlanks = r2.numBlanks →
          u.minProbOrder = v.minProbOrder ∧ u.maxProbOrder = v.maxProbOrder) := by
  obtain ⟨hs, hc⟩ := updates_characterized alphagram len rows stepNum progress hsorted hlen hnodup
  have hrow : ∀ r ∈ rows,
      ∀ u ∈ (updateProbabilityOrderLength false alphagram stepNum [] progress rows).updates,
        u.word = r.word → u.numBlanks = r.numBlanks → u = expectedUpdate alphagram rows r := by
    intro r hr u hu hw hb
    obtain ⟨r2, hr2, rfl⟩ := hs u hu
    obtain ⟨_, _, b3, b4⟩ := expectedUpdate_fields alphagram rows r2
    rw [row_of_key rows hnodup r r2 hr hr2 (b3 ▸ hw) (b4 ▸ hb)]
  refine ⟨?_, ?_⟩
  · intro r hr
    obtain ⟨a1, a2, a3, a4⟩ := expectedUpdate_fields alphagram rows r
    refine ⟨⟨_, hc r hr, a3, a4⟩, ?_⟩
    intro u hu hw hb
    rw [hrow r hr u hu hw hb]
    obtain ⟨o1, o2⟩ := expectedUpdate_order alphagram rows r hr
    obtain ⟨b1, b2⟩ := band_bounds rows r hr
    refine ⟨?_, o1, o2, ?_⟩
    · rw [a1]
      omega
    · rw [a2]
      exact_mod_cast b2
  · intro r1 hr1 r2 hr2 hnb hcomb u hu v hv hw1 hb1 hw2 hb2
    rw [hrow r1 hr1 u hu hw1 hb1, hrow r2 hr2 v hv hw2 hb2]
    obtain ⟨a1, a2, _, _⟩ := expectedUpdate_fields alphagram rows r1
    obtain ⟨b1, b2, _, _⟩ := expectedUpdate_fields alphagram rows r2
    rw [a1, a2, b1, b2]
    simp only [countGreater, countGreaterEq, hnb, hcomb]
    exact ⟨trivial, trivial⟩

/-- C21 on the rows of AB, BA and CD: the row of BA with two blanks is in the
last run and receives probability order 2 in the band from 2 to 3. -/
theorem updateProbabilityOrder_order_within_band_witness :
    sampleRows.Pairwise selectOrder ∧
    (∀ r ∈ sampleRows, r.word.length = 2) ∧
    (sampleRows.map (fun r => (r.word, r.numBlanks))).Nodup ∧
    (⟨['B', 'A'], 2, 8⟩ : ProbRow) ∈ sampleRows ∧
    (⟨2, 2, 3, ['B', 'A'], 2⟩ : ProbUpdate) ∈
      (updateProbabilityOrderLength false getAlphagram 0 [] [] sampleRows).updates ∧
    classSize sampleRows 2 = 3 ∧
    ∀ u ∈ (updateProbabilityOrderLength false getAlphagram 0 [] [] sampleRows).updates,
      u.word = ['B', 'A'] → u.numBlanks = 2 →
        1 ≤ u.minProbOrder ∧ u.minProbOrder ≤ u.probOrder ∧ u.probOrder ≤ u.maxProbOrder ∧
        u.maxProbOrder ≤ (classSize sampleRows 2 : Int) :=
  ⟨by decide, by decide, by decide, by decide, by decide, by decide,
    ((updateProbabilityOrder_order_within_band getAlphagram 2 sampleRows 0 [] (by decide)
      (by decide) (by decide)).1 ⟨['B', 'A'], 2, 8⟩ (by decide)).2⟩

/-! ## replaceDefinitionLinks: follow mode and depth -/

theorem findToken_of_follow (text : QString) (useFollow : Bool) (m : TokenMatch)
    (h : followIndexIn text = some m) : findToken text useFollow = some (m, true, true) := by
  simp [findToken, h]

theorem findToken_follow_mode (text : QString) (useFollow : Bool) (m : TokenMatch)
    (follow isF : Bool) (hmode : useFollow = true ∨ followIndexIn text ≠ none)
    (h : findToken text useFollow = some (m, follow, isF)) : follow = true := by
  rcases findToken_some text useFollow m follow isF h with ⟨_, h2, _⟩ | ⟨_, h2, h3, _⟩
  · exact h2
  · rcases hmode with hu | hf
    · rw [h2, hu]
    · exact absurd h3 hf

theorem replaceDefinitionLinksCalls_step (definitions : QMap) (fuel : Nat) (text : QString)
    (d : Int) (u : Bool) (m : TokenMatch) (follow isF : Bool)
    (hf : findToken text u = some (m, follow, isF)) :
    replaceDefinitionLinksCalls definitions (fuel + 1) text d u =
      (text, d, u) ::
        if d ≠ 0 then
          replaceDefinitionLinksCalls definitions fuel
            (replaceAt text m (linkReplacement definitions m d follow isF))
            (if follow then d - 1 else d) follow
        else [] := by
  rw [replaceDefinitionLinksCalls]
  simp only [hf]

theorem replaceDefinitionLinksCalls_follow (definitions : QMap) (fuel : Nat) :
    ∀ (text : QString) (d : Int),
      ∀ c ∈ replaceDefinitionLinksCalls definitions fuel text d true, c.2.2 = true := by
  induction fuel with
  | zero =>
    intro text d c hc
    simp [replaceDefinitionLinksCalls] at hc
  | succ fuel ih =>
    intro text d c hc
    cases hf : findToken text true with
    | none =>
      simp only [replaceDefinitionLinksCalls, hf, List.mem_singleton] at hc
      rw [hc]
    | some t =>
      obtain ⟨m, follow, isF⟩ := t
      have hfollow := findToken_follow_mode text true m follow isF (Or.inl rfl) hf
      subst hfollow
      rw [replaceDefinitionLinksCalls_step definitions fuel text d true m true isF hf] at hc
      rcases List.mem_cons.1 hc with h | h
      · rw [h]
      · by_cases hd : d = 0
        · simp [hd] at h
        · simp only [ne_eq, hd, not_false_eq_true, if_true] at h
          exact ih _ _ c h

/-- C22: follow mode takes precedence and is sticky. When the text contains a
follow token, the token that the call substitutes is the first follow token,
whatever replace tokens the text contains, and the choice sets useFollow. The
recursive call is made on the modified text with the value of useFollow after
the choice. In a call with useFollow set, or on a text that contains a follow
token, every nested call of the chain runs with useFollow = true. -/
theorem replaceDefinitionLinks_follow_sticky (definitions : QMap) (fuel : Nat)
    (definition : QString) (maxDepth : Int) (useFollow : Bool) :
    (∀ m, followIndexIn definition = some m →
      findToken definition useFollow = some (m, true, true)) ∧
    (∀ m follow isF, findToken definition useFollow = some (m, follow, isF) →
      follow = (isF || useFollow) ∧
      (maxDepth ≠ 0 →
        replaceDefinitionLinks definitions (fuel + 1) definition maxDepth useFollow =
          replaceDefinitionLinks definitions fuel
            (replaceAt definition m (linkReplacement definitions m maxDepth follow isF))
            (if follow then maxDepth - 1 else maxDepth) follow ∧
        replaceDefinitionLinksCalls definitions (fuel + 1) definition maxDepth useFollow =
          (definition, maxDepth, useFollow) ::
            replaceDefinitionLinksCalls definitions fuel
              (replaceAt definition m (linkReplacement definitions m maxDepth follow isF))
              (if follow then maxDepth - 1 else maxDepth) follow)) ∧
    ((useFollow = true ∨ followIndexIn definition ≠ none) →
      ∀ c ∈ (replaceDefinitionLinksCalls definitions fuel definition maxDepth useFollow).tail,
        c.2.2 = true) := by
  refine ⟨fun m h => findToken_of_follow definition useFollow m h, ?_, ?_⟩
  · intro m follow isF hf
    refine ⟨(findToken_split definition useFollow m follow isF hf).2.1, ?_⟩
    intro hd
    rw [replaceDefinitionLinks_step definitions fuel definition maxDepth useFollow m follow isF hf,
      replaceDefinitionLinksCalls_step definitions fuel definition maxDepth useFollow m follow
        isF hf]
    simp only [hd, ne_eq, not_false_eq_true, if_true, and_self]
  · intro hmode c hc
    cases fuel with
    | zero => simp [replaceDefinitionLinksCalls] at hc
    | succ fuel =>
      cases hf : findToken definition useFollow with
      | none => simp [replaceDefinitionLinksCalls, hf] at hc
      | some t =>
        obtain ⟨m, follow, isF⟩ := t
        have hfollow := findToken_follow_mode definition useFollow m follow isF hmode hf
        subst hfollow
        rw [replaceDefinitionLinksCalls_step definitions fuel definition maxDepth useFollow m
          true isF hf, List.tail_cons] at hc
        by_cases hd : maxDepth = 0
        · simp [hd] at hc
        · simp only [ne_eq, hd, not_false_eq_true, if_true] at hc
          exact replaceDefinitionLinksCalls_follow definitions fuel _ _ c hc

/-- C22 on the text "<jog=v> or {run=v}": the follow token of RUN is
substituted first although the replace token of JOG comes earlier, and the
three later calls of the chain run with useFollow = true. -/
theorem replaceDefinitionLinks_follow_sticky_witness :
    (followIndexIn "<jog=v> or \x7brun=v\x7d".toList = some ⟨11, "run".toList, ['v'], 7⟩ ∧
      replaceIndexIn "<jog=v> or \x7brun=v\x7d".toList = some ⟨0, "jog".toList, ['v'], 7⟩) ∧
    findToken "<jog=v> or \x7brun=v\x7d".toList false =
      some (⟨11, "run".toList, ['v'], 7⟩, true, true) ∧
    replaceDefinitionLinksCalls followDefinitions 10 "<jog=v> or \x7brun=v\x7d".toList 3 false =
      [("<jog=v> or \x7brun=v\x7d".toList, 3, false),
       ("<jog=v> or run (to move fast)".toList, 2, true),
       ("\x7brun=v\x7d slowly or run (to move fast)".toList, 1, true),
       ("run (to move fast) slowly or run (to move fast)".toList, 0, true)] ∧
    ∀ c ∈ (replaceDefinitionLinksCalls followDefinitions 10
        "<jog=v> or \x7brun=v\x7d".toList 3 false).tail, c.2.2 = true :=
  ⟨by decide,
    (replaceDefinitionLinks_follow_sticky followDefinitions 10
      "<jog=v> or \x7brun=v\x7d".toList 3 false).1 _ (by decide),
    by decide,
    (replaceDefinitionLinks_follow_sticky followDefinitions 10
      "<jog=v> or \x7brun=v\x7d".toList 3 false).2.2 (Or.inr (by decide))⟩

theorem substitutionCount_le (calls : List (QString × Int × Bool)) :
    substitutionCount calls ≤ calls.length :=
  List.countP_le_length _

theorem follow_mode_terminates (definitions : QMap) :
    ∀ (n : Nat) (text : QString) (u : Bool), (u = true ∨ followIndexIn text ≠ none) →
      (∃ r, replaceDefinitionLinks definitions (n + 1) text n u = some r) ∧
      ∀ fuel, (replaceDefinitionLinksCalls definitions fuel text n u).length ≤ n + 1 := by
  intro n
  induction n with
  | zero =>
    intro text u _
    cases hf : findToken text u with
    | none =>
      refine ⟨⟨text, replaceDefinitionLinks_of_no_token definitions 0 text _ u hf⟩, ?_⟩
      intro fuel
      cases fuel with
      | zero => simp [replaceDefinitionLinksCalls]
      | succ fuel => simp [replaceDefinitionLinksCalls, hf]
    | some t =>
      obtain ⟨m, follow, isF⟩ := t
      refine ⟨⟨replaceAt text m (linkReplacement definitions m ((0 : Nat) : Int) follow isF), by
        rw [replaceDefinitionLinks_step definitions 0 text _ u m follow isF hf]
        simp⟩, ?_⟩
      intro fuel
      cases fuel with
      | zero => simp [replaceDefinitionLinksCalls]
      | succ fuel =>
        rw [replaceDefinitionLinksCalls_step definitions fuel text _ u m follow isF hf]
        simp
  | succ n ih =>
    intro text u hmode
    cases hf : findToken text u with
    | none =>
      refine ⟨⟨text, replaceDefinitionLinks_of_no_token definitions (n + 1) text _ u hf⟩, ?_⟩
      intro fuel
      cases fuel with
      | zero => simp [replaceDefinitionLinksCalls]
      | succ fuel => simp [replaceDefinitionLinksCalls, hf]
    | some t =>
      obtain ⟨m, follow, isF⟩ := t
      have hfollow := findToken_follow_mode text u m follow isF hmode hf
      subst hfollow
      have hd : ((n + 1 : Nat) : Int) ≠ 0 := by omega
      have hsub : ((n + 1 : Nat) : Int) - 1 = (n : Int) := by omega
      obtain ⟨⟨r, hr⟩, hcalls⟩ := ih
        (replaceAt text m (linkReplacement definitions m ((n + 1 : Nat) : Int) true isF)) true
        (Or.inl rfl)
      refine ⟨⟨r, ?_⟩, ?_⟩
      · rw [replaceDefinitionLinks_step definitions (n + 1) text _ u m true isF hf]
        simp only [ne_eq, hd, not_false_eq_true, if_true, hsub]
        exact hr
      · intro fuel
        cases fuel with
        | zero => simp [replaceDefinitionLinksCalls]
        | succ fuel =>
          rw [replaceDefinitionLinksCalls_step definitions fuel text _ u m true isF hf]
          simp only [ne_eq, hd, not_false_eq_true, if_true, hsub, List.length_cons]
          exact Nat.succ_le_succ (hcalls fuel)

/-- C23: the recursive call of replaceDefinitionLinks receives maxDepth - 1
when follow mode is in force after the choice of the regular expression, and
maxDepth otherwise. Hence a call in follow mode (useFollow set, or a text with
a follow token) with maxDepth = d, d not negative, returns a result with fuel
for d + 1 calls, its chain has at most d + 1 calls, and so at most d + 1
tokens are substituted. -/
theorem replaceDefinitionLinks_follow_depth (definitions : QMap) (text : QString) (d : Int)
    (useFollow : Bool) :
    (∀ fuel m follow isF, findToken text useFollow = some (m, follow, isF) → d ≠ 0 →
      replaceDefinitionLinks definitions (fuel + 1) text d useFollow =
        replaceDefinitionLinks definitions fuel
          (replaceAt text m (linkReplacement definitions m d follow isF))
          (if follow then d - 1 else d) follow) ∧
    (0 ≤ d → (useFollow = true ∨ followIndexIn text ≠ none) →
      (∃ r, replaceDefinitionLinks definitions (d.toNat + 1) text d useFollow = some r) ∧
      ∀ fuel,
        (replaceDefinitionLinksCalls definitions fuel text d useFollow).length ≤ d.toNat + 1 ∧
        substitutionCount (replaceDefinitionLinksCalls definitions fuel text d useFollow) ≤
          d.toNat + 1) := by
  refine ⟨?_, ?_⟩
  · intro fuel m follow isF hf hd
    rw [replaceDefinitionLinks_step definitions fuel text d useFollow m follow isF hf]
    simp only [hd, ne_eq, not_false_eq_true, if_true]
  · intro h0 hmode
    obtain ⟨hr, hcalls⟩ := follow_mode_terminates definitions d.toNat text useFollow hmode
    rw [Int.toNat_of_nonneg h0] at hr hcalls
    exact ⟨hr, fun fuel => ⟨hcalls fuel, le_trans (substitutionCount_le _) (hcalls fuel)⟩⟩

/-- C23 on the text "<jog=v> or {run=v}" with maxDepth 3: the call returns,
after three substitutions in a chain of four calls. -/
theorem replaceDefinitionLinks_follow_depth_witness :
    (0 : Int) ≤ 3 ∧ followIndexIn "<jog=v> or \x7brun=v\x7d".toList ≠ none ∧
    (∃ r, replaceDefinitionLinks followDefinitions 4 "<jog=v> or \x7brun=v\x7d".toList 3 false
      = some r) ∧
    substitutionCount (replaceDefinitionLinksCalls followDefinitions 10
      "<jog=v> or \x7brun=v\x7d".toList 3 false) = 3 ∧
    substitutionCount (replaceDefinitionLinksCalls followDefinitions 10
      "<jog=v> or \x7brun=v\x7d".toList 3 false) ≤ 4 :=
  ⟨by decide, by decide,
    ((replaceDefinitionLinks_follow_depth followDefinitions "<jog=v> or \x7brun=v\x7d".toList 3
      false).2 (by decide) (Or.inr (by decide))).1,
    by decide,
    (((replaceDefinitionLinks_follow_depth followDefinitions "<jog=v> or \x7brun=v\x7d".toList 3
      false).2 (by decide) (Or.inr (by decide))).2 10).2⟩

/-! ## getSubDefinition -/

theorem firstSubDefinition_none (pos : QString) (senses : List QString)
    (h : ∀ d ∈ senses, senseQualifies pos d = false) : firstSubDefinition pos senses = [] := by
  induction senses with
  | nil => rfl
  | cons d rest ih =>
    have hd := h d (List.mem_cons_self _ _)
    have hrest := ih (fun e he => h e (List.mem_cons_of_mem _ he))
    unfold firstSubDefinition
    unfold senseQualifies at hd
    cases hp : posIndexIn d with
    | none => simpa using hrest
    | some t =>
      obtain ⟨index, cap1⟩ := t
      rw [hp] at hd
      simp only [Bool.and_eq_false_iff, decide_eq_false_iff_not, ne_eq, not_not] at hd
      simp only []
      by_cases hc : 0 < index ∧ cap1 = pos
      · have hstr := hd.resolve_left (not_not.2 hc)
        simp only [hc, and_self, if_true, hstr, ne_eq, not_true_eq_false, if_false]
        exact hrest
      · rw [if_neg hc]
        exact hrest

theorem firstSubDefinition_first (pos : QString) (pre : List QString) (d : QString)
    (post : List QString) (hpre : ∀ e ∈ pre, senseQualifies pos e = false)
    (hd : senseQualifies pos d = true) :
    firstSubDefinition pos (pre ++ d :: post) = simplified (left d (indexOfChar '[' d)) ∧
    simplified (left d (indexOfChar '[' d)) ≠ [] := by
  induction pre with
  | nil =>
    unfold senseQualifies at hd
    simp only [List.nil_append]
    unfold firstSubDefinition
    cases hp : posIndexIn d with
    | none => simp [hp] at hd
    | some t =>
      obtain ⟨index, cap1⟩ := t
      rw [hp] at hd
      simp only [Bool.and_eq_true, decide_eq_true_eq, ne_eq] at hd
      simp only [hd.1, hd.2, and_self, if_true, ne_eq, not_false_eq_true]
  | cons e pre ih =>
    have he := hpre e (List.mem_cons_self _ _)
    obtain ⟨i1, i2⟩ := ih (fun x hx => hpre x (List.mem_cons_of_mem _ hx))
    refine ⟨?_, i2⟩
    rw [← i1]
    simp only [List.cons_append]
    conv_lhs => unfold firstSubDefinition
    unfold senseQualifies at he
    cases hp : posIndexIn e with
    | none => simp
    | some t =>
      obtain ⟨index, cap1⟩ := t
      rw [hp] at he
      simp only [Bool.and_eq_false_iff, decide_eq_false_iff_not, ne_eq, not_not] at he
      simp only []
      by_cases hc : 0 < index ∧ cap1 = pos
      · have hstr := he.resolve_left (not_not.2 hc)
        simp only [hc, and_self, if_true, hstr, ne_eq, not_true_eq_false, if_false]
      · rw [if_neg hc]

theorem posIndexIn_tagged (text pos rest : QString) (htext : '[' ∉ text) (hpos : pos ≠ [])
    (hword : ∀ c ∈ pos, isWordChar c = true)
    (hrest : ∀ c, rest.head? = some c → isWordChar c = false) :
    posIndexIn (text ++ '[' :: pos ++ rest) = some (text.length, pos) := by
  have htake : (pos ++ rest).takeWhile isWordChar = pos := by
    rw [(takeWhile_append_all pos rest hword).1]
    cases rest with
    | nil => simp
    | cons c rest => simp [List.takeWhile_cons, hrest c rfl]
  induction text with
  | nil =>
    show posIndexIn ('[' :: (pos ++ rest)) = some (0, pos)
    unfold posIndexIn
    rw [htake]
    simp [hpos]
  | cons a text ih =>
    have ha : a ≠ '[' := fun h => htext (by simp [h])
    have ih2 := ih (fun h => htext (List.mem_cons_of_mem _ h))
    simp only [List.cons_append, List.append_assoc] at ih2 ⊢
    rw [posIndexIn]
    simp only [ha, false_and, if_false, ih2, List.length_cons]

theorem indexOfChar_append (c : Char) (text rest : QString) (htext : c ∉ text) :
    indexOfChar c (text ++ c :: rest) = text.length := by
  induction text with
  | nil => simp [indexOfChar]
  | cons a text ih =>
    have ha : a ≠ c := fun h => htext (by simp [h])
    have ih2 := ih (fun h => htext (List.mem_cons_of_mem _ h))
    have hlt : ¬ ((text.length : Int) < 0) := by omega
    simp only [List.cons_append, indexOfChar, ha, if_false, List.length_cons, List.append_eq]
    rw [ih2, if_neg hlt]
    push_cast
    ring

theorem left_tagged (text rest : QString) (htext : '[' ∉ text) :
    left (text ++ '[' :: rest) (indexOfChar '[' (text ++ '[' :: rest)) = text := by
  rw [indexOfChar_append '[' text rest htext]
  unfold left
  have h1 : ¬ ((text.length : Int) < 0 ∨
      (((text ++ '[' :: rest).length : Nat) : Int) ≤ (text.length : Int)) := by
    simp only [List.length_append, List.length_cons]
    omega
  rw [if_neg h1]
  simp

/-- C24: getSubDefinition returns the empty string when the word is not a key
of the definitions map, and when no sense of its definition qualifies; else it
returns, for the first sense that qualifies, the simplified text before the
first `[` of the sense, which is not empty. A sense of the form
`text [pos ...]`, whose text holds no `[` and is not blank, qualifies for
`pos`, and the text returned for it is the simplified `text`. -/
theorem getSubDefinition_first_sense (definitions : QMap) (word pos : QString) :
    (qmapContains definitions word = false → getSubDefinition definitions word pos = []) ∧
    (qmapContains definitions word = true →
      ((∀ d ∈ splitSenses (qmapValue definitions word), senseQualifies pos d = false) →
        getSubDefinition definitions word pos = []) ∧
      (∀ pre d post, splitSenses (qmapValue definitions word) = pre ++ d :: post →
        (∀ e ∈ pre, senseQualifies pos e = false) → senseQualifies pos d = true →
        getSubDefinition definitions word pos = simplified (left d (indexOfChar '[' d)) ∧
        getSubDefinition definitions word pos ≠ [])) ∧
    (∀ text rest : QString, '[' ∉ text → simplified text ≠ [] → pos ≠ [] →
      (∀ c ∈ pos, isWordChar c = true) →
      (∀ c, rest.head? = some c → isWordChar c = false) →
      senseQualifies pos (text ++ '[' :: pos ++ rest) = true ∧
      simplified (left (text ++ '[' :: pos ++ rest)
        (indexOfChar '[' (text ++ '[' :: pos ++ rest))) = simplified text) := by
  refine ⟨?_, ?_, ?_⟩
  · intro h
    simp [getSubDefinition, h]
  · intro h
    have hg : getSubDefinition definitions word pos =
        firstSubDefinition pos (splitSenses (qmapValue definitions word)) := by
      simp [getSubDefinition, h]
    rw [hg]
    refine ⟨firstSubDefinition_none pos _, ?_⟩
    intro pre d post hsplit hpre hd
    rw [hsplit]
    obtain ⟨h1, h2⟩ := firstSubDefinition_first pos pre d post hpre hd
    exact ⟨h1, h1 ▸ h2⟩
  · intro text rest htext hblank hpos hword hrest
    have hleft : left (text ++ '[' :: pos ++ rest)
        (indexOfChar '[' (text ++ '[' :: pos ++ rest)) = text := by
      have := left_tagged text (pos ++ rest) htext
      simpa using this
    have htextne : text ≠ [] := by
      intro h
      rw [h] at hblank
      exact hblank rfl
    refine ⟨?_, by rw [hleft]⟩
    unfold senseQualifies
    rw [posIndexIn_tagged text pos rest htext hpos hword hrest, hleft]
    simp only [Bool.and_eq_true, decide_eq_true_eq, ne_eq]
    exact ⟨⟨List.length_pos.2 htextne, trivial⟩, hblank⟩

/-- C24 on followDefinitions extended by a word with two verb senses: the
earlier one is returned. -/
theorem getSubDefinition_first_sense_witness :
    qmapContains (qmapInsert "SET".toList "a group [n] / to put [v] / to fix [v pl]".toList
      followDefinitions) "SET".toList = true ∧
    splitSenses (qmapValue (qmapInsert "SET".toList
      "a group [n] / to put [v] / to fix [v pl]".toList followDefinitions) "SET".toList) =
      ["a group [n]".toList] ++ "to put [v]".toList :: ["to fix [v pl]".toList] ∧
    senseQualifies ['v'] "a group [n]".toList = false ∧
    senseQualifies ['v'] "to put [v]".toList = true ∧
    senseQualifies ['v'] "to fix [v pl]".toList = true ∧
    getSubDefinition (qmapInsert "SET".toList "a group [n] / to put [v] / to fix [v pl]".toList
      followDefinitions) "SET".toList ['v'] = "to put".toList :=
  ⟨by decide, by decide, by decide, by decide, by decide,
    (((getSubDefinition_first_sense (qmapInsert "SET".toList
      "a group [n] / to put [v] / to fix [v pl]".toList followDefinitions) "SET".toList
      ['v']).2.1 (by decide)).2 ["a group [n]".toList] "to put [v]".toList
      ["to fix [v pl]".toList] (by decide) (by decide) (by decide)).1⟩

/-! ## updateProbabilityOrder: step accounting -/

/-- C25, at the failing input: on the sample lexicon of 5 words the SELECT of
updateProbabilityOrder returns 15 rows and the function executes 15 updates,
but stepNum, 15 on entry, is still 15 on return: the rows of every class are
tied, so that they are written by the loop on a new number of blanks and by
the loop after the scan, which do not increment stepNum. On the rows of AB, BA
and CD, 9 updates are executed and stepNum grows by 3, the rows written by the
loop inside the scan. -/
theorem updateProbabilityOrder_steps_not_counted :
    sampleEnv.getNumWords [] = 5 ∧
    (selectedRows sampleDatabase.selectProbability MAX_WORD_LEN).length = 15 ∧
    (updateProbabilityOrder false sampleEnv.getAlphagram sampleDatabase.selectProbability
      15).updates.length = 15 ∧
    (updateProbabilityOrder false sampleEnv.getAlphagram sampleDatabase.selectProbability
      15).stepNum = 15 ∧
    (updateProbabilityOrderLength false getAlphagram 0 [] [] sampleRows).updates.length = 9 ∧
    (updateProbabilityOrderLength false getAlphagram 0 [] [] sampleRows).stepNum = 3 := by
  decide

/-! ## WordTableModel: the comparison functions -/

theorem char_toUpper_toLower (c : Char) : c.toLower.toUpper = c.toUpper := by
  by_cases h : 65 ≤ c.toNat ∧ c.toNat ≤ 90
  · have hc : c = Char.ofNat c.toNat := (Char.ofNat_toNat c).symm
    obtain ⟨h1, h2⟩ := h
    generalize c.toNat = n at hc h1 h2
    subst hc
    interval_cases n <;> rfl
  · have hl : c.toLower = c := by
      unfold Char.toLower
      simp only [ge_iff_le]
      rw [if_neg h]
    rw [hl]

theorem char_toUpper_toUpper (c : Char) : c.toUpper.toUpper = c.toUpper := by
  by_cases h : 97 ≤ c.toNat ∧ c.toNat ≤ 122
  · have hc : c = Char.ofNat c.toNat := (Char.ofNat_toNat c).symm
    obtain ⟨h1, h2⟩ := h
    generalize c.toNat = n at hc h1 h2
    subst hc
    interval_cases n <;> rfl
  · have hl : c.toUpper = c := by
      unfold Char.toUpper
      simp only [ge_iff_le]
      rw [if_neg h]
    rw [hl, hl]

theorem toUpper_toLower (w : QString) : toUpper (toLower w) = toUpper w := by
  simp [toUpper, toLower, char_toUpper_toLower]

theorem toUpper_toUpper (w : QString) : toUpper (toUpper w) = toUpper w := by
  simp [toUpper, char_toUpper_toUpper]

theorem lengthLessThan_iff (a b : WordItem) :
    lengthLessThan a b = true ↔
      a.word.length < b.word.length ∨
        (a.word.length = b.word.length ∧ toUpper a.word < toUpper b.word) := by
  unfold lengthLessThan lessThan
  split_ifs with h1 h2
  · simp [h1]
  · constructor
    · intro h
      exact absurd h (by simp)
    · rintro (h | ⟨h, _⟩) <;> omega
  · have he : a.word.length = b.word.length := by omega
    simp [he]

/-- C26: lengthLessThan(a, b) holds exactly when the word of a is shorter than
the word of b, or the two words have the same length and the upper-cased word
of a is lexically less than the upper-cased word of b, which is lessThan(a, b).
lengthLessThan is irreflexive, asymmetric and transitive. lessThan depends on
the words only through their upper-cased forms, so that lower-casing or
upper-casing either word does not change it. -/
theorem lengthLessThan_strict_order (a b c : WordItem) :
    (lengthLessThan a b = true ↔
      a.word.length < b.word.length ∨
        (a.word.length = b.word.length ∧ lessThan a b = true)) ∧
    (lessThan a b = true ↔ toUpper a.word < toUpper b.word) ∧
    lengthLessThan a a = false ∧
    (lengthLessThan a b = true → lengthLessThan b a = false) ∧
    (lengthLessThan a b = true → lengthLessThan b c = true → lengthLessThan a c = true) ∧
    (∀ a2 b2 : WordItem, toUpper a2.word = toUpper a.word → toUpper b2.word = toUpper b.word →
      lessThan a2 b2 = lessThan a b) ∧
    lessThan ⟨toLower a.word, a.type⟩ b = lessThan a b ∧
    lessThan a ⟨toLower b.word, b.type⟩ = lessThan a b ∧
    lessThan ⟨toUpper a.word, a.type⟩ b = lessThan a b ∧
    lessThan a ⟨toUpper b.word, b.type⟩ = lessThan a b := by
  have hless : ∀ x y : WordItem, lessThan x y = true ↔ toUpper x.word < toUpper y.word := by
    intro x y
    simp [lessThan]
  refine ⟨?_, hless a b, ?_, ?_, ?_, ?_, ?_, ?_, ?_, ?_⟩
  · rw [lengthLessThan_iff, hless]
  · rw [Bool.eq_false_iff]
    intro h
    rcases (lengthLessThan_iff a a).1 h with h | ⟨_, h⟩
    · omega
    · exact lt_irrefl _ h
  · intro h
    rw [Bool.eq_false_iff]
    intro h2
    rcases (lengthLessThan_iff a b).1 h with h | ⟨he, h⟩
    · rcases (lengthLessThan_iff b a).1 h2 with h2 | ⟨he2, _⟩ <;> omega
    · rcases (lengthLessThan_iff b a).1 h2 with h2 | ⟨_, h2⟩
      · omega
      · exact lt_asymm h h2
  · intro h h2
    rw [lengthLessThan_iff] at h h2 ⊢
    rcases h with h | ⟨he, h⟩
    · rcases h2 with h2 | ⟨he2, _⟩
      · left; omega
      · left; omega
    · rcases h2 with h2 | ⟨he2, h2⟩
      · left; omega
      · right
        exact ⟨he.trans he2, lt_trans h h2⟩
  · intro a2 b2 ha hb
    simp only [lessThan, ha, hb]
  · simp only [lessThan, toUpper_toLower]
  · simp only [lessThan, toUpper_toLower]
  · simp only [lessThan, toUpper_toUpper]
  · simp only [lessThan, toUpper_toUpper]

/-- C26 on the words "at", "AX" and "Bat": "at" is before "AX" by the
upper-cased letters, and both are before the longer word "Bat". -/
theorem lengthLessThan_strict_order_witness :
    lengthLessThan ⟨"at".toList, 0⟩ ⟨"AX".toList, 0⟩ = true ∧
    lengthLessThan ⟨"AX".toList, 0⟩ ⟨"Bat".toList, 0⟩ = true ∧
    lengthLessThan ⟨"at".toList, 0⟩ ⟨"Bat".toList, 0⟩ = true ∧
    lengthLessThan ⟨"AX".toList, 0⟩ ⟨"at".toList, 0⟩ = false :=
  ⟨by decide, by decide,
    (lengthLessThan_strict_order ⟨"at".toList, 0⟩ ⟨"AX".toList, 0⟩ ⟨"Bat".toList, 0⟩).2.2.2.2.1
      (by decide) (by decide),
    (lengthLessThan_strict_order ⟨"at".toList, 0⟩ ⟨"AX".toList, 0⟩ ⟨"Bat".toList, 0⟩).2.2.2.1
      (by decide)⟩

/-! ## WordTableModel: hook letters -/

theorem setInsert_mem (c x : Char) (l : List Char) : x ∈ setInsert c l ↔ x = c ∨ x ∈ l := by
  induction l with
  | nil => simp [setInsert]
  | cons d rest ih =>
    unfold setInsert
    split_ifs with h1 h2
    · simp
    · simp only [List.mem_cons, ih]
      tauto
    · have hcd : c = d := le_antisymm (not_lt.1 h2) (not_lt.1 h1)
      simp only [List.mem_cons, hcd]
      tauto

theorem setInsert_sorted (c : Char) (l : List Char) (hl : l.Pairwise (fun a b => a < b)) :
    (setInsert c l).Pairwise (fun a b => a < b) := by
  induction l with
  | nil => simp [setInsert]
  | cons d rest ih =>
    obtain ⟨hd, hrest⟩ := List.pairwise_cons.1 hl
    unfold setInsert
    split_ifs with h1 h2
    · refine List.pairwise_cons.2 ⟨?_, hl⟩
      intro b hb
      rcases List.mem_cons.1 hb with h | h
      · rw [h]
        exact h1
      · exact lt_trans h1 (hd b h)
    · refine List.pairwise_cons.2 ⟨?_, ih hrest⟩
      intro b hb
      rcases (setInsert_mem c b rest).1 hb with h | h
      · rw [h]
        exact h2
      · exact hd b h
    · exact hl

theorem insertHookLetters_spec (charAt : QString → Option Char) (words : List QString)
    (letters : List Char) (hat : ∀ w ∈ words, charAt w ≠ none)
    (hl : letters.Pairwise (fun a b => a < b)) :
    ∃ s, insertHookLetters charAt words letters = some s ∧
      s.Pairwise (fun a b => a < b) ∧
      ∀ c, c ∈ s ↔ c ∈ letters ∨ ∃ w ∈ words, ∃ f, charAt w = some f ∧ c = f.toLower := by
  induction words generalizing letters with
  | nil => exact ⟨letters, rfl, hl, by simp⟩
  | cons w rest ih =>
    obtain ⟨f, hf⟩ := Option.ne_none_iff_exists'.1 (hat w (List.mem_cons_self _ _))
    obtain ⟨s, h1, h2, h3⟩ := ih (setInsert f.toLower letters)
      (fun x hx => hat x (List.mem_cons_of_mem _ hx)) (setInsert_sorted _ _ hl)
    refine ⟨s, by simp only [insertHookLetters, hf, h1], h2, ?_⟩
    intro c
    rw [h3 c, setInsert_mem]
    constructor
    · rintro ((h | h) | ⟨x, hx, g, hg, hc⟩)
      · exact Or.inr ⟨w, List.mem_cons_self _ _, f, hf, h⟩
      · exact Or.inl h
      · exact Or.inr ⟨x, List.mem_cons_of_mem _ hx, g, hg, hc⟩
    · rintro (h | ⟨x, hx, g, hg, hc⟩)
      · exact Or.inl (Or.inr h)
      · rcases List.mem_cons.1 hx with h | h
        · subst h
          rw [hf] at hg
          injection hg with hg
          subst hg
          exact Or.inl (Or.inl hc)
        · exact Or.inr ⟨x, h, g, hg, hc⟩

/-- C27: when the words that the pattern search returns are not empty,
getFrontHookLetters returns a string in strictly ascending order, hence without
duplicates, whose characters are exactly the lower-cased first characters of
the words found for "?" + word; getBackHookLetters does the same with the last
characters of the words found for word + "?". -/
theorem hookLetters_sorted_distinct (search : QString → List QString) (word : QString)
    (hfront : ∀ w ∈ search ('?' :: word), w ≠ [])
    (hback : ∀ w ∈ search (word ++ ['?']), w ≠ []) :
    (∃ s, getFrontHookLetters search word = some s ∧
      s.Pairwise (fun a b => a < b) ∧ s.Nodup ∧
      ∀ c, c ∈ s ↔ ∃ w ∈ search ('?' :: word), ∃ f, w.head? = some f ∧ c = f.toLower) ∧
    (∃ s, getBackHookLetters search word = some s ∧
      s.Pairwise (fun a b => a < b) ∧ s.Nodup ∧
      ∀ c, c ∈ s ↔ ∃ w ∈ search (word ++ ['?']), ∃ f, w.getLast? = some f ∧ c = f.toLower) := by
  constructor
  · obtain ⟨s, h1, h2, h3⟩ := insertHookLetters_spec (fun w => w.head?) (search ('?' :: word)) []
      (fun w hw => by
        cases w with
        | nil => exact absurd rfl (hfront [] hw)
        | cons a t => simp)
      List.Pairwise.nil
    refine ⟨s, h1, h2, h2.imp (fun h => ne_of_lt h), ?_⟩
    intro c
    rw [h3 c]
    simp
  · obtain ⟨s, h1, h2, h3⟩ := insertHookLetters_spec (fun w => w.getLast?)
      (search (word ++ ['?'])) []
      (fun w hw => by
        simp only [ne_eq, List.getLast?_eq_none_iff]
        exact hback w hw)
      List.Pairwise.nil
    refine ⟨s, h1, h2, h2.imp (fun h => ne_of_lt h), ?_⟩
    intro c
    rw [h3 c]
    simp

/-- C27 on the word AT of the sample lexicon: the front hooks of EAT and BAT
are "be", the back hook of ATE is "e". -/
theorem hookLetters_sorted_distinct_witness :
    (∀ w ∈ sampleSearch ('?' :: "AT".toList), w ≠ []) ∧
    (∀ w ∈ sampleSearch ("AT".toList ++ ['?']), w ≠ []) ∧
    getFrontHookLetters sampleSearch "AT".toList = some "be".toList ∧
    getBackHookLetters sampleSearch "AT".toList = some "e".toList ∧
    ∃ s, getFrontHookLetters sampleSearch "AT".toList = some s ∧
      s.Pairwise (fun a b => a < b) :=
  ⟨by decide, by decide, by decide, by decide,
    (hookLetters_sorted_distinct sampleSearch "AT".toList (by decide) (by decide)).1.imp
      (fun _ h => ⟨h.1, h.2.1⟩)⟩

/-! ## updateProbabilityOrder: the tie-break key -/

theorem lex_cons_cons (x y : Char) (s t : QString) :
    x :: s < y :: t ↔ x < y ∨ (x = y ∧ s < t) := by
  constructor
  · intro h
    cases h with
    | cons h => exact Or.inr ⟨rfl, h⟩
    | rel h => exact Or.inl h
  · rintro (h | ⟨rfl, h⟩)
    · exact List.Lex.rel h
    · exact List.Lex.cons h

theorem lex_append_of_length_eq (a1 a2 : QString) (h : a1.length = a2.length)
    (w1 w2 : QString) :
    a1 ++ w1 < a2 ++ w2 ↔ a1 < a2 ∨ (a1 = a2 ∧ w1 < w2) := by
  induction a1 generalizing a2 with
  | nil =>
    have h2 : a2 = [] := List.length_eq_zero.1 h.symm
    subst h2
    constructor
    · intro hw
      exact Or.inr ⟨rfl, hw⟩
    · rintro (hw | ⟨_, hw⟩)
      · exact absurd hw (lt_irrefl _)
      · exact hw
  | cons x s ih =>
    cases a2 with
    | nil => simp at h
    | cons y t =>
      have hl : s.length = t.length := by simpa using h
      simp only [List.cons_append, lex_cons_cons, ih t hl, List.cons.injEq]
      tauto

theorem insertTied_fold (alphagram : QString → QString) (len : Nat) (words : List QString) :
    ∀ (done : List QString) (m : QMap), KeysAscending m →
      m.Perm (done.map (fun w => (radixKey alphagram w, w))) →
      (done ++ words).Nodup → (∀ w ∈ done ++ words, w.length = len) →
      KeysAscending (words.foldl (fun m w => qmapInsert (radixKey alphagram w) w m) m) ∧
      (words.foldl (fun m w => qmapInsert (radixKey alphagram w) w m) m).Perm
        ((done ++ words).map (fun w => (radixKey alphagram w, w))) := by
  induction words with
  | nil =>
    intro done m hm hp _ _
    simpa using ⟨hm, hp⟩
  | cons w words ih =>
    intro done m hm hp hnodup hlen
    have hfresh : ∀ e ∈ m, e.1 ≠ radixKey alphagram w := by
      intro e he hk
      obtain ⟨v, hv, rfl⟩ := List.mem_map.1 (hp.mem_iff.1 he)
      have hvw : v = w := radixKey_injective alphagram v w
        ((hlen v (List.mem_append_left _ hv)).trans
          (hlen w (List.mem_append_right _ (List.mem_cons_self _ _))).symm) hk
      subst hvw
      have hd := (List.nodup_append.1 hnodup).2.2
      exact hd hv (List.mem_cons_self _ _)
    obtain ⟨q1, q2⟩ := qmapInsert_fresh (radixKey alphagram w) w m hm hfresh
    have hp2 : (qmapInsert (radixKey alphagram w) w m).Perm
        ((done ++ [w]).map (fun w => (radixKey alphagram w, w))) := by
      rw [List.map_append]
      exact q1.trans ((List.Perm.cons _ hp).trans (List.perm_append_singleton _ _).symm)
    have h := ih (done ++ [w]) _ q2 hp2 (by simpa using hnodup) (by simpa using hlen)
    simpa using h

/-- C28: for words of equal length whose alphagrams have the length of the
words, comparing the tie-break keys alphagram(w) ++ w is comparing the pairs
(alphagram(w), w) lexicographically, and words of equal length with equal keys
are equal. Hence the map of the tied words of a run, distinct words of one
length, holds every word once, in ascending key order, and its size is the
number of the words; and the band written for a row, max_probability_order -
min_probability_order + 1, is the number of rows of its class tied with it. -/
theorem radixKey_orders_pairs (alphagram : QString → QString) (len : Nat) :
    (∀ v w : QString, v.length = w.length → (alphagram v).length = v.length →
      (alphagram w).length = w.length →
      (radixKey alphagram v < radixKey alphagram w ↔
        alphagram v < alphagram w ∨ (alphagram v = alphagram w ∧ v < w))) ∧
    (∀ v w : QString, v.length = w.length → radixKey alphagram v = radixKey alphagram w →
      v = w) ∧
    (∀ words : List QString, words.Nodup → (∀ w ∈ words, w.length = len) →
      KeysAscending (insertTied alphagram words) ∧
      ((insertTied alphagram words).map Prod.snd).Perm words ∧
      (insertTied alphagram words).length = words.length) ∧
    (∀ (rows : List ProbRow) (stepNum : Int) (progress : List Int),
      rows.Pairwise selectOrder → (∀ r ∈ rows, r.word.length = len) →
      (rows.map (fun r => (r.word, r.numBlanks))).Nodup →
      ∀ r ∈ rows,
      ∀ u ∈ (updateProbabilityOrderLength false alphagram stepNum [] progress rows).updates,
        u.word = r.word → u.numBlanks = r.numBlanks →
          u.maxProbOrder - u.minProbOrder + 1 =
            (rows.countP (inRun r.numBlanks r.combinations) : Int)) := by
  refine ⟨?_, ?_, ?_, ?_⟩
  · intro v w hvw hv hw
    exact lex_append_of_length_eq (alphagram v) (alphagram w) (by omega) v w
  · intro v w hvw h
    exact radixKey_injective alphagram v w hvw h
  · intro words hnodup hlen
    obtain ⟨h1, h2⟩ := insertTied_fold alphagram len words [] [] List.Pairwise.nil
      (List.Perm.refl _) (by simpa using hnodup) (by simpa using hlen)
    simp only [List.nil_append] at h2
    have h3 := h2.map Prod.snd
    simp only [List.map_map] at h3
    have hid : (Prod.snd ∘ fun w => (radixKey alphagram w, w)) = id := rfl
    rw [hid, List.map_id] at h3
    refine ⟨h1, h3, ?_⟩
    have := h2.length_eq
    simpa using this
  · intro rows stepNum progress hsorted hlen hnodup r hr u hu hw hb
    obtain ⟨hs, _⟩ := updates_characterized alphagram len rows stepNum progress hsorted hlen
      hnodup
    obtain ⟨r2, hr2, rfl⟩ := hs u hu
    obtain ⟨b1, b2, b3, b4⟩ := expectedUpdate_fields alphagram rows r2
    have hrr : r2 = r := row_of_key rows hnodup r r2 hr hr2 (b3 ▸ hw) (b4 ▸ hb)
    subst hrr
    rw [b1, b2, countGreaterEq, countGreater, countP_fromRun]
    push_cast
    ring

/-- C28 on the tied words BA and AB, inserted in this order: the keys ABBA and
ABAB put AB first, and the map holds both words. -/
theorem radixKey_orders_pairs_witness :
    ["BA".toList, "AB".toList].Nodup ∧
    (∀ w ∈ ["BA".toList, "AB".toList], w.length = 2) ∧
    insertTied getAlphagram ["BA".toList, "AB".toList] =
      [("ABAB".toList, "AB".toList), ("ABBA".toList, "BA".toList)] ∧
    (insertTied getAlphagram ["BA".toList, "AB".toList]).length = 2 ∧
    (radixKey getAlphagram "AB".toList < radixKey getAlphagram "BA".toList ↔
      getAlphagram "AB".toList < getAlphagram "BA".toList ∨
        (getAlphagram "AB".toList = getAlphagram "BA".toList ∧ "AB".toList < "BA".toList)) :=
  ⟨by decide, by decide, by decide,
    ((radixKey_orders_pairs getAlphagram 2).2.2.1 ["BA".toList, "AB".toList] (by decide)
      (by decide)).2.2,
    (radixKey_orders_pairs getAlphagram 2).1 "AB".toList "BA".toList (by decide) (by decide)
      (by decide)⟩

/-! ## WordTableModel: addWords -/

theorem qlistInsert_length (l more : List WordItem) (value : WordItem) :
    qlistInsert (l ++ more) (l.length : Int) value = l ++ value :: more := by
  simp [qlistInsert]

theorem insertRows_blank (WordNormal : Int) (old : List WordItem) (n : Nat) :
    (List.range n).foldl (fun l _ => qlistInsert l (old.length : Int) ⟨[], WordNormal⟩) old =
      old ++ List.replicate n ⟨[], WordNormal⟩ := by
  induction n with
  | zero => simp
  | succ n ih =>
    rw [List.range_succ, List.foldl_append, ih]
    simp only [List.foldl_cons, List.foldl_nil]
    rw [qlistInsert_length]
    simp [List.replicate_succ]

theorem updateAt_length {α : Type} (f : α → α) (pre : List α) (x : α) (post : List α) :
    updateAt f (pre ++ x :: post) pre.length = pre ++ f x :: post := by
  induction pre with
  | nil => rfl
  | cons a pre ih => simp [updateAt, ih]

theorem addWordsLoop_fills (type : Int) (blank : WordItem) (words : List QString) :
    ∀ (pre : List WordItem) (lastAdded : Int),
      addWordsLoop type words (pre.length : Int)
          ⟨pre ++ List.replicate words.length blank, lastAdded⟩ =
        ⟨pre ++ words.map (fun w => ⟨w, type⟩), lastAdded⟩ := by
  induction words with
  | nil =>
    intro pre lastAdded
    simp [addWordsLoop]
  | cons w words ih =>
    intro pre lastAdded
    have hrow : (0 : Int) ≤ (pre.length : Int) ∧ (pre.length : Int) <
        ((pre ++ blank :: List.replicate words.length blank).length : Int) := by
      simp only [List.length_append, List.length_cons, List.length_replicate]
      omega
    have h := ih (pre ++ [⟨w, type⟩]) lastAdded
    simp only [List.length_append, List.length_singleton, Nat.cast_add, Nat.cast_one,
      List.append_assoc, List.singleton_append] at h
    simp only [addWordsLoop, List.length_cons, List.replicate_succ, setDataEdit, rowCount, hrow,
      and_self, if_true, Int.toNat_ofNat, updateAt_length, setDataUser, List.map_cons]
    have hrow2 : (0 : Int) ≤ (pre.length : Int) ∧ (pre.length : Int) <
        ((pre ++ ({ word := w, type := blank.type } : WordItem) ::
          List.replicate words.length blank).length : Int) := by
      simp only [List.length_append, List.length_cons, List.length_replicate]
      omega
    simp only [hrow2, and_self, if_true, updateAt_length]
    exact h

/-- C29: with a qSort that returns its input sorted, a permutation in which no
item is before an item that the comparison function puts before it, addWords
returns true and leaves a model with rowCount = old rowCount + |words|, whose
word list is a permutation of the old items followed by the new words, each
with the given type, is sorted with respect to the active comparison function
(lengthLessThan when the words are sorted by length, lessThan otherwise), and
whose lastAddedIndex is -1. -/
theorem addWords_sorted_permutation
    (qSort : (WordItem → WordItem → Bool) → List WordItem → List WordItem)
    (sortByLength : Bool) (WordNormal : Int) (model : WordTableModel) (words : List QString)
    (type : Int)
    (hsort : ∀ l, (qSort (activeComparator sortByLength) l).Perm l ∧
      (qSort (activeComparator sortByLength) l).Pairwise
        (fun a b => activeComparator sortByLength b a = false)) :
    (addWords qSort sortByLength WordNormal model words type).1 = true ∧
    rowCount (addWords qSort sortByLength WordNormal model words type).2 =
      rowCount model + words.length ∧
    (addWords qSort sortByLength WordNormal model words type).2.wordList.Perm
      (model.wordList ++ words.map (fun w => ⟨w, type⟩)) ∧
    (addWords qSort sortByLength WordNormal model words type).2.wordList.Pairwise
      (fun a b => activeComparator sortByLength b a = false) ∧
    (addWords qSort sortByLength WordNormal model words type).2.lastAddedIndex = -1 := by
  have hfill : addWordsLoop type words (rowCount model)
      (insertRows WordNormal model (rowCount model) words.length).2 =
      ⟨model.wordList ++ words.map (fun w => ⟨w, type⟩), model.lastAddedIndex⟩ := by
    simp only [insertRows, rowCount, Int.toNat_ofNat, insertRows_blank]
    exact addWordsLoop_fills type ⟨[], WordNormal⟩ words model.wordList model.lastAddedIndex
  have hlist : (addWords qSort sortByLength WordNormal model words type).2.wordList =
      qSort (activeComparator sortByLength)
        (model.wordList ++ words.map (fun w => ⟨w, type⟩)) := by
    simp only [addWords, hfill]
    cases sortByLength <;> simp [insertRows, sort, activeComparator]
  obtain ⟨hp, hs⟩ := hsort (model.wordList ++ words.map (fun w => ⟨w, type⟩))
  refine ⟨by simp [addWords, insertRows], ?_, ?_, ?_, by simp [addWords, insertRows]⟩
  · simp only [rowCount]
    rw [hlist, hp.length_eq]
    simp
  · rw [hlist]
    exact hp
  · rw [hlist]
    exact hs

theorem insertionQSort_contract (compare : WordItem → WordItem → Bool)
    (htotal : ∀ a b, compare b a = false ∨ compare a b = false)
    (htrans : ∀ a b c, compare b a = false → compare c b = false → compare c a = false)
    (l : List WordItem) :
    (insertionQSort compare l).Perm l ∧
      (insertionQSort compare l).Pairwise (fun a b => compare b a = false) :=
  ⟨List.perm_insertionSort _ l,
    @List.sorted_insertionSort _ (fun a b => compare b a = false) _ ⟨htotal⟩
      ⟨fun a b c h1 h2 => htrans a b c h1 h2⟩ l⟩

theorem lessThan_contract (l : List WordItem) :
    (insertionQSort lessThan l).Perm l ∧
      (insertionQSort lessThan l).Pairwise (fun a b => lessThan b a = false) := by
  apply insertionQSort_contract
  · intro a b
    simp only [lessThan, decide_eq_false_iff_not, not_lt]
    exact le_total _ _
  · intro a b c
    simp only [lessThan, decide_eq_false_iff_not, not_lt]
    exact le_trans

/-- C29 on a model with the words "dog" and "Zebra", to which "cat", "ant" and
"DOG" are added with type 2, sorted by lexical value. -/
theorem addWords_sorted_permutation_witness :
    (∀ l, (insertionQSort (activeComparator false) l).Perm l ∧
      (insertionQSort (activeComparator false) l).Pairwise
        (fun a b => activeComparator false b a = false)) ∧
    (addWords insertionQSort false 0 ⟨[⟨"dog".toList, 1⟩, ⟨"Zebra".toList, 1⟩], 1⟩
      ["cat".toList, "ant".toList, "DOG".toList] 2) =
      (true, ⟨[⟨"ant".toList, 2⟩, ⟨"cat".toList, 2⟩, ⟨"dog".toList, 1⟩, ⟨"DOG".toList, 2⟩,
        ⟨"Zebra".toList, 1⟩], -1⟩) ∧
    rowCount (addWords insertionQSort false 0 ⟨[⟨"dog".toList, 1⟩, ⟨"Zebra".toList, 1⟩], 1⟩
      ["cat".toList, "ant".toList, "DOG".toList] 2).2 =
      rowCount ⟨[⟨"dog".toList, 1⟩, ⟨"Zebra".toList, 1⟩], 1⟩ +
        (["cat".toList, "ant".toList, "DOG".toList].length : Int) :=
  ⟨lessThan_contract, by decide,
    (addWords_sorted_permutation insertionQSort false 0
      ⟨[⟨"dog".toList, 1⟩, ⟨"Zebra".toList, 1⟩], 1⟩ ["cat".toList, "ant".toList, "DOG".toList] 2
      lessThan_contract).2.1⟩

/-! ## WordListSaveDialog: moveSelection -/

theorem itemsWhere_append (p : Nat → Bool) (a b : List QString) (i : Nat) :
    itemsWhere p i (a ++ b) = itemsWhere p i a ++ itemsWhere p (i + a.length) b := by
  induction a generalizing i with
  | nil => simp [itemsWhere]
  | cons x a ih =>
    have h : i + 1 + a.length = i + (a.length + 1) := by omega
    simp only [List.cons_append, itemsWhere, List.length_cons, List.append_eq]
    rw [ih (i + 1), h]
    split_ifs <;> simp

theorem itemsWhere_congr (p q : Nat → Bool) (a : List QString) (i : Nat)
    (h : ∀ j, i ≤ j → j < i + a.length → p j = q j) : itemsWhere p i a = itemsWhere q i a := by
  induction a generalizing i with
  | nil => rfl
  | cons x a ih =>
    have h0 : p i = q i := h i (le_refl _) (by simp)
    have ih2 := ih (i + 1) (fun j h1 h2 => h j (by omega) (by simp only [List.length_cons]; omega))
    simp only [itemsWhere, h0, ih2]

theorem itemsWhere_false (p : Nat → Bool) (a : List QString) (i : Nat)
    (h : ∀ j, i ≤ j → p j = false) : itemsWhere p i a = [] := by
  induction a generalizing i with
  | nil => rfl
  | cons x a ih =>
    simp only [itemsWhere, h i (le_refl _), Bool.false_eq_true, if_false]
    exact ih (i + 1) (fun j hj => h j (by omega))

theorem itemsWhere_true (p : Nat → Bool) (a : List QString) (i : Nat)
    (h : ∀ j, i ≤ j → p j = true) : itemsWhere p i a = a := by
  induction a generalizing i with
  | nil => rfl
  | cons x a ih =>
    simp only [itemsWhere, h i (le_refl _), if_true]
    rw [ih (i + 1) (fun j hj => h j (by omega))]

theorem itemsWhere_length (rows : List Nat) (a : List QString) (i : Nat) :
    (itemsWhere (fun i => decide (i ∉ rows)) i a).length +
      (itemsWhere (fun i => decide (i ∈ rows)) i a).length = a.length := by
  induction a generalizing i with
  | nil => rfl
  | cons x a ih =>
    have := ih (i + 1)
    simp only [itemsWhere, decide_not, Bool.not_eq_true', decide_eq_false_iff_not,
      decide_eq_true_eq, List.length_cons] at this ⊢
    split_ifs <;> simp only [List.length_cons] <;> omega

theorem exists_split_at (a : List QString) (r : Nat) (h : r < a.length) :
    ∃ a1 x a2, a = a1 ++ x :: a2 ∧ a1.length = r := by
  induction a generalizing r with
  | nil => simp at h
  | cons y a ih =>
    cases r with
    | zero => exact ⟨[], y, a, rfl, rfl⟩
    | succ r =>
      obtain ⟨a1, x, a2, h1, h2⟩ := ih r (by simpa using h)
      exact ⟨y :: a1, x, a2, by rw [h1]; rfl, by simp [h2]⟩

theorem eraseIdx_length (a1 : List QString) (x : QString) (rest : List QString) :
    (a1 ++ x :: rest).eraseIdx a1.length = a1 ++ rest := by
  induction a1 with
  | nil => rfl
  | cons y a1 ih => simp [List.eraseIdx, ih]

theorem getElem?_length (a1 : List QString) (x : QString) (rest : List QString) :
    (a1 ++ x :: rest)[a1.length]? = some x := by
  induction a1 with
  | nil => simp
  | cons y a1 ih => simpa using ih

theorem itemsWhere_cons_pos (p : Nat → Bool) (i : Nat) (x : QString) (xs : List QString)
    (h : p i = true) : itemsWhere p i (x :: xs) = x :: itemsWhere p (i + 1) xs := by
  simp [itemsWhere, h]

theorem itemsWhere_cons_neg (p : Nat → Bool) (i : Nat) (x : QString) (xs : List QString)
    (h : p i = false) : itemsWhere p i (x :: xs) = itemsWhere p (i + 1) xs := by
  simp [itemsWhere, h]

theorem moveRows_spec (rows : List Nat) (hsorted : rows.Pairwise (fun a b => a > b)) :
    ∀ (a b d0 tail : List QString), (∀ r ∈ rows, r < a.length) →
      moveRows (d0.length : Int) rows (a ++ b) (d0 ++ tail) =
        some (remainingItems rows a ++ b, d0 ++ selectedItems rows a ++ tail) := by
  induction rows with
  | nil =>
    intro a b d0 tail _
    simp [moveRows, remainingItems, selectedItems, itemsWhere_true, itemsWhere_false]
  | cons r rows ih =>
    intro a b d0 tail hrange
    obtain ⟨hhead, htail⟩ := List.pairwise_cons.1 hsorted
    obtain ⟨a1, x, a2, ha, hlen⟩ := exists_split_at a r (hrange r (List.mem_cons_self _ _))
    subst ha
    subst hlen
    have hget : (a1 ++ x :: a2 ++ b)[a1.length]? = some x := by
      have := getElem?_length a1 x (a2 ++ b)
      simpa using this
    have herase : (a1 ++ x :: a2 ++ b).eraseIdx a1.length = a1 ++ (a2 ++ b) := by
      have := eraseIdx_length a1 x (a2 ++ b)
      simpa using this
    have hinsert : qlistInsert (d0 ++ tail) (d0.length : Int) x = d0 ++ x :: tail := by
      simp [qlistInsert]
    have hrec := ih htail a1 (a2 ++ b) d0 (x :: tail) (fun r hr => hhead r hr)
    have hsel : selectedItems (a1.length :: rows) (a1 ++ x :: a2) =
        selectedItems rows a1 ++ [x] := by
      unfold selectedItems
      rw [itemsWhere_append]
      have h1 : itemsWhere (fun i => decide (i ∈ a1.length :: rows)) 0 a1 =
          itemsWhere (fun i => decide (i ∈ rows)) 0 a1 := by
        apply itemsWhere_congr
        intro j _ hj
        have hne : j ≠ a1.length := by omega
        simp [hne]
      have h2 : itemsWhere (fun i => decide (i ∈ a1.length :: rows)) (0 + a1.length + 1) a2
          = [] := by
        apply itemsWhere_false
        intro j hj
        simp only [List.mem_cons, decide_eq_false_iff_not, not_or]
        refine ⟨by omega, fun hm => ?_⟩
        have := hhead j hm
        omega
      rw [h1, itemsWhere_cons_pos _ _ _ _ (by simp), h2]
    have hrem : remainingItems (a1.length :: rows) (a1 ++ x :: a2) =
        remainingItems rows a1 ++ a2 := by
      unfold remainingItems
      rw [itemsWhere_append]
      have h1 : itemsWhere (fun i => decide (i ∉ a1.length :: rows)) 0 a1 =
          itemsWhere (fun i => decide (i ∉ rows)) 0 a1 := by
        apply itemsWhere_congr
        intro j _ hj
        have hne : j ≠ a1.length := by omega
        simp [hne]
      have h2 : itemsWhere (fun i => decide (i ∉ a1.length :: rows)) (0 + a1.length + 1) a2
          = a2 := by
        apply itemsWhere_true
        intro j hj
        simp only [List.mem_cons, decide_eq_true_eq, not_or]
        refine ⟨by omega, fun hm => ?_⟩
        have := hhead j hm
        omega
      rw [h1, itemsWhere_cons_neg _ _ _ _ (by simp), h2]
    rw [moveRows, hget]
    show moveRows (d0.length : Int) rows ((a1 ++ x :: a2 ++ b).eraseIdx a1.length)
      (qlistInsert (d0 ++ tail) (d0.length : Int) x) = _
    rw [herase, hinsert, hrec, hsel, hrem]
    simp

theorem qlistInsert_length_succ {α : Type} (l : List α) (i : Int) (value : α) :
    (qlistInsert l i value).length = l.length + 1 := by
  simp only [qlistInsert, List.length_append, List.length_cons, List.length_take,
    List.length_drop]
  omega

theorem moveRows_length (insertRow : Int) (rows : List Nat) :
    ∀ (src dest : List QString) (r : List QString × List QString),
      moveRows insertRow rows src dest = some r → r.2.length = dest.length + rows.length := by
  induction rows with
  | nil =>
    intro src dest r h
    simp only [moveRows, Option.some.injEq] at h
    rw [← h]
    simp
  | cons row rows ih =>
    intro src dest r h
    rw [moveRows] at h
    cases hg : src[row]? with
    | none => simp [hg] at h
    | some item =>
      rw [hg] at h
      have := ih _ _ r h
      rw [this, qlistInsert_length_succ]
      simp only [List.length_cons]
      omega

theorem sorted_rows (selectedRows : List Nat) (hnodup : selectedRows.Nodup) :
    (selectedRows.insertionSort (fun a b => a ≥ b)).Pairwise (fun a b => a > b) ∧
    ∀ r, r ∈ selectedRows.insertionSort (fun a b => a ≥ b) ↔ r ∈ selectedRows := by
  have hperm := List.perm_insertionSort (fun a b : Nat => a ≥ b) selectedRows
  have hsorted : (selectedRows.insertionSort (fun a b => a ≥ b)).Pairwise (fun a b => a ≥ b) :=
    List.sorted_insertionSort (fun a b : Nat => a ≥ b) selectedRows
  have hnd : (selectedRows.insertionSort (fun a b => a ≥ b)).Pairwise (fun a b => a ≠ b) :=
    hperm.nodup_iff.2 hnodup
  refine ⟨(hsorted.and hnd).imp (fun h => ?_), fun r => hperm.mem_iff⟩
  obtain ⟨h1, h2⟩ := h
  omega

/-- C30: for a selection of distinct rows of the source list, moveSelection
leaves the destination list as its old contents followed by the selected items
in ascending order of their rows, the source list as its old contents without
the selected rows, the other items in their order, and the total number of
items is what it was. -/
theorem moveSelection_moves_selected (selectedRows : List Nat) (src dest : List QString)
    (hnodup : selectedRows.Nodup) (hrange : ∀ r ∈ selectedRows, r < src.length) :
    moveSelection selectedRows src dest =
      some (remainingItems selectedRows src, dest ++ selectedItems selectedRows src) ∧
    (selectedItems selectedRows src).length = selectedRows.length ∧
    (remainingItems selectedRows src).length + (dest ++ selectedItems selectedRows src).length =
      src.length + dest.length := by
  obtain ⟨hsorted, hmem⟩ := sorted_rows selectedRows hnodup
  have hspec := moveRows_spec _ hsorted src [] dest []
    (fun r hr => hrange r ((hmem r).1 hr))
  have hsel : selectedItems (selectedRows.insertionSort (fun a b => a ≥ b)) src =
      selectedItems selectedRows src := by
    unfold selectedItems
    apply itemsWhere_congr
    intro j _ _
    simp only [hmem j]
  have hrem : remainingItems (selectedRows.insertionSort (fun a b => a ≥ b)) src =
      remainingItems selectedRows src := by
    unfold remainingItems
    apply itemsWhere_congr
    intro j _ _
    simp only [hmem j]
  have hlen := itemsWhere_length selectedRows src 0
  refine ⟨?_, ?_, ?_⟩
  · unfold moveSelection
    simp only [List.append_nil] at hspec
    rw [hspec, hsel, hrem]
  · have h := moveRows_length _ _ _ _ _ hspec
    simp only [List.append_nil, List.length_append, List.length_insertionSort] at h
    rw [← hsel]
    omega
  · simp only [remainingItems, selectedItems, List.length_append] at hlen ⊢
    omega

/-- C30 on a source list of five items of which the rows 3, 0 and 4 are
selected, in this order, and a destination list of one item. -/
theorem moveSelection_moves_selected_witness :
    [3, 0, 4].Nodup ∧
    (∀ r ∈ [3, 0, 4], r < ["A".toList, "B".toList, "C".toList, "D".toList, "E".toList].length) ∧
    selectedItems [3, 0, 4] ["A".toList, "B".toList, "C".toList, "D".toList, "E".toList] =
      ["A".toList, "D".toList, "E".toList] ∧
    remainingItems [3, 0, 4] ["A".toList, "B".toList, "C".toList, "D".toList, "E".toList] =
      ["B".toList, "C".toList] ∧
    moveSelection [3, 0, 4] ["A".toList, "B".toList, "C".toList, "D".toList, "E".toList]
        ["W".toList] =
      some (remainingItems [3, 0, 4]
          ["A".toList, "B".toList, "C".toList, "D".toList, "E".toList],
        ["W".toList] ++ selectedItems [3, 0, 4]
          ["A".toList, "B".toList, "C".toList, "D".toList, "E".toList]) :=
  ⟨by decide, by decide, by decide, by decide,
    (moveSelection_moves_selected [3, 0, 4]
      ["A".toList, "B".toList, "C".toList, "D".toList, "E".toList] ["W".toList] (by decide)
      (by decide)).1⟩

/-! ## replaceDefinitionLinks: tokens that refer to missing words -/

theorem fallsBack_of_find (definitions : QMap) (text : QString) (d : Int) (u : Bool)
    (m : TokenMatch) (follow isF : Bool) (hf : findToken text u = some (m, follow, isF))
    (h : fallsBack definitions (text, d, u) = true) :
    d = 0 ∨ getSubDefinition definitions (toUpper m.word) m.pos = [] := by
  unfold fallsBack at h
  simp only [hf, decide_eq_true_eq] at h
  exact h

theorem getSubDefinition_of_absent (definitions : QMap) (word pos : QString)
    (h : qmapContains definitions word = false) : getSubDefinition definitions word pos = [] := by
  simp [getSubDefinition, h]

theorem falls_back_within_depth (definitions : QMap) :
    ∀ (n : Nat) (text : QString) (d : Int) (u : Bool), 0 ≤ d → openCount text ≤ n →
      (openCount text : Int) ≤ d + 1 →
      (∀ c ∈ replaceDefinitionLinksCalls definitions (n + 1) text d u,
        fallsBack definitions c = true) →
      ∃ r, replaceDefinitionLinks definitions (n + 1) text d u = some r ∧
        findToken r false = none ∧ (text ≠ [] → r ≠ []) := by
  intro n
  induction n with
  | zero =>
    intro text d u _ hn _ _
    have h0 : openCount text = 0 := by omega
    have hf := findToken_none_of_openCount text u h0
    exact ⟨text, replaceDefinitionLinks_of_no_token definitions 0 text d u hf,
      findToken_none_of_openCount text false h0, fun h => h⟩
  | succ n ih =>
    intro text d u hd hn hdepth hchain
    cases hf : findToken text u with
    | none =>
      refine ⟨text, replaceDefinitionLinks_of_no_token definitions _ text d u hf, ?_, fun h => h⟩
      rw [findToken_none_iff] at hf ⊢
      exact hf
    | some t =>
      obtain ⟨m, follow, isF⟩ := t
      rw [replaceDefinitionLinksCalls_step definitions (n + 1) text d u m follow isF hf] at hchain
      have hfail := fallsBack_of_find definitions text d u m follow isF hf
        (hchain _ (List.mem_cons_self _ _))
      have hrep := linkReplacement_fail definitions m d follow isF hfail
      obtain ⟨hr0, hrne⟩ := fallback_facts text u m follow isF hf
      have hcnt := openCount_replaceAt text u m follow isF hf _ hr0
      have hne := replaceAt_ne_nil text m _ hrne
      rw [replaceDefinitionLinks_step definitions (n + 1) text d u m follow isF hf, hrep]
      rw [hrep] at hchain
      by_cases h0 : d = 0
      · simp only [h0, ne_eq, not_true_eq_false, if_false]
        refine ⟨_, rfl, ?_, fun _ => hne⟩
        apply findToken_none_of_openCount
        rw [h0] at hdepth
        omega
      · simp only [ne_eq, h0, not_false_eq_true, if_true] at hchain ⊢
        have htail : ∀ c ∈ replaceDefinitionLinksCalls definitions (n + 1)
            (replaceAt text m (if follow then m.word else toUpper m.word))
            (if follow then d - 1 else d) follow, fallsBack definitions c = true :=
          fun c hc => hchain c (List.mem_cons_of_mem _ hc)
        cases follow
        · simp only [Bool.false_eq_true, if_false] at hcnt hne htail ⊢
          obtain ⟨r, h1, h2, h3⟩ := ih (replaceAt text m (toUpper m.word)) d false hd
            (by omega) (by omega) htail
          exact ⟨r, h1, h2, fun _ => h3 hne⟩
        · simp only [if_true] at hcnt hne htail ⊢
          obtain ⟨r, h1, h2, h3⟩ := ih (replaceAt text m m.word) (d - 1) true (by omega)
            (by omega) (by omega) htail
          exact ⟨r, h1, h2, fun _ => h3 hne⟩

theorem falls_back_replace_tokens (definitions : QMap) :
    ∀ (n : Nat) (text : QString) (d : Int), d ≠ 0 → Char.ofNat 123 ∉ text →
      openCount text ≤ n →
      (∀ c ∈ replaceDefinitionLinksCalls definitions (n + 1) text d false,
        fallsBack definitions c = true) →
      ∃ r, replaceDefinitionLinks definitions (n + 1) text d false = some r ∧
        findToken r false = none ∧ (text ≠ [] → r ≠ []) := by
  intro n
  induction n with
  | zero =>
    intro text d _ _ hn _
    have h0 : openCount text = 0 := by omega
    have hf := findToken_none_of_openCount text false h0
    exact ⟨text, replaceDefinitionLinks_of_no_token definitions 0 text d false hf, hf,
      fun h => h⟩
  | succ n ih =>
    intro text d hd hbrace hn hchain
    cases hf : findToken text false with
    | none =>
      exact ⟨text, replaceDefinitionLinks_of_no_token definitions _ text d false hf, hf,
        fun h => h⟩
    | some t =>
      obtain ⟨m, follow, isF⟩ := t
      have hfollow : follow = false := by
        rcases findToken_some text false m follow isF hf with ⟨_, _, h3⟩ | ⟨_, h2, _, _⟩
        · have := indexInToken_none_of_not_mem (Char.ofNat 123) (Char.ofNat 125) text hbrace
          rw [followIndexIn] at h3
          rw [h3] at this
          exact Option.noConfusion this
        · exact h2
      subst hfollow
      rw [replaceDefinitionLinksCalls_step definitions (n + 1) text d false m false isF hf]
        at hchain
      have hfail := fallsBack_of_find definitions text d false m false isF hf
        (hchain _ (List.mem_cons_self _ _))
      have hrep := linkReplacement_fail definitions m d false isF hfail
      obtain ⟨hr0, hrne⟩ := fallback_facts text false m false isF hf
      obtain ⟨hw, _⟩ := findToken_word_chars text false m false isF hf
      have hcnt := openCount_replaceAt text false m false isF hf _ hr0
      have hne := replaceAt_ne_nil text m _ hrne
      rw [hrep] at hchain
      simp only [Bool.false_eq_true, if_false] at hrep hcnt hne
      simp only [ne_eq, hd, not_false_eq_true, if_true, Bool.false_eq_true, if_false] at hchain
      rw [replaceDefinitionLinks_step definitions (n + 1) text d false m false isF hf, hrep]
      simp only [ne_eq, hd, not_false_eq_true, if_true, Bool.false_eq_true, if_false]
      obtain ⟨r, h1, h2, h3⟩ := ih (replaceAt text m (toUpper m.word)) d hd
        (brace_not_mem_replaceAt text m hw hbrace) (by omega)
        (fun c hc => hchain c (List.mem_cons_of_mem _ hc))
      exact ⟨r, h1, h2, fun _ => h3 hne⟩

set_option maxRecDepth 8000 in
theorem nested_token_resolution :
    replaceDefinitionLinks
        [("XA".toList, "\x7bq=r\x7d\x7bq=r\x7d\x7bq=r\x7d\x7bq=r\x7d [c]".toList)] 4
        "\x7bx\x7ba=b\x7d=c\x7d".toList 3 false =
      some "xa (qq\x7bq=r\x7d\x7bq=r\x7d)".toList := by
  decide

/-- C7 as stated fails, for two reasons. With an empty definitions map and five
follow tokens, replaceDefinitionLinks with maxDepth 3 replaces four of them and
returns a text in which the fifth follow token remains. And in the text
"{x{a=b}=c}", whose only token refers to A, with a definitions map that has no
entry for A, the fallback for A forms the token "{xa=c}"; XA is defined, its
sub-definition brings four follow tokens, and two of them remain in the
result. -/
theorem fifth_follow_token_remains :
    (replaceDefinitionLinks [] 4
        "\x7ba=b\x7d\x7ba=b\x7d\x7ba=b\x7d\x7ba=b\x7d\x7ba=b\x7d".toList 3 false =
      some "aaaa\x7ba=b\x7d".toList ∧
    followIndexIn "aaaa\x7ba=b\x7d".toList = some ⟨4, ['a'], ['b'], 5⟩ ∧
    ¬ ∃ fuel r, replaceDefinitionLinks [] fuel
        "\x7ba=b\x7d\x7ba=b\x7d\x7ba=b\x7d\x7ba=b\x7d\x7ba=b\x7d".toList 3 false = some r ∧
      followIndexIn r = none ∧ replaceIndexIn r = none) ∧
    (tokenCount "\x7bx\x7ba=b\x7d=c\x7d".toList = 1 ∧
    findToken "\x7bx\x7ba=b\x7d=c\x7d".toList false = some (⟨2, ['a'], ['b'], 5⟩, true, true) ∧
    qmapContains [("XA".toList, "\x7bq=r\x7d\x7bq=r\x7d\x7bq=r\x7d\x7bq=r\x7d [c]".toList)] ['A']
      = false ∧
    replaceDefinitionLinks [("XA".toList, "\x7bq=r\x7d\x7bq=r\x7d\x7bq=r\x7d\x7bq=r\x7d [c]".toList)]
        4 "\x7bx\x7ba=b\x7d=c\x7d".toList 3 false =
      some "xa (qq\x7bq=r\x7d\x7bq=r\x7d)".toList ∧
    followIndexIn "xa (qq\x7bq=r\x7d\x7bq=r\x7d)".toList = some ⟨6, ['q'], ['r'], 5⟩ ∧
    ¬ ∃ fuel r, replaceDefinitionLinks
        [("XA".toList, "\x7bq=r\x7d\x7bq=r\x7d\x7bq=r\x7d\x7bq=r\x7d [c]".toList)] fuel
        "\x7bx\x7ba=b\x7d=c\x7d".toList 3 false = some r ∧
      followIndexIn r = none ∧ replaceIndexIn r = none) := by
  refine ⟨⟨by decide, by decide, ?_⟩, by decide, by decide, by decide,
    nested_token_resolution, by decide, ?_⟩
  · rintro ⟨fuel, r, h, hf, _⟩
    have h4 : replaceDefinitionLinks [] 4
        "\x7ba=b\x7d\x7ba=b\x7d\x7ba=b\x7d\x7ba=b\x7d\x7ba=b\x7d".toList 3 false =
        some "aaaa\x7ba=b\x7d".toList := by decide
    have hr := replaceDefinitionLinks_unique [] fuel 4 _ _ _ _ _ h h4
    rw [hr] at hf
    revert hf
    decide
  · rintro ⟨fuel, r, h, hf, _⟩
    have hr := replaceDefinitionLinks_unique _ fuel 4 _ _ _ _ _ h nested_token_resolution
    rw [hr] at hf
    revert hf
    decide

/-- C7 as amended: for every definitions map, whatever other words it defines,
if every token that the resolution meets (the tokens of the text and the tokens
that a substitution forms) refers to a word for which getSubDefinition finds
no sub-definition, as it does for every word that is not a key of the map, and
the text holds at most four characters that open a token, or holds no opening
brace at all (so only replace tokens, however many), then
replaceDefinitionLinks(text, 3, false) returns a text that holds no follow
token and no replace token; the result is not empty unless the text is. One
call more than the number of opening characters suffices. -/
theorem replaceDefinitionLinks_missing_targets (definitions : QMap) (text : QString)
    (hmissing : ∀ c ∈ replaceDefinitionLinksCalls definitions (openCount text + 1) text 3 false,
      fallsBack definitions c = true)
    (hbound : openCount text ≤ 4 ∨ Char.ofNat 123 ∉ text) :
    (∃ r, replaceDefinitionLinks definitions (openCount text + 1) text 3 false = some r ∧
      followIndexIn r = none ∧ replaceIndexIn r = none ∧ (text ≠ [] → r ≠ [])) ∧
    (∀ word pos, qmapContains definitions word = false →
      getSubDefinition definitions word pos = []) ∧
    (∀ (d : Int) (u : Bool) (m : TokenMatch) (follow isF : Bool),
      findToken text u = some (m, follow, isF) →
      qmapContains definitions (toUpper m.word) = false →
      fallsBack definitions (text, d, u) = true) := by
  refine ⟨?_, getSubDefinition_of_absent definitions, ?_⟩
  · rcases hbound with h | h
    · obtain ⟨r, h1, h2, h3⟩ := falls_back_within_depth definitions (openCount text) text 3
        false (by omega) (le_refl _) (by omega) hmissing
      exact ⟨r, h1, ((findToken_none_iff r false).1 h2).1, ((findToken_none_iff r false).1 h2).2,
        h3⟩
    · obtain ⟨r, h1, h2, h3⟩ := falls_back_replace_tokens definitions (openCount text) text 3
        (by omega) h (le_refl _) hmissing
      exact ⟨r, h1, ((findToken_none_iff r false).1 h2).1, ((findToken_none_iff r false).1 h2).2,
        h3⟩
  · intro d u m follow isF hf habsent
    unfold fallsBack
    simp only [hf, decide_eq_true_eq]
    exact Or.inr (getSubDefinition_of_absent definitions _ _ habsent)

/-- C7 on a definitions map that defines RUN and JOG, and a sense with a
follow token and a replace token that refer to WALK and HOP, which the map
does not define: both tokens are replaced by their words. -/
theorem replaceDefinitionLinks_missing_targets_witness :
    qmapContains followDefinitions "RUN".toList = true ∧
    getSubDefinition followDefinitions "RUN".toList ['v'] = "to move fast".toList ∧
    qmapContains followDefinitions "WALK".toList = false ∧
    qmapContains followDefinitions "HOP".toList = false ∧
    (∀ c ∈ replaceDefinitionLinksCalls followDefinitions
        (openCount "see \x7bwalk=v\x7d or <hop=v>".toList + 1)
        "see \x7bwalk=v\x7d or <hop=v>".toList 3 false, fallsBack followDefinitions c = true) ∧
    openCount "see \x7bwalk=v\x7d or <hop=v>".toList ≤ 4 ∧
    replaceDefinitionLinks followDefinitions 3 "see \x7bwalk=v\x7d or <hop=v>".toList 3 false =
      some "see walk or hop".toList ∧
    ∃ r, replaceDefinitionLinks followDefinitions
        (openCount "see \x7bwalk=v\x7d or <hop=v>".toList + 1)
        "see \x7bwalk=v\x7d or <hop=v>".toList 3 false = some r ∧
      followIndexIn r = none ∧ replaceIndexIn r = none ∧
      ("see \x7bwalk=v\x7d or <hop=v>".toList ≠ [] → r ≠ []) :=
  ⟨by decide, by decide, by decide, by decide, by decide, by decide, by decide,
    (replaceDefinitionLinks_missing_targets followDefinitions
      "see \x7bwalk=v\x7d or <hop=v>".toList (by decide) (Or.inl (by decide))).1⟩

end Zyzzyva
